import Mathlib

/-!
# Verification of the SimpleHNSWIndex engine

A shallow embedding of the HNSW vector-index core found in the repository
(`SimpleHNSWIndex`: the distance kernel `squaredEuclideanDistance`, the
single-layer beam search `_searchLayer`, the maintenance operations
`pruneNodeConnections` / `insert` / `setIndex`, the public `search`, and the
JSON state codec `toJSON` / `fromJSON` plus the unsupported binary codec).

Modelling conventions, mirroring the C++ source:

* Vectors are `List ℚ` (the source uses `double`; exact rationals keep all
  distance comparisons faithful — every ordering the engine performs is on
  squared distances, which are polynomial in the inputs).
* `NodeIndex` is `Nat`; the sentinel `INVALID_NODE`
  (`std::numeric_limits<size_t>::max()`, externalized as `-1`) is modelled by
  `Option Nat` with `none` playing the sentinel role.
* Code that throws (`std::invalid_argument`, `NotImplementedException`)
  returns `Except HErr _`.  Member functions that mutate `this` and may throw
  mid-way return the (possibly partially mutated) state together with
  `Option HErr`, exactly as the C++ object is left when an exception escapes.
* The `std::mt19937` draw inside `getInsertLayer` is modelled by passing the
  drawn value as an explicit argument to `insert` (the source clamps the draw
  into `[0, L-1]`; the model applies the same clamp), so reachability
  statements quantify over all possible draws.
* The source's heaps (`std::priority_queue`, `push_heap`/`pop_heap`) and its
  `nth_element`-based selection are modelled by sorted lists maintained with a
  stable insertion (`insPair`); where the C++ leaves the relative order of
  exactly-equal distances unspecified, the model fixes one admissible order.
* The public `search` of the source converts squared distances to Euclidean
  distances (`std::sqrt(p.first)`) element-wise at its return boundary.  The
  model's `search` returns those squared distances (keeping the definition
  executable); theorems about the public boundary speak of `Real.sqrt` of the
  returned values, which is exactly the number the C++ function returns.
* The JSON codec is modelled on a tree of JSON values (`Json`); the source
  goes through `nlohmann::json` text, whose `dump`/`parse` round-trip is the
  identity on such trees.
-/

namespace HNSW

/-- Error taxonomy of the engine (the source throws `std::invalid_argument`
with distinguishing messages, and `NotImplementedException` for the binary
codec). -/
inductive HErr where
  | dimensionMismatch
  | invalidEntry
  | invalidParam
  | malformed
  | unsupported
deriving DecidableEq, Repr

instance {ε α : Type} [DecidableEq ε] [DecidableEq α] :
    DecidableEq (Except ε α) := fun a b =>
  match a, b with
  | .error x, .error y => decidable_of_iff (x = y) (by simp)
  | .ok x, .ok y => decidable_of_iff (x = y) (by simp)
  | .error _, .ok _ => isFalse (fun h => by cases h)
  | .ok _, .error _ => isFalse (fun h => by cases h)

/-- A stored vector (the source's `using Vector = std::vector<double>`). -/
abbrev Vec := List ℚ

/-- One node of a layer: payload vector, same-layer connection indices and
the descent pointer (`layerBelow`; `none` models `INVALID_NODE`). -/
structure LayerNode where
  vector : Vec
  connections : List Nat
  layerBelow : Option Nat
deriving DecidableEq, Repr

instance : Inhabited LayerNode := ⟨⟨[], [], none⟩⟩

/-- A layer is an ordered sequence of nodes; a node's identifier is its
position. -/
abbrev Layer := List LayerNode

/-- The value `Σ (aᵢ - bᵢ)²` of the source's accumulation loop (meaningful
when the lengths agree, which `squaredEuclideanDistance` checks first). -/
def sqVal (a b : Vec) : ℚ :=
  ((a.zip b).map (fun p => (p.1 - p.2) * (p.1 - p.2))).sum

/-- `squaredEuclideanDistance` of the source: rejects length mismatches,
otherwise returns the sum of squared coordinate differences. -/
def squaredEuclideanDistance (a b : Vec) : Except HErr ℚ :=
  if a.length ≠ b.length then .error .dimensionMismatch
  else .ok (sqVal a b)

/-- Stable insertion into a list sorted ascending by the first (distance)
component: the new element goes in front of the first strictly greater key.
This is the deterministic model of the source's heap pushes and sorts. -/
def insPair (x : ℚ × Nat) : List (ℚ × Nat) → List (ℚ × Nat)
  | [] => [x]
  | y :: ys => if y.1 < x.1 then y :: insPair x ys else x :: y :: ys

/-- Insertion sort by distance (models the source's `std::sort` on
`(distance, index)` pairs; agrees with it whenever distances are distinct). -/
def sortPairs : List (ℚ × Nat) → List (ℚ × Nat)
  | [] => []
  | x :: xs => insPair x (sortPairs xs)

/-- Key of the max-heap top of the `best` result collection: since the model
keeps `best` sorted ascending, the top (largest distance) is the last
element.  (Only consulted when `best` is non-empty, as in the source.) -/
def bestTopKey (best : List (ℚ × Nat)) : ℚ :=
  ((best.getLast?).map Prod.fst).getD 0

/-- The source's `emplaceBest`: admit the candidate if the result collection
is not yet full (`< ef`), otherwise replace the current worst element when
the candidate is strictly closer. -/
def emplaceBest (ef : Nat) (c : ℚ × Nat) (best : List (ℚ × Nat)) :
    List (ℚ × Nat) :=
  if best.length < ef then insPair c best
  else if c.1 < bestTopKey best then insPair c best.dropLast
  else best

/-- Number of not-yet-visited slots; part of the termination measure of the
beam-search loop. -/
def countFalse (l : List Bool) : Nat := l.count false

/-- The neighbor-expansion step of `_searchLayer`: walk the popped node's
connection list; skip out-of-range and already visited indices; mark a fresh
neighbor visited, compute its distance (which can fail with
`DimensionMismatch`, as in the source) and admit it to both the candidate
queue and the result collection when it can improve the result. -/
def exploreConns (graph : Layer) (query : Vec) (ef : Nat) :
    List Nat → List (ℚ × Nat) → List (ℚ × Nat) → List Bool →
    Except HErr (List (ℚ × Nat) × List (ℚ × Nat) × List Bool)
  | [], best, cands, visited => .ok (best, cands, visited)
  | nb :: rest, best, cands, visited =>
    if nb ≥ graph.length then exploreConns graph query ef rest best cands visited
    else if visited.getD nb false then
      exploreConns graph query ef rest best cands visited
    else
      let visited' := visited.set nb true
      match squaredEuclideanDistance (graph.getD nb default).vector query with
      | .error e => .error e
      | .ok dist =>
        if best.length < ef ∨ dist < bestTopKey best then
          exploreConns graph query ef rest (emplaceBest ef (dist, nb) best)
            (insPair (dist, nb) cands) visited'
        else exploreConns graph query ef rest best cands visited'

theorem exploreConns_measure (graph : Layer) (query : Vec) (ef : Nat) :
    ∀ (conns : List Nat) (best cands : List (ℚ × Nat)) (visited : List Bool)
      (b' c' : List (ℚ × Nat)) (v' : List Bool),
      visited.length = graph.length →
      exploreConns graph query ef conns best cands visited = .ok (b', c', v') →
      c'.length + countFalse v' ≤ cands.length + countFalse visited ∧
        v'.length = graph.length := by
  intro conns
  induction conns with
  | nil =>
    intro best cands visited b' c' v' hlen h
    simp only [exploreConns, Except.ok.injEq, Prod.mk.injEq] at h
    obtain ⟨h1, h2, h3⟩ := h
    subst h2; subst h3
    exact ⟨le_refl _, hlen⟩
  | cons nb rest ih =>
    intro best cands visited b' c' v' hlen h
    simp only [exploreConns] at h
    by_cases h1 : nb ≥ graph.length
    · simp only [h1, if_true] at h
      exact ih best cands visited b' c' v' hlen h
    · simp only [h1, if_false] at h
      by_cases h2 : visited.getD nb false
      · simp only [h2, if_true] at h
        exact ih best cands visited b' c' v' hlen h
      · simp only [h2, if_false] at h
        have hnb : nb < visited.length := by omega
        have hset_len : (visited.set nb true).length = graph.length := by
          rw [List.length_set]; exact hlen
        have hget2 : visited[nb] = false := by
          rw [List.getD_eq_getElem?_getD, List.getElem?_eq_getElem hnb] at h2
          simpa using h2
        have hcount : countFalse (visited.set nb true) + 1 = countFalse visited := by
          unfold countFalse
          have hpos : 0 < visited.count false := by
            have hmem : false ∈ visited := by rw [← hget2]; exact List.getElem_mem hnb
            exact List.count_pos_iff.mpr hmem
          rw [List.count_set true false visited nb hnb]
          simp only [hget2, beq_self_eq_true, if_true,
            show ((true == false) = true) = False by simp, if_false]
          omega
        cases hd : squaredEuclideanDistance (graph.getD nb default).vector query with
        | error e => rw [hd] at h; exact absurd h (by simp)
        | ok dist =>
          rw [hd] at h
          by_cases h3 : best.length < ef ∨ dist < bestTopKey best
          · simp only [h3, if_true] at h
            have := ih (emplaceBest ef (dist, nb) best) (insPair (dist, nb) cands)
              (visited.set nb true) b' c' v' hset_len h
            refine ⟨?_, this.2⟩
            have hlen2 : (insPair (dist, nb) cands).length = cands.length + 1 := by
              clear this h
              induction cands with
              | nil => simp [insPair]
              | cons y ys ihy =>
                simp only [insPair]
                by_cases hy : y.1 < (dist, nb).1
                · simp [hy, ihy]
                · simp [hy]
            omega
          · simp only [h3, if_false] at h
            have := ih best cands (visited.set nb true) b' c' v' hset_len h
            omega

theorem insPair_length (x : ℚ × Nat) (l : List (ℚ × Nat)) :
    (insPair x l).length = l.length + 1 := by
  induction l with
  | nil => simp [insPair]
  | cons y ys ih =>
    simp only [insPair]
    by_cases hy : y.1 < x.1
    · simp [hy, ih]
    · simp [hy]

/-- The main loop of `_searchLayer`: pop the closest candidate; stop
expanding it when it cannot improve the full result collection; otherwise
expand its connections.  The loop terminates because every iteration pops
one candidate and candidates are only added when a fresh node is visited;
the structural `fuel` argument bounds `cands.length + countFalse visited`,
a quantity every iteration strictly decreases (`exploreConns_measure`), so
with the fuel chosen by `_searchLayer` the `0` branch is never reached. -/
def searchLoop (graph : Layer) (query : Vec) (ef : Nat) :
    Nat → List (ℚ × Nat) → List (ℚ × Nat) → List Bool →
    Except HErr (List (ℚ × Nat))
  | 0, best, _, _ => .ok (sortPairs best)
  | fuel + 1, best, cands, visited =>
    match cands with
    | [] => .ok (sortPairs best)
    | c :: rest =>
      if ¬ best.isEmpty ∧ bestTopKey best < c.1 then
        searchLoop graph query ef fuel best rest visited
      else
        match exploreConns graph query ef
            (graph.getD c.2 default).connections best rest visited with
        | .error e => .error e
        | .ok (b', c', v') => searchLoop graph query ef fuel b' c' v'

/-- `_searchLayer` of the source: beam search within one layer.  Checks, in
the source's order: empty layer → empty result; invalid entry (the sentinel
or out of range) → `InvalidEntry`; `ef ≤ 0` → empty result; then seeds the
candidate queue and the result collection with the entry node and runs the
loop, finally returning the results sorted ascending by (squared) distance. -/
def _searchLayer (graph : Layer) (entry : Option Nat) (query : Vec)
    (ef : Int) : Except HErr (List (ℚ × Nat)) :=
  if graph.isEmpty then .ok []
  else
    match entry with
    | none => .error .invalidEntry
    | some e =>
      if e ≥ graph.length then .error .invalidEntry
      else if ef ≤ 0 then .ok []
      else
        match squaredEuclideanDistance (graph.getD e default).vector query with
        | .error err => .error err
        | .ok entryDist =>
          searchLoop graph query ef.toNat (graph.length + 1)
            (emplaceBest ef.toNat (entryDist, e) [])
            [(entryDist, e)]
            ((List.replicate graph.length false).set e true)

/-- The scoring pass of `pruneNodeConnections`: walk the node's connection
list in order, drop the node's own index and out-of-range indices, and pair
each surviving connection with its squared distance from the node's own
vector (a distance computation that can fail with `DimensionMismatch`). -/
def pruneScore (layer : Layer) (own : Vec) (i : Nat) :
    List Nat → Except HErr (List (ℚ × Nat))
  | [] => .ok []
  | c :: rest =>
    if c = i ∨ c ≥ layer.length then pruneScore layer own i rest
    else
      match squaredEuclideanDistance own (layer.getD c default).vector with
      | .error e => .error e
      | .ok d =>
        match pruneScore layer own i rest with
        | .error e => .error e
        | .ok scored => .ok ((d, c) :: scored)

/-- The rebuild pass of `pruneNodeConnections`: push each kept connection in
order, skipping indices already pushed (the source's `containsConnection`
check against the list being rebuilt). -/
def rebuildConns : List (ℚ × Nat) → List Nat → List Nat
  | [], acc => acc
  | e :: rest, acc =>
    rebuildConns rest (if e.2 ∈ acc then acc else acc ++ [e.2])

/-- `pruneNodeConnections` of the source: no-op on an out-of-range index or
an empty connection list; otherwise score the connections (dropping self and
out-of-range entries), keep the `maxConnections` closest, sort ascending and
de-duplicate.  (The source selects the closest with `nth_element` followed by
`sort`; the model sorts stably and takes the prefix, which agrees whenever
the distances at the cut boundary are distinct.) -/
def pruneNodeConnections (cap : Nat) (layer : Layer) (i : Nat) :
    Except HErr Layer :=
  if i ≥ layer.length then .ok layer
  else if (layer.getD i default).connections.isEmpty then .ok layer
  else
    match pruneScore layer (layer.getD i default).vector i
        (layer.getD i default).connections with
    | .error e => .error e
    | .ok scored =>
      if scored.isEmpty then
        .ok (layer.set i { layer.getD i default with connections := [] })
      else
        .ok (layer.set i
          { layer.getD i default with
            connections := rebuildConns ((sortPairs scored).take cap) [] })

theorem pruneNodeConnections_length (cap : Nat) (layer : Layer) (i : Nat)
    (layer' : Layer) (h : pruneNodeConnections cap layer i = .ok layer') :
    layer'.length = layer.length := by
  unfold pruneNodeConnections at h
  split at h
  · injection h with h; subst h; rfl
  · split at h
    · injection h with h; subst h; rfl
    · split at h
      · simp at h
      · split at h
        · injection h with h; subst h; simp
        · injection h with h; subst h; simp

/-- The per-layer pruning loop of `setIndex`: prune every node of the layer
in index order; an exception leaves the layer as mutated so far.  The loop
counter is the structural `fuel`; since `pruneNodeConnections` preserves the
layer's length (`pruneNodeConnections_length`), fuel `layer.length` makes
the guarded loop run exactly the source's `layer.size()` iterations. -/
def pruneLayerFrom (cap : Nat) : Nat → Layer → Nat → Layer × Option HErr
  | 0, layer, _ => (layer, none)
  | fuel + 1, layer, i =>
    if i < layer.length then
      match pruneNodeConnections cap layer i with
      | .error e => (layer, some e)
      | .ok layer' => pruneLayerFrom cap fuel layer' (i + 1)
    else (layer, none)

/-- The layer loop of `setIndex` (prune every node of every layer; stop at
the first failing layer, leaving the index partially pruned). -/
def setIndexLayers (cap : Nat) : List Layer → List Layer × Option HErr
  | [] => ([], none)
  | l :: rest =>
    match pruneLayerFrom cap l.length l 0 with
    | (l', some e) => (l' :: rest, some e)
    | (l', none) =>
      match setIndexLayers cap rest with
      | (rest', e) => (l' :: rest', e)

/-- The index state: the four tuning scalars and the layers.  `L` is stored
as `Nat` (the constructor rejects non-positive values) and `maxConnections`
as the already-clamped `max 1 _` value, as the source's constructor leaves
them. -/
structure HIndex where
  L : Nat
  mL : ℚ
  efc : Int
  maxConnections : Nat
  index : List Layer
deriving DecidableEq, Repr

/-- The source's constructor `SimpleHNSWIndex(L, mL, efc,
maxConnectionsPerLayer)`: rejects `L ≤ 0`, clamps the connection cap to at
least 1, and allocates `L` empty layers. -/
def mkIndex (L : Int) (mL : ℚ) (efc : Int) (maxConnectionsPerLayer : Int) :
    Except HErr HIndex :=
  if L ≤ 0 then .error .invalidParam
  else .ok ⟨L.toNat, mL, efc, (max 1 maxConnectionsPerLayer).toNat,
    List.replicate L.toNat []⟩

/-- `setIndex` of the source: replace the layers wholesale, then prune every
node of every layer.  A pruning failure escapes as an exception, leaving the
partially pruned index in place. -/
def setIndex (s : HIndex) (newIndex : List Layer) : HIndex × Option HErr :=
  match setIndexLayers s.maxConnections newIndex with
  | (idx', e) => ({ s with index := idx' }, e)

/-- Add the back-edge `newIndex` to node `nbr`'s connection list unless it is
already present (the source's `containsConnection` guard before
`push_back`). -/
def addBackEdge (g : Layer) (nbr newIndex : Nat) : Layer :=
  if newIndex ∈ (g.getD nbr default).connections then g
  else g.set nbr
    { g.getD nbr default with
      connections := (g.getD nbr default).connections ++ [newIndex] }

/-- Remove every occurrence of `nbr` from node `i`'s connection list (the
source's unconditional `erase`/`remove` on the new node's list). -/
def eraseConn (g : Layer) (i nbr : Nat) : Layer :=
  g.set i
    { g.getD i default with
      connections := (g.getD i default).connections.filter (· ≠ nbr) }

/-- The back-edge loop of `insert`: for each selected neighbor (in range),
add a back-edge to the new node unless already present, prune the neighbor,
and then unconditionally erase that neighbor from the new node's own
connection list (the source's `erase`/`remove` call carries no guard). -/
def backEdges (cap : Nat) (newIndex : Nat) :
    List Nat → Layer → Layer × Option HErr
  | [], g => (g, none)
  | nbr :: rest, g =>
    if nbr ≥ g.length then backEdges cap newIndex rest g
    else
      match pruneNodeConnections cap (addBackEdge g nbr newIndex) nbr with
      | .error e => (addBackEdge g nbr newIndex, some e)
      | .ok g2 =>
        backEdges cap newIndex rest (eraseConn g2 newIndex nbr)

/-- The descent pointer given to a node inserted into layer `n`: the current
size of layer `n+1` (the position its counterpart will occupy there), or the
sentinel for the last layer. -/
def descendPtr (L n : Nat) (idx : List Layer) : Option Nat :=
  if n < L - 1 then some (idx.getD (n + 1) []).length else none

/-- The linking phase of `insert` within one (non-empty, participating)
layer: append the new node whose connections are the up-to-`cap` closest
search results, prune it, run the back-edge loop over the selected
neighbors, and prune the new node once more. -/
def linkNewNode (cap : Nat) (vec : Vec) (lb : Option Nat)
    (nns : List (ℚ × Nat)) (graph : Layer) : Layer × Option HErr :=
  match pruneNodeConnections cap
      (graph ++ [(⟨vec, (nns.map Prod.snd).take cap, lb⟩ : LayerNode)])
      graph.length with
  | .error e => (graph ++ [⟨vec, (nns.map Prod.snd).take cap, lb⟩], some e)
  | .ok graph2 =>
    match backEdges cap graph.length ((nns.map Prod.snd).take cap) graph2 with
    | (g, some e) => (g, some e)
    | (g3, none) =>
      match pruneNodeConnections cap g3 graph.length with
      | .error e => (g3, some e)
      | .ok graph4 => (graph4, none)

/-- The update of `startV` at the end of a participating layer: follow the
old entry's descent pointer in the mutated layer (the source guards the
lookup by `startV < graph.size()` and otherwise propagates the sentinel). -/
def nextStart (graph : Layer) (startV : Option Nat) : Option Nat :=
  match startV with
  | some v => if v < graph.length then (graph.getD v default).layerBelow else none
  | none => none

/-- The layer loop of `insert` (`for n in 0..L-1`), acting on the layer list
with the running entry point `startV`.  An empty layer receives a node
outright; above the drawn layer (`n < l`) the loop only routes via a beam-1
search; at and below it the loop beam-searches with width `efc`, links the
new node, prunes, and descends through the best entry's `layerBelow`.  An
exception (from a distance computation or an invalid entry) aborts the loop,
leaving the layers mutated so far.  The structural `fuel` counts the
remaining iterations; `insert` starts it at `L` with `n = 0`, so the guarded
loop runs exactly the source's `L` iterations. -/
def insertGo (efc : Int) (cap : Nat) (vec : Vec) (l : Nat) (L : Nat) :
    Nat → Nat → List Layer → Option Nat → List Layer × Option HErr
  | 0, _, idx, _ => (idx, none)
  | fuel + 1, n, idx, startV =>
    if n < L then
      if (idx.getD n []).isEmpty then
        insertGo efc cap vec l L fuel (n + 1)
          (idx.set n (idx.getD n [] ++ [⟨vec, [], descendPtr L n idx⟩])) startV
      else if n < l then
        match _searchLayer (idx.getD n []) startV vec 1 with
        | .error e => (idx, some e)
        | .ok res =>
          insertGo efc cap vec l L fuel (n + 1) idx
            (some (match res with | [] => 0 | r :: _ => r.2))
      else
        match _searchLayer (idx.getD n []) startV vec efc with
        | .error e => (idx, some e)
        | .ok nns =>
          match linkNewNode cap vec (descendPtr L n idx) nns (idx.getD n []) with
          | (g, some e) => (idx.set n g, some e)
          | (graph4, none) =>
            insertGo efc cap vec l L fuel (n + 1) (idx.set n graph4)
              (nextStart graph4 startV)
    else (idx, none)

/-- `insert` of the source.  The layer draw of `getInsertLayer` (a clamped
sample of `⌊-ln u · mL⌋`) is passed in as `draw`; the source clamps it into
`[0, L-1]` and the model applies the same clamp, so quantifying over `draw`
covers exactly the source's possible draws.  Returns the updated state and
the escaped exception, if any. -/
def HIndex.insert (s : HIndex) (vec : Vec) (draw : Nat) :
    HIndex × Option HErr :=
  match insertGo s.efc s.maxConnections vec (min draw (s.L - 1)) s.L s.L 0
      s.index (some 0) with
  | (idx', e) => ({ s with index := idx' }, e)

/-- The layer-descent loop of `search`: search the current layer from the
running entry; on an empty result move on unchanged; otherwise descend via
the best node's `layerBelow`, or — when that is the sentinel — re-run the
layer search and return its results. -/
def searchGo (query : Vec) (ef : Int) :
    List Layer → Nat → Except HErr (List (ℚ × Nat))
  | [], _ => .ok []
  | g :: rest, bestV =>
    match _searchLayer g (some bestV) query ef with
    | .error e => .error e
    | .ok r =>
      match r with
      | [] => searchGo query ef rest bestV
      | (_, b) :: _ =>
        match (g.getD b default).layerBelow with
        | none => _searchLayer g (some b) query ef
        | some nb => searchGo query ef rest nb

/-- `search` of the source, up to the element-wise square root it applies at
the return boundary: the source returns `(sqrt d, i)` for each `(d, i)` this
model returns (`out.emplace_back(std::sqrt(p.first), p.second)`). -/
def HIndex.search (s : HIndex) (query : Vec) (ef : Int) :
    Except HErr (List (ℚ × Nat)) :=
  if s.index.isEmpty ∨ (s.index.getD 0 []).isEmpty then .ok []
  else searchGo query ef s.index 0

/-- A JSON value tree (the model of `nlohmann::json`; the source serializes
such a tree to text with `dump` and re-reads it with `parse`, an identity
round-trip at tree level). -/
inductive Json where
  | null
  | bool (b : Bool)
  | num (q : ℚ)
  | str (s : String)
  | arr (elems : List Json)
  | obj (fields : List (String × Json))

/-- Object field lookup (`j["k"]` / `j.contains("k")` / `j.value("k", d)`). -/
def Json.getField : Json → String → Option Json
  | .obj fs, k => (fs.find? (fun f => f.1 == k)).map (fun f => f.2)
  | _, _ => none

/-- Read a JSON number as an integer (`get<int>` / `get<long long>`). -/
def Json.asInt : Json → Option Int
  | .num q => if q.den = 1 then some q.num else none
  | _ => none

/-- Read a JSON number as a rational (`get<double>`). -/
def Json.asRat : Json → Option ℚ
  | .num q => some q
  | _ => none

/-- Read a JSON number as an unsigned index (`get<std::size_t>`). -/
def Json.asNat (j : Json) : Option Nat :=
  (j.asInt).bind (fun i => if i < 0 then none else some i.toNat)

/-- One node record as `toJSON` emits it: `vector`, `connections`, and
`layerBelow` (the sentinel externalized as `-1`). -/
def nodeToJson (node : LayerNode) : Json :=
  .obj [("vector", .arr (node.vector.map Json.num)),
        ("connections",
          .arr (node.connections.map (fun (c : Nat) => Json.num (c : ℚ)))),
        ("layerBelow", .num (match node.layerBelow with
          | none => -1
          | some j => (j : ℚ)))]

/-- `toJSON` of the source: the four scalars, a `version` field, and the
per-layer node records. -/
def HIndex.toJSON (s : HIndex) : Json :=
  .obj [("version", .num 1),
        ("L", .num s.L),
        ("mL", .num s.mL),
        ("efc", .num s.efc),
        ("maxConnections", .num s.maxConnections),
        ("index", .arr (s.index.map (fun layer => .arr (layer.map nodeToJson))))]

/-- Parse one node record (`at("vector")` / `at("connections")` /
`value("layerBelow", -1)`). -/
def parseNode (j : Json) : Option LayerNode := do
  let vj ← j.getField "vector"
  let v ← match vj with
    | .arr es => es.mapM Json.asRat
    | _ => none
  let cj ← j.getField "connections"
  let c ← match cj with
    | .arr es => es.mapM Json.asNat
    | _ => none
  let lbRaw : Int ← match j.getField "layerBelow" with
    | none => some (-1)
    | some jj => jj.asInt
  pure ⟨v, c, if lbRaw < 0 then none else some lbRaw.toNat⟩

/-- Parse one layer (an array of node records). -/
def parseLayer : Json → Option Layer
  | .arr ns => ns.mapM parseNode
  | _ => none

/-- `fromJSON` of the source: require `L`, `mL` and `index`; read `efc` and
`maxConnections` with defaults 10 and 16; reject non-positive `L` and an
`index` whose length differs from `L`; parse every node; then construct the
index and install the layers via `setIndex` (whose pruning both enforces the
connection invariants and can propagate a failure). -/
def fromJSON (j : Json) : Except HErr HIndex :=
  if (j.getField "L").isNone ∨ (j.getField "mL").isNone ∨
      (j.getField "index").isNone then .error .malformed
  else
    match ((j.getField "L").bind Json.asInt),
        ((j.getField "mL").bind Json.asRat) with
    | some L, some mL =>
      match (match j.getField "efc" with
              | none => some 10
              | some x => x.asInt : Option Int),
          (match j.getField "maxConnections" with
              | none => some 16
              | some x => x.asInt : Option Int) with
      | some efc, some mc =>
        if L ≤ 0 then .error .malformed
        else
          match j.getField "index" with
          | some (.arr ls) =>
            if ls.length ≠ L.toNat then .error .malformed
            else
              match ls.mapM parseLayer with
              | none => .error .malformed
              | some layers =>
                match mkIndex L mL efc mc with
                | .error e => .error e
                | .ok h =>
                  match setIndex h layers with
                  | (h', none) => .ok h'
                  | (_, some e) => .error e
          | _ => .error .malformed
      | _, _ => .error .malformed
    | _, _ => .error .malformed

/-- `toBinary` of the source: unconditionally throws
`NotImplementedException`. -/
def HIndex.toBinary (_s : HIndex) : Except HErr (List Nat) :=
  .error .unsupported

/-- `fromBinary` of the source: unconditionally throws
`NotImplementedException`. -/
def fromBinary (_b : List Nat) : Except HErr HIndex :=
  .error .unsupported

/-! ## Properties of the sorted-list helpers -/

theorem insPair_perm (x : ℚ × Nat) (l : List (ℚ × Nat)) :
    (insPair x l).Perm (x :: l) := by
  induction l with
  | nil => simp [insPair]
  | cons y ys ih =>
    simp only [insPair]
    by_cases hy : y.1 < x.1
    · simp only [hy, if_true]
      exact (ih.cons y).trans (List.Perm.swap x y ys)
    · simp [hy]

theorem mem_insPair {z x : ℚ × Nat} {l : List (ℚ × Nat)} :
    z ∈ insPair x l ↔ z = x ∨ z ∈ l := by
  rw [(insPair_perm x l).mem_iff]
  simp

theorem sortPairs_perm (l : List (ℚ × Nat)) : (sortPairs l).Perm l := by
  induction l with
  | nil => simp [sortPairs]
  | cons x xs ih =>
    simp only [sortPairs]
    exact (insPair_perm x (sortPairs xs)).trans (ih.cons x)

theorem mem_sortPairs {z : ℚ × Nat} {l : List (ℚ × Nat)} :
    z ∈ sortPairs l ↔ z ∈ l := (sortPairs_perm l).mem_iff

theorem sortPairs_length (l : List (ℚ × Nat)) :
    (sortPairs l).length = l.length := (sortPairs_perm l).length_eq

/-- Ascending order on (distance, index) pairs: the comparison every sort
and heap of the engine uses. -/
def SortedD (r : List (ℚ × Nat)) : Prop := r.Pairwise (fun a b => a.1 ≤ b.1)

theorem insPair_sorted {x : ℚ × Nat} {l : List (ℚ × Nat)}
    (h : SortedD l) : SortedD (insPair x l) := by
  induction l with
  | nil => simp [insPair, SortedD]
  | cons y ys ih =>
    simp only [insPair]
    by_cases hy : y.1 < x.1
    · simp only [hy, if_true]
      rw [SortedD, List.pairwise_cons] at h ⊢
      refine ⟨?_, ih h.2⟩
      intro z hz
      rcases mem_insPair.mp hz with rfl | hz
      · exact le_of_lt hy
      · exact h.1 z hz
    · simp only [hy, if_false]
      rw [SortedD, List.pairwise_cons]
      refine ⟨?_, h⟩
      intro z hz
      rcases List.mem_cons.mp hz with rfl | hz
      · exact le_of_not_lt hy
      · have h' := h
        rw [SortedD, List.pairwise_cons] at h'
        exact (le_of_not_lt hy).trans (h'.1 z hz)

theorem sortPairs_sorted (l : List (ℚ × Nat)) : SortedD (sortPairs l) := by
  induction l with
  | nil => simp [sortPairs, SortedD]
  | cons x xs ih => exact insPair_sorted ih

theorem insPair_of_sorted_le {x : ℚ × Nat} {l : List (ℚ × Nat)}
    (h : ∀ z ∈ l, x.1 ≤ z.1) : insPair x l = x :: l := by
  cases l with
  | nil => rfl
  | cons y ys =>
    simp only [insPair]
    have : ¬ y.1 < x.1 := not_lt_of_le (h y (by simp))
    simp [this]

/-- Sorting an already sorted list (with the stable insertion) returns it
unchanged. -/
theorem sortPairs_eq_self {l : List (ℚ × Nat)} (h : SortedD l) :
    sortPairs l = l := by
  induction l with
  | nil => rfl
  | cons x xs ih =>
    rw [SortedD, List.pairwise_cons] at h
    simp only [sortPairs, ih h.2]
    exact insPair_of_sorted_le h.1

theorem head_le_of_sorted_mem {l : List (ℚ × Nat)} {z : ℚ × Nat}
    (h : SortedD l) (hz : z ∈ l) (hne : l ≠ []) :
    (l.headD (0, 0)).1 ≤ z.1 := by
  cases l with
  | nil => exact absurd rfl hne
  | cons y ys =>
    rw [SortedD, List.pairwise_cons] at h
    rcases List.mem_cons.mp hz with rfl | hz
    · exact le_refl _
    · exact h.1 z hz

/-! ## Concrete states used by the counterexamples -/

/-- The fresh index `SimpleHNSWIndex(2, 1, 10, 16)`. -/
def exampleA0 : HIndex := ⟨2, 1, 10, 16, [[], []]⟩

/-- `exampleA0` after `insert([0])` with draw 0 and `insert([10])` with
draw 1: the second vector participates only in layer 1, so layer 0 still
holds only `[0]`. -/
def exampleA : HIndex := ((exampleA0.insert [0] 0).1.insert [10] 1).1

/-- The fresh index `SimpleHNSWIndex(1, 1, 10, 1)` (connection cap 1). -/
def exampleB0 : HIndex := ⟨1, 1, 10, 1, [[]]⟩

/-- `exampleB0` after inserting `[0]`, `[10]`, `[4]` (single layer, so every
draw clamps to 0).  Pruning node 0's connections down to the cap of 1 evicts
the edge towards node 1 (vector `[10]`), which ends up unreachable. -/
def exampleB : HIndex :=
  (((exampleB0.insert [0] 0).1.insert [10] 0).1.insert [4] 0).1

/-- A state document whose layer 0 is empty while layer 1 holds one
3-dimensional node; `fromJSON` accepts it. -/
def exampleDoc : Json :=
  .obj [("L", .num 2), ("mL", .num 1), ("efc", .num 10),
        ("maxConnections", .num 16),
        ("index", .arr [.arr [],
          .arr [.obj [("vector", .arr [.num 0, .num 0, .num 0]),
                      ("connections", .arr []),
                      ("layerBelow", .num (-1))]]])]

/-- The index state `fromJSON exampleDoc` produces. -/
def exampleC : HIndex := ⟨2, 1, 10, 16, [[], [⟨[0, 0, 0], [], none⟩]]⟩

/-! ## Claim C9 -/

/-- C9: for every index state and every input, `toBinary` and `fromBinary`
always fail with the `Unsupported` error — they never succeed and never fail
with any other error kind (the source bodies are a single unconditional
`throw NotImplementedException`). -/
theorem binary_codec_always_unsupported (s : HIndex) (b : List Nat) :
    s.toBinary = .error .unsupported ∧ fromBinary b = .error .unsupported :=
  ⟨rfl, rfl⟩

/-! ## Claim C7, counterexample part -/

/-- C7 counterexample: on an empty layer, the entry index 0 is out of range
(`0 ≥ length 0`), yet `_searchLayer` returns the empty list instead of
failing with `InvalidEntry` — the source checks `graph.empty()` before
validating the entry, so the claim's "fails with InvalidEntry if entry is
out of range for the layer" is false on this input. -/
theorem searchLayer_empty_oob_entry_no_error :
    (0 : Nat) ≥ ([] : Layer).length ∧
      _searchLayer ([] : Layer) (some 0) [1] 1 = .ok [] ∧
      _searchLayer ([] : Layer) (some 0) [1] 1 ≠ .error .invalidEntry :=
  of_decide_eq_true (by with_unfolding_all rfl)

/-! ## Claim C1, counterexample part -/

/-- C1 counterexample: from the constructor, insert `[0]` (draw 0) then
`[10]` (draw 1) — both inserts complete — and search for `[10]` with
`ef = 1`.  The search returns node id 1, but layer 0 holds a single node
(position 0 only) whose vector is `[0]`: the returned id is not the position
of any corresponding node within layer 0 (the result actually comes from the
last layer, index `L-1 = 1`).  Distances here are squared; the source's
public value is their square root. -/
theorem search_node_id_not_in_layer0 :
    mkIndex 2 1 10 16 = .ok exampleA0 ∧
      (exampleA0.insert [0] 0).2 = none ∧
      ((exampleA0.insert [0] 0).1.insert [10] 1).2 = none ∧
      exampleA.search [10] 1 = .ok [(0, 1)] ∧
      (exampleA.index.getD 0 []).length = 1 ∧
      ¬ ∃ node ∈ exampleA.index.getD 0 [], node.vector = [10] :=
  of_decide_eq_true (by with_unfolding_all rfl)

/-! ## Claim C2, counterexample part -/

/-- C2 counterexample: in the state `exampleA`, reached from the constructor
by two completed inserts, the inserted vector `[10]` appears in layer 1 (the
last layer) but not in layer 0 — layer 0 is not the layer that contains
every inserted vector (a vector is appended to layers `n ≥ l` only, and the
second insert drew `l = 1`). -/
theorem inserted_vector_missing_from_layer0 :
    mkIndex 2 1 10 16 = .ok exampleA0 ∧
      (exampleA0.insert [0] 0).2 = none ∧
      ((exampleA0.insert [0] 0).1.insert [10] 1).2 = none ∧
      (exampleA.index.getD 0 []).map LayerNode.vector = [[0]] ∧
      [10] ∉ (exampleA.index.getD 0 []).map LayerNode.vector ∧
      [10] ∈ (exampleA.index.getD 1 []).map LayerNode.vector :=
  of_decide_eq_true (by with_unfolding_all rfl)

/-! ## Claim C3, counterexample part -/

/-- C3 counterexample: insert `[0]`, `[10]`, `[4]` (dimension 1 throughout,
all inserts complete) into `SimpleHNSWIndex(1, 1, 10, 1)` and search for the
previously inserted `[10]` with `ef = 1`.  The result's top entry is node 2
(vector `[4]`) at squared distance 36, i.e. true Euclidean distance 6 —
far beyond the `1e-9` tolerance — because pruning node 0's connection list
to the cap evicted the only edge leading to node 1 (vector `[10]`). -/
theorem identity_retrieval_violated :
    (mkIndex 1 1 10 1 = .ok exampleB0 ∧
      (exampleB0.insert [0] 0).2 = none ∧
      ((exampleB0.insert [0] 0).1.insert [10] 0).2 = none ∧
      (((exampleB0.insert [0] 0).1.insert [10] 0).1.insert [4] 0).2 = none ∧
      [10] ∈ (exampleB.index.getD 0 []).map LayerNode.vector ∧
      exampleB.search [10] 1 = .ok [(36, 2)]) ∧
      (1e-9 : ℝ) < Real.sqrt ((36 : ℚ) : ℝ) := by
  constructor
  · exact of_decide_eq_true (by with_unfolding_all rfl)
  · have h1 : ((36 : ℚ) : ℝ) = 36 := by norm_num
    rw [h1]
    have h2 : (1 : ℝ) ≤ Real.sqrt 36 := by
      rw [show (1 : ℝ) = Real.sqrt 1 from (Real.sqrt_one).symm]
      exact Real.sqrt_le_sqrt (by norm_num)
    calc (1e-9 : ℝ) < 1 := by norm_num
    _ ≤ Real.sqrt 36 := h2

/-! ## Claim C4, counterexample part -/

/-- C4 counterexample: load the well-formed document `exampleDoc` (empty
layer 0, one 3-dimensional node in layer 1) and insert the 2-dimensional
vector `[1, 2]`.  The insert fails with `DimensionMismatch` — but only at
layer 1, after the empty layer 0 has already received a node, so the index
after the failed call differs from the state before it. -/
theorem failed_insert_mutates_state :
    fromJSON exampleDoc = .ok exampleC ∧
      (exampleC.insert [1, 2] 0).2 = some .dimensionMismatch ∧
      (exampleC.index.getD 0 []).length = 0 ∧
      ((exampleC.insert [1, 2] 0).1.index.getD 0 []).length = 1 ∧
      (exampleC.insert [1, 2] 0).1 ≠ exampleC :=
  of_decide_eq_true (by with_unfolding_all rfl)

/-! ## Claim C8: the first insert populates every layer -/

theorem getD_range_map {α : Type} (f : Nat → α) (L n : Nat) (d : α) :
    ((List.range L).map f).getD n d = if n < L then f n else d := by
  rw [List.getD_eq_getElem?_getD, List.getElem?_map]
  by_cases h : n < L
  · rw [List.getElem?_range h]; simp [h]
  · rw [List.getElem?_eq_none (by simpa using Nat.le_of_not_lt h)]
    simp [h]

theorem set_range_map {α : Type} (f : Nat → α) (L n : Nat) (x : α) :
    ((List.range L).map f).set n x =
      (List.range L).map (fun m => if m = n then x else f m) := by
  apply List.ext_getElem
  · simp
  · intro i h1 h2
    simp only [List.getElem_set, List.getElem_map, List.getElem_range]
    by_cases h : n = i
    · subst h; simp
    · have h' : i ≠ n := fun hh => h hh.symm
      simp [h, h']

/-- The single node that the very first insert leaves in layer `m`: it
carries the inserted vector, no connections, and descent pointer 0 (or the
sentinel in the last layer). -/
def firstNode (v : Vec) (L m : Nat) : Layer :=
  [⟨v, [], if m < L - 1 then some 0 else none⟩]

theorem insertGo_fills_empty (efc : Int) (cap : Nat) (v : Vec) (l L : Nat) :
    ∀ (fuel n : Nat) (startV : Option Nat), fuel + n = L →
      insertGo efc cap v l L fuel n
        ((List.range L).map (fun m => if m < n then firstNode v L m else []))
        startV =
      ((List.range L).map (fun m => firstNode v L m), none) := by
  intro fuel
  induction fuel with
  | zero =>
    intro n startV h
    simp only [insertGo]
    refine congrArg (fun z => (z, none)) ?_
    apply List.map_congr_left
    intro m hm
    rw [List.mem_range] at hm
    have : m < n := by omega
    simp [this]
  | succ fuel ih =>
    intro n startV h
    have hn : n < L := by omega
    have hcur : ((List.range L).map
        (fun m => if m < n then firstNode v L m else [])).getD n [] = [] := by
      rw [getD_range_map]
      simp [hn]
    have hnext : ∀ d : Layer, ((List.range L).map
        (fun m => if m < n then firstNode v L m else [])).getD (n + 1) [] = [] := by
      intro d
      rw [getD_range_map]
      by_cases h2 : n + 1 < L
      · simp [h2, show ¬ (n + 1 < n) by omega]
      · simp [h2]
    have hdp : descendPtr L n ((List.range L).map
        (fun m => if m < n then firstNode v L m else [])) =
        (if n < L - 1 then some 0 else none) := by
      unfold descendPtr
      by_cases h2 : n < L - 1
      · simp only [h2, if_true, hnext []]
        rfl
      · simp [h2]
    simp only [insertGo, hn, if_pos hn, hcur, List.isEmpty_nil, if_true]
    rw [hdp]
    have hset : ((List.range L).map
          (fun m => if m < n then firstNode v L m else [])).set n
        ([] ++ [⟨v, [], if n < L - 1 then some 0 else none⟩]) =
        (List.range L).map (fun m => if m < n + 1 then firstNode v L m else []) := by
      rw [set_range_map]
      apply List.map_congr_left
      intro m hm
      rw [List.mem_range] at hm
      by_cases h2 : m = n
      · subst h2
        simp [firstNode]
      · have : (m < n) = (m < n + 1) := by
          apply propext; constructor <;> intro <;> omega
        simp [h2, this]
    rw [hset]
    exact ih (n + 1) startV (by omega)

/-- C8: when `insert(v)` is called on a freshly constructed, completely
empty index, it completes without error and appends exactly one node
carrying `v` to every one of the `L` layers; for each layer `n < L-1` the
new node's descent pointer `layerBelow` equals 0 — the position its
counterpart occupies in layer `n+1` — and the node appended to layer `L-1`
carries the no-layer-below sentinel.  (Every layer is empty, so every
iteration of the insert loop takes the empty-layer append branch, recording
`index[n+1].size() = 0` as the descent pointer; the draw is irrelevant.) -/
theorem first_insert_populates_all_layers (L : Int) (mL : ℚ) (efc mc : Int)
    (v : Vec) (draw : Nat) (s : HIndex) (h : mkIndex L mL efc mc = .ok s) :
    (s.insert v draw).2 = none ∧
      ∀ n < s.L, (s.insert v draw).1.index.getD n [] =
        [⟨v, [], if n < s.L - 1 then some 0 else none⟩] := by
  unfold mkIndex at h
  split at h
  · exact absurd h (by simp)
  · injection h with h
    subst h
    unfold HIndex.insert
    have hrep : (List.replicate L.toNat ([] : Layer)) =
        (List.range L.toNat).map
          (fun m => if m < 0 then firstNode v L.toNat m else []) := by
      rw [show (fun m => if m < 0 then firstNode v L.toNat m else []) =
          (fun _ : Nat => ([] : Layer)) from funext (fun m => by simp)]
      rw [List.map_const']
      simp
    simp only [hrep]
    rw [insertGo_fills_empty efc ((max 1 mc).toNat) v
      (min draw (L.toNat - 1)) L.toNat L.toNat 0 (some 0) (by omega)]
    constructor
    · rfl
    · intro n hn
      simp only
      rw [getD_range_map]
      simp [hn, firstNode]

/-- Witness for `first_insert_populates_all_layers` at `L = 3`,
`v = [5]`, draw 2. -/
theorem first_insert_populates_all_layers_witness :
    (((⟨3, 1, 10, 16, [[], [], []]⟩ : HIndex).insert [5] 2).2 = none ∧
      ∀ n < (⟨3, 1, 10, 16, [[], [], []]⟩ : HIndex).L,
        ((⟨3, 1, 10, 16, [[], [], []]⟩ : HIndex).insert [5] 2).1.index.getD n [] =
          [⟨[5], [], if n < (⟨3, 1, 10, 16, [[], [], []]⟩ : HIndex).L - 1
            then some 0 else none⟩]) :=
  first_insert_populates_all_layers 3 1 10 16 [5] 2 _
    (by with_unfolding_all rfl)

/-! ## The `_searchLayer` contract -/

/-- A well-formed result pair: it indexes a node of the layer and carries
exactly the squared Euclidean distance from that node's vector to the
query. -/
def ResultOK (graph : Layer) (query : Vec) (p : ℚ × Nat) : Prop :=
  p.2 < graph.length ∧
    squaredEuclideanDistance (graph.getD p.2 default).vector query = .ok p.1

theorem emplaceBest_sorted {ef : Nat} {c : ℚ × Nat} {best : List (ℚ × Nat)}
    (h : SortedD best) : SortedD (emplaceBest ef c best) := by
  unfold emplaceBest
  split
  · exact insPair_sorted h
  · split
    · exact insPair_sorted (List.Pairwise.sublist (List.dropLast_sublist best) h)
    · exact h

theorem emplaceBest_length {ef : Nat} {c : ℚ × Nat} {best : List (ℚ × Nat)}
    (hef : 1 ≤ ef) (h : best.length ≤ ef) :
    (emplaceBest ef c best).length ≤ ef := by
  unfold emplaceBest
  split
  · rw [insPair_length]; omega
  · split
    · rw [insPair_length, List.length_dropLast]; omega
    · exact h

theorem emplaceBest_ne_nil {ef : Nat} {c : ℚ × Nat} {best : List (ℚ × Nat)}
    (hef : 1 ≤ ef) : emplaceBest ef c best ≠ [] := by
  unfold emplaceBest
  have hlen : ∀ (x : ℚ × Nat) (l : List (ℚ × Nat)), insPair x l ≠ [] := by
    intro x l h
    have := insPair_length x l
    rw [h] at this
    simp at this
  split
  · exact hlen _ _
  · split
    · exact hlen _ _
    · intro hnil
      subst hnil
      simp at *
      omega

theorem mem_emplaceBest {ef : Nat} {c z : ℚ × Nat} {best : List (ℚ × Nat)}
    (h : z ∈ emplaceBest ef c best) : z = c ∨ z ∈ best := by
  unfold emplaceBest at h
  split at h
  · exact mem_insPair.mp h
  · split at h
    · rcases mem_insPair.mp h with rfl | h
      · exact Or.inl rfl
      · exact Or.inr (List.dropLast_sublist best |>.mem h)
    · exact Or.inr h

theorem emplaceBest_headD_le {ef : Nat} {c : ℚ × Nat} {best : List (ℚ × Nat)}
    {D0 : ℚ} (hs : SortedD best) (hne : best ≠ [])
    (hh : (best.headD (0, 0)).1 ≤ D0) :
    ((emplaceBest ef c best).headD (0, 0)).1 ≤ D0 := by
  unfold emplaceBest
  split
  · cases best with
    | nil => exact absurd rfl hne
    | cons y ys =>
      simp only [insPair]
      split
      · simpa using hh
      · simp only [List.headD_cons] at hh ⊢
        rename_i hc
        exact (le_of_not_lt hc).trans hh
  · split
    · rename_i hfull hc
      cases best with
      | nil => exact absurd rfl hne
      | cons y ys =>
        cases ys with
        | nil =>
          simp only [List.dropLast_single, insPair, List.headD_cons]
          have : bestTopKey [y] = y.1 := by simp [bestTopKey]
          rw [this] at hc
          simp only [List.headD_cons] at hh
          exact (le_of_lt hc).trans hh
        | cons y2 ys2 =>
          have hdl : (y :: y2 :: ys2).dropLast = y :: (y2 :: ys2).dropLast := by
            simp
          rw [hdl]
          simp only [insPair]
          split
          · simpa using hh
          · rename_i hc2
            simp only [List.headD_cons] at hh ⊢
            exact (le_of_not_lt hc2).trans hh
    · exact hh

theorem emplaceBest_resultOK {graph : Layer} {query : Vec} {ef : Nat}
    {c : ℚ × Nat} {best : List (ℚ × Nat)}
    (hc : ResultOK graph query c) (h : ∀ p ∈ best, ResultOK graph query p) :
    ∀ p ∈ emplaceBest ef c best, ResultOK graph query p := by
  intro p hp
  rcases mem_emplaceBest hp with rfl | hp
  · exact hc
  · exact h p hp

theorem headD_mem {l : List (ℚ × Nat)} (h : l ≠ []) : l.headD (0, 0) ∈ l := by
  cases l with
  | nil => exact absurd rfl h
  | cons x xs => simp

theorem getD_mem {l : Layer} {n : Nat} (h : n < l.length) :
    l.getD n default ∈ l := by
  rw [List.getD_eq_getElem l default h]
  exact List.getElem_mem h

theorem sqDist_ok_iff {a b : Vec} {q : ℚ} :
    squaredEuclideanDistance a b = .ok q ↔ a.length = b.length ∧ q = sqVal a b := by
  unfold squaredEuclideanDistance
  split
  · rename_i h
    constructor
    · intro hh; cases hh
    · intro hh; exact absurd hh.1 h
  · rename_i h
    rw [not_ne_iff] at h
    simp [h, eq_comm]

/-- The invariant that the result collection `best` keeps through the beam
search: sorted ascending, at most `ef` entries, each entry a valid
(distance, node) pair, non-empty, and with its closest entry at distance at
most `D0` (the entry node's distance, for claim C10). -/
def BestInv (graph : Layer) (query : Vec) (ef : Nat) (D0 : ℚ)
    (best : List (ℚ × Nat)) : Prop :=
  SortedD best ∧ best.length ≤ ef ∧ (∀ p ∈ best, ResultOK graph query p) ∧
    best ≠ [] ∧ (best.headD (0, 0)).1 ≤ D0

theorem exploreConns_bestInv {graph : Layer} {query : Vec} {ef : Nat}
    {D0 : ℚ} (hef : 1 ≤ ef) :
    ∀ (conns : List Nat) (best cands : List (ℚ × Nat)) (visited : List Bool)
      (b' c' : List (ℚ × Nat)) (v' : List Bool),
      BestInv graph query ef D0 best →
      exploreConns graph query ef conns best cands visited = .ok (b', c', v') →
      BestInv graph query ef D0 b' := by
  intro conns
  induction conns with
  | nil =>
    intro best cands visited b' c' v' hinv h
    simp only [exploreConns, Except.ok.injEq, Prod.mk.injEq] at h
    obtain ⟨h1, _, _⟩ := h
    exact h1 ▸ hinv
  | cons nb rest ih =>
    intro best cands visited b' c' v' hinv h
    simp only [exploreConns] at h
    by_cases h1 : nb ≥ graph.length
    · simp only [h1, if_true] at h
      exact ih best cands visited b' c' v' hinv h
    · simp only [h1, if_false] at h
      by_cases h2 : visited.getD nb false
      · simp only [h2, if_true] at h
        exact ih best cands visited b' c' v' hinv h
      · simp only [h2, if_false] at h
        cases hd : squaredEuclideanDistance (graph.getD nb default).vector query with
        | error e => rw [hd] at h; exact absurd h (by simp)
        | ok dist =>
          rw [hd] at h
          by_cases h3 : best.length < ef ∨ dist < bestTopKey best
          · simp only [h3, if_true] at h
            obtain ⟨hs, hl, hok, hne, hhd⟩ := hinv
            refine ih _ _ _ b' c' v' ⟨emplaceBest_sorted hs,
              emplaceBest_length hef hl,
              emplaceBest_resultOK ⟨by omega, hd⟩ hok,
              emplaceBest_ne_nil hef,
              emplaceBest_headD_le hs hne hhd⟩ h
          · simp only [h3, if_false] at h
            exact ih best cands _ b' c' v' hinv h

theorem searchLoop_spec {graph : Layer} {query : Vec} {ef : Nat} {D0 : ℚ}
    (hef : 1 ≤ ef) :
    ∀ (fuel : Nat) (best cands : List (ℚ × Nat)) (visited : List Bool)
      (r : List (ℚ × Nat)),
      BestInv graph query ef D0 best →
      searchLoop graph query ef fuel best cands visited = .ok r →
      SortedD r ∧ r.length ≤ ef ∧ (∀ p ∈ r, ResultOK graph query p) ∧
        r ≠ [] ∧ (r.headD (0, 0)).1 ≤ D0 := by
  have base : ∀ (best r : List (ℚ × Nat)),
      BestInv graph query ef D0 best → sortPairs best = r →
      SortedD r ∧ r.length ≤ ef ∧ (∀ p ∈ r, ResultOK graph query p) ∧
        r ≠ [] ∧ (r.headD (0, 0)).1 ≤ D0 := by
    intro best r hinv hr
    obtain ⟨hs, hl, hok, hne, hhd⟩ := hinv
    subst hr
    refine ⟨sortPairs_sorted best, by rw [sortPairs_length]; exact hl,
      fun p hp => hok p (mem_sortPairs.mp hp), ?_, ?_⟩
    · intro hh
      have := sortPairs_length best
      rw [hh] at this
      cases best with
      | nil => exact absurd rfl hne
      | cons x xs => simp at this
    · have hmem : best.headD (0, 0) ∈ sortPairs best :=
        mem_sortPairs.mpr (headD_mem hne)
      have hne2 : sortPairs best ≠ [] := by
        intro hh
        rw [hh] at hmem
        simp at hmem
      exact (head_le_of_sorted_mem (sortPairs_sorted best) hmem hne2).trans hhd
  intro fuel
  induction fuel with
  | zero =>
    intro best cands visited r hinv h
    simp only [searchLoop, Except.ok.injEq] at h
    exact base best r hinv h
  | succ fuel ih =>
    intro best cands visited r hinv h
    cases cands with
    | nil =>
      simp only [searchLoop, Except.ok.injEq] at h
      exact base best r hinv h
    | cons c rest =>
      simp only [searchLoop] at h
      split at h
      · exact ih best rest visited r hinv h
      · split at h
        · exact absurd h (by simp)
        · rename_i hout b' c' v' hex
          exact ih b' c' v' r
            (exploreConns_bestInv hef _ best rest visited b' c' v' hinv hex) h

/-- Every successful `_searchLayer` result is sorted ascending by (squared)
distance, holds at most `ef` pairs, and every pair indexes a node of the
layer at exactly its squared distance from the query. -/
theorem searchLayer_ok_spec {graph : Layer} {entry : Option Nat} {query : Vec}
    {ef : Int} {r : List (ℚ × Nat)}
    (h : _searchLayer graph entry query ef = .ok r) :
    SortedD r ∧ r.length ≤ ef.toNat ∧ ∀ p ∈ r, ResultOK graph query p := by
  unfold _searchLayer at h
  split at h
  · injection h with h
    subst h
    exact ⟨by simp [SortedD], by simp, by simp⟩
  · split at h
    · exact absurd h (by simp)
    · rename_i e
      split at h
      · exact absurd h (by simp)
      · split at h
        · injection h with h
          subst h
          exact ⟨by simp [SortedD], by simp, by simp⟩
        · split at h
          · exact absurd h (by simp)
          · rename_i hlen hef0 entryDist hd
            have hef : 1 ≤ ef.toNat := by omega
            have hseed : emplaceBest ef.toNat (entryDist, e) [] =
                [(entryDist, e)] := by
              unfold emplaceBest
              simp only [List.length_nil]
              rw [if_pos (by omega)]
              rfl
            rw [hseed] at h
            have hinv : BestInv graph query ef.toNat entryDist
                [(entryDist, e)] :=
              ⟨by simp [SortedD], by simpa using hef,
                by intro p hp; simp at hp; subst hp; exact ⟨by omega, hd⟩,
                by simp, by simp⟩
            obtain ⟨h1, h2, h3, _, _⟩ := searchLoop_spec hef _ _ _ _ r hinv h
            exact ⟨h1, h2, h3⟩

/-- A successful `_searchLayer` on a non-empty layer with a beam width of at
least 1 returns a non-empty list whose first (closest) entry is at most the
entry node's squared distance to the query. -/
theorem searchLayer_ok_nonempty {graph : Layer} {e : Nat} {query : Vec}
    {ef : Int} {r : List (ℚ × Nat)} (hne : ¬ graph.isEmpty) (hef : 1 ≤ ef)
    (h : _searchLayer graph (some e) query ef = .ok r) :
    r ≠ [] ∧ (r.headD (0, 0)).1 ≤ sqVal (graph.getD e default).vector query := by
  unfold _searchLayer at h
  rw [if_neg (by simpa using hne)] at h
  dsimp only at h
  by_cases hlen : e ≥ graph.length
  · rw [if_pos hlen] at h
    exact absurd h (by simp)
  · rw [if_neg hlen] at h
    rw [if_neg (show ¬ ef ≤ 0 by omega)] at h
    cases hd : squaredEuclideanDistance (graph.getD e default).vector query with
    | error err => rw [hd] at h; exact absurd h (by simp)
    | ok entryDist =>
      rw [hd] at h
      dsimp only at h
      have hef1 : 1 ≤ ef.toNat := by omega
      have hseed : emplaceBest ef.toNat (entryDist, e) [] =
          [(entryDist, e)] := by
        unfold emplaceBest
        simp only [List.length_nil]
        rw [if_pos (by omega)]
        rfl
      rw [hseed] at h
      have hinv : BestInv graph query ef.toNat entryDist [(entryDist, e)] :=
        ⟨by simp [SortedD], by simpa using hef1,
          by intro p hp; simp at hp; subst hp; exact ⟨by omega, hd⟩,
          by simp, by simp⟩
      obtain ⟨_, _, _, h4, h5⟩ := searchLoop_spec hef1 _ _ _ _ r hinv h
      have := (sqDist_ok_iff.mp hd).2
      exact ⟨h4, this ▸ h5⟩

theorem exploreConns_total {graph : Layer} {query : Vec} {ef : Nat}
    (hdim : ∀ nd ∈ graph, nd.vector.length = query.length) :
    ∀ (conns : List Nat) (best cands : List (ℚ × Nat)) (visited : List Bool),
      ∃ out, exploreConns graph query ef conns best cands visited = .ok out := by
  intro conns
  induction conns with
  | nil => intro best cands visited; exact ⟨(best, cands, visited), rfl⟩
  | cons nb rest ih =>
    intro best cands visited
    simp only [exploreConns]
    by_cases h1 : nb ≥ graph.length
    · simp only [h1, if_true]; exact ih best cands visited
    · simp only [h1, if_false]
      by_cases h2 : visited.getD nb false
      · simp only [h2, if_true]; exact ih best cands visited
      · simp only [h2, if_false]
        have hd : squaredEuclideanDistance (graph.getD nb default).vector query
            = .ok (sqVal (graph.getD nb default).vector query) :=
          sqDist_ok_iff.mpr ⟨hdim _ (getD_mem (by omega)), rfl⟩
        rw [hd]
        by_cases h3 : best.length < ef ∨
            sqVal (graph.getD nb default).vector query < bestTopKey best
        · simp only [h3, if_true]; exact ih _ _ _
        · simp only [h3, if_false]; exact ih _ _ _

theorem searchLoop_total {graph : Layer} {query : Vec} {ef : Nat}
    (hdim : ∀ nd ∈ graph, nd.vector.length = query.length) :
    ∀ (fuel : Nat) (best cands : List (ℚ × Nat)) (visited : List Bool),
      ∃ r, searchLoop graph query ef fuel best cands visited = .ok r := by
  intro fuel
  induction fuel with
  | zero => intro best cands visited; exact ⟨sortPairs best, rfl⟩
  | succ fuel ih =>
    intro best cands visited
    cases cands with
    | nil => exact ⟨sortPairs best, rfl⟩
    | cons c rest =>
      simp only [searchLoop]
      split
      · exact ih best rest visited
      · obtain ⟨⟨b', c', v'⟩, hex⟩ := exploreConns_total hdim
          (graph.getD c.2 default).connections best rest visited
        rw [hex]
        exact ih b' c' v'

/-- On a layer whose vectors all match the query's dimension, `_searchLayer`
from a valid entry never fails. -/
theorem searchLayer_total {graph : Layer} {e : Nat} {query : Vec} {ef : Int}
    (hdim : ∀ nd ∈ graph, nd.vector.length = query.length)
    (hlen : e < graph.length) :
    ∃ r, _searchLayer graph (some e) query ef = .ok r := by
  unfold _searchLayer
  by_cases hne : graph.isEmpty
  · rw [if_pos hne]; exact ⟨[], rfl⟩
  · rw [if_neg hne]
    dsimp only
    rw [if_neg (by omega)]
    by_cases hef : ef ≤ 0
    · rw [if_pos hef]; exact ⟨[], rfl⟩
    · rw [if_neg hef]
      have hd : squaredEuclideanDistance (graph.getD e default).vector query
          = .ok (sqVal (graph.getD e default).vector query) :=
        sqDist_ok_iff.mpr ⟨hdim _ (getD_mem hlen), rfl⟩
      rw [hd]
      exact searchLoop_total hdim _ _ _ _

/-! ## Claim C7, amended part -/

/-- C7 (amended): the `_searchLayer` contract, with the source's actual
precedence of checks.  (1) An empty layer returns the empty list — even when
the entry is out of range, which is the correction to the claim.  (2) On a
non-empty layer, the sentinel entry or an out-of-range entry fails with
`InvalidEntry`.  (3) With a valid entry and `ef ≤ 0` the result is empty.
(4) Whenever `_searchLayer` returns (in particular it can also fail with
`DimensionMismatch` when the query's length differs from an encountered
vector), the result holds at most `ef` pairs, is sorted ascending by
distance, and every returned node id is in range for the layer — out-of-range
connection indices having been silently skipped. -/
theorem searchLayer_contract (graph : Layer) (entry : Option Nat)
    (query : Vec) (ef : Int) :
    (graph = [] → _searchLayer graph entry query ef = .ok []) ∧
    (graph ≠ [] → entry = none →
      _searchLayer graph entry query ef = .error .invalidEntry) ∧
    (∀ e, graph ≠ [] → entry = some e → e ≥ graph.length →
      _searchLayer graph entry query ef = .error .invalidEntry) ∧
    (∀ e, graph ≠ [] → entry = some e → e < graph.length → ef ≤ 0 →
      _searchLayer graph entry query ef = .ok []) ∧
    (∀ r, _searchLayer graph entry query ef = .ok r →
      r.length ≤ ef.toNat ∧ SortedD r ∧ ∀ p ∈ r, p.2 < graph.length) := by
  refine ⟨?_, ?_, ?_, ?_, ?_⟩
  · intro h
    subst h
    rfl
  · intro hne hent
    subst hent
    unfold _searchLayer
    rw [if_neg (by simpa using hne)]
  · intro e hne hent hge
    subst hent
    unfold _searchLayer
    rw [if_neg (by simpa using hne)]
    dsimp only
    rw [if_pos hge]
  · intro e hne hent hlt hef
    subst hent
    unfold _searchLayer
    rw [if_neg (by simpa using hne)]
    dsimp only
    rw [if_neg (by omega), if_pos hef]
  · intro r h
    obtain ⟨h1, h2, h3⟩ := searchLayer_ok_spec h
    exact ⟨h2, h1, fun p hp => (h3 p hp).1⟩

/-- Witness for `searchLayer_contract`: on a concrete one-node layer the
out-of-range entry 5 fails with `InvalidEntry`. -/
theorem searchLayer_contract_witness :
    _searchLayer [(⟨[0], [], none⟩ : LayerNode)] (some 5) [0] 1 =
      .error .invalidEntry :=
  (searchLayer_contract [⟨[0], [], none⟩] (some 5) [0] 1).2.2.1 5
    (by simp) rfl (by simp)

/-! ## Claim C10 -/

/-- C10: for every non-empty layer, in-range entry and `ef ≥ 1`, with the
query's dimension matching every stored vector, `_searchLayer` succeeds and
returns a non-empty list whose first entry's distance is at most the entry
node's distance to the query (stated on the squared distances the engine
compares, and on their square roots — the true Euclidean distances — which
agree in order).  Consequently reading element 0 of the result inside
`insert` and `search` never touches an empty list under these
preconditions. -/
theorem searchLayer_nonempty_head_le (graph : Layer) (e : Nat) (query : Vec)
    (ef : Int) (hne : graph ≠ []) (he : e < graph.length) (hef : 1 ≤ ef)
    (hdim : ∀ nd ∈ graph, nd.vector.length = query.length) :
    ∃ r, _searchLayer graph (some e) query ef = .ok r ∧ r ≠ [] ∧
      (r.headD (0, 0)).1 ≤ sqVal (graph.getD e default).vector query ∧
      Real.sqrt ((r.headD (0, 0)).1 : ℝ) ≤
        Real.sqrt ((sqVal (graph.getD e default).vector query : ℝ)) := by
  obtain ⟨r, hr⟩ := searchLayer_total hdim he
  obtain ⟨h1, h2⟩ := searchLayer_ok_nonempty (by simpa using hne) hef hr
  refine ⟨r, hr, h1, h2, Real.sqrt_le_sqrt (by exact_mod_cast h2)⟩

/-- Witness for `searchLayer_nonempty_head_le` on a concrete two-node
layer. -/
theorem searchLayer_nonempty_head_le_witness :
    ∃ r, _searchLayer [(⟨[0], [1], none⟩ : LayerNode), ⟨[3], [], none⟩]
        (some 0) [2] 1 = .ok r ∧ r ≠ [] ∧
      (r.headD (0, 0)).1 ≤ sqVal
        (([(⟨[0], [1], none⟩ : LayerNode), ⟨[3], [], none⟩].getD 0
          default)).vector [2] ∧
      Real.sqrt ((r.headD (0, 0)).1 : ℝ) ≤
        Real.sqrt ((sqVal (([(⟨[0], [1], none⟩ : LayerNode),
          ⟨[3], [], none⟩].getD 0 default)).vector [2] : ℝ)) :=
  searchLayer_nonempty_head_le [⟨[0], [1], none⟩, ⟨[3], [], none⟩] 0 [2] 1
    (by simp) (by simp) (by omega)
    (by
      intro nd hnd
      rcases List.mem_cons.mp hnd with rfl | hnd
      · rfl
      · rcases List.mem_cons.mp hnd with rfl | hnd
        · rfl
        · simp at hnd)

/-! ## Shape preservation of the maintenance operations

`pruneNodeConnections`, `addBackEdge` and `eraseConn` only rewrite
connection lists: lengths, vectors and descent pointers are untouched. -/

theorem getD_set_ne {l : List Layer} {i j : Nat} {x : Layer} (h : i ≠ j) :
    (l.set i x).getD j [] = l.getD j [] := by
  rw [List.getD_eq_getElem?_getD, List.getD_eq_getElem?_getD,
    List.getElem?_set_ne h]

theorem getD_set_self {l : List Layer} {i : Nat} {x : Layer}
    (h : i < l.length) : (l.set i x).getD i [] = x := by
  rw [List.getD_eq_getElem?_getD, List.getElem?_set_self h]
  rfl

/-- `g'` has the same length, vectors and descent pointers as `g` — only
connection lists may differ. -/
def SameShape (g g' : Layer) : Prop :=
  g'.length = g.length ∧
    ∀ j, (g'.getD j default).vector = (g.getD j default).vector ∧
      (g'.getD j default).layerBelow = (g.getD j default).layerBelow

theorem SameShape.refl (g : Layer) : SameShape g g :=
  ⟨rfl, fun _ => ⟨rfl, rfl⟩⟩

theorem SameShape.trans {g1 g2 g3 : Layer} (h1 : SameShape g1 g2)
    (h2 : SameShape g2 g3) : SameShape g1 g3 :=
  ⟨h2.1.trans h1.1, fun j => ⟨(h2.2 j).1.trans (h1.2 j).1,
    (h2.2 j).2.trans (h1.2 j).2⟩⟩

theorem sameShape_set {g : Layer} {i : Nat} {nd : LayerNode}
    (hv : nd.vector = (g.getD i default).vector)
    (hl : nd.layerBelow = (g.getD i default).layerBelow) :
    SameShape g (g.set i nd) := by
  refine ⟨List.length_set g i nd, fun j => ?_⟩
  by_cases hij : i = j
  · subst hij
    by_cases hlen : i < g.length
    · rw [show (g.set i nd).getD i default = nd from by
        rw [List.getD_eq_getElem?_getD, List.getElem?_set_self hlen]; rfl]
      exact ⟨hv, hl⟩
    · rw [List.set_eq_of_length_le (by omega)]
      exact ⟨rfl, rfl⟩
  · rw [show (g.set i nd).getD j default = g.getD j default from by
      rw [List.getD_eq_getElem?_getD, List.getD_eq_getElem?_getD,
        List.getElem?_set_ne hij]]
    exact ⟨rfl, rfl⟩

theorem pruneNodeConnections_sameShape {cap : Nat} {g g' : Layer} {i : Nat}
    (h : pruneNodeConnections cap g i = .ok g') : SameShape g g' := by
  unfold pruneNodeConnections at h
  split at h
  · injection h with h; subst h; exact SameShape.refl g
  · split at h
    · injection h with h; subst h; exact SameShape.refl g
    · split at h
      · exact absurd h (by simp)
      · split at h
        · injection h with h; subst h
          exact sameShape_set rfl rfl
        · injection h with h; subst h
          exact sameShape_set rfl rfl

theorem addBackEdge_sameShape (g : Layer) (nbr newIndex : Nat) :
    SameShape g (addBackEdge g nbr newIndex) := by
  unfold addBackEdge
  split
  · exact SameShape.refl g
  · exact sameShape_set rfl rfl

theorem eraseConn_sameShape (g : Layer) (i nbr : Nat) :
    SameShape g (eraseConn g i nbr) :=
  sameShape_set rfl rfl

theorem backEdges_sameShape {cap newIndex : Nat} :
    ∀ {conns : List Nat} {g g' : Layer} {e : Option HErr},
      backEdges cap newIndex conns g = (g', e) → SameShape g g' := by
  intro conns
  induction conns with
  | nil =>
    intro g g' e h
    simp only [backEdges, Prod.mk.injEq] at h
    exact h.1 ▸ SameShape.refl g
  | cons nbr rest ih =>
    intro g g' e h
    simp only [backEdges] at h
    split at h
    · exact ih h
    · split at h
      · simp only [Prod.mk.injEq] at h
        exact h.1 ▸ addBackEdge_sameShape g nbr newIndex
      · rename_i g2 hg2
        exact ((addBackEdge_sameShape g nbr newIndex).trans
          (pruneNodeConnections_sameShape hg2)).trans
          ((eraseConn_sameShape g2 newIndex nbr).trans (ih h))

/-- Every node of the layer shares one vector length `d` (positional
form). -/
def LayerDim (d : Nat) (g : Layer) : Prop :=
  ∀ j < g.length, ((g.getD j default).vector).length = d

theorem layerDim_of_sameShape {d : Nat} {g g' : Layer} (hs : SameShape g g')
    (h : LayerDim d g) : LayerDim d g' := by
  intro j hj
  rw [(hs.2 j).1]
  have := hs.1
  exact h j (by omega)

theorem layerDim_mem {d : Nat} {g : Layer} (h : LayerDim d g) :
    ∀ nd ∈ g, nd.vector.length = d := by
  intro nd hnd
  obtain ⟨j, hj, rfl⟩ := List.getElem_of_mem hnd
  have := h j hj
  rwa [List.getD_eq_getElem g default hj] at this

theorem pruneScore_total {g : Layer} {own : Vec} {i d : Nat}
    (hd : LayerDim d g) (hown : own.length = d) :
    ∀ conns : List Nat, ∃ out, pruneScore g own i conns = .ok out := by
  intro conns
  induction conns with
  | nil => exact ⟨[], rfl⟩
  | cons c rest ih =>
    simp only [pruneScore]
    split
    · exact ih
    · rename_i hc
      push_neg at hc
      have : squaredEuclideanDistance own (g.getD c default).vector =
          .ok (sqVal own (g.getD c default).vector) :=
        sqDist_ok_iff.mpr ⟨by rw [hown, hd c (by omega)], rfl⟩
      rw [this]
      obtain ⟨out, hout⟩ := ih
      rw [hout]
      exact ⟨_, rfl⟩

theorem pruneNodeConnections_total (cap i : Nat) {g : Layer} {d : Nat}
    (hd : LayerDim d g) : ∃ g', pruneNodeConnections cap g i = .ok g' := by
  unfold pruneNodeConnections
  by_cases h1 : i ≥ g.length
  · rw [if_pos h1]; exact ⟨g, rfl⟩
  · rw [if_neg h1]
    by_cases h2 : (g.getD i default).connections.isEmpty
    · rw [if_pos h2]; exact ⟨g, rfl⟩
    · rw [if_neg h2]
      obtain ⟨out, hout⟩ := pruneScore_total hd
        (hd i (by omega)) (g.getD i default).connections
      rw [hout]
      dsimp only
      by_cases h3 : out.isEmpty
      · rw [if_pos h3]; exact ⟨_, rfl⟩
      · rw [if_neg h3]; exact ⟨_, rfl⟩

theorem backEdges_total (cap newIndex : Nat) {d : Nat} :
    ∀ (conns : List Nat) (g : Layer), LayerDim d g →
      ∃ g', backEdges cap newIndex conns g = (g', none) := by
  intro conns
  induction conns with
  | nil => intro g _; exact ⟨g, rfl⟩
  | cons nbr rest ih =>
    intro g hd
    simp only [backEdges]
    split
    · exact ih g hd
    · have hd1 : LayerDim d (addBackEdge g nbr newIndex) :=
        layerDim_of_sameShape (addBackEdge_sameShape g nbr newIndex) hd
      obtain ⟨g2, hg2⟩ := pruneNodeConnections_total cap nbr hd1
      rw [hg2]
      exact ih _ (layerDim_of_sameShape
        ((pruneNodeConnections_sameShape hg2).trans
          (eraseConn_sameShape g2 newIndex nbr))
        hd1)

theorem getD_append_left {g : Layer} {nd : LayerNode} {j : Nat}
    (h : j < g.length) : (g ++ [nd]).getD j default = g.getD j default := by
  rw [List.getD_eq_getElem?_getD, List.getD_eq_getElem?_getD,
    List.getElem?_append_left h]

theorem getD_append_right {g : Layer} {nd : LayerNode} :
    (g ++ [nd]).getD g.length default = nd := by
  rw [List.getD_eq_getElem?_getD, List.getElem?_concat_length]
  rfl

theorem layerDim_append {d : Nat} {g : Layer} {nd : LayerNode}
    (hg : LayerDim d g) (hnd : nd.vector.length = d) :
    LayerDim d (g ++ [nd]) := by
  intro j hj
  rw [List.length_append, List.length_singleton] at hj
  by_cases h : j < g.length
  · rw [getD_append_left h]
    exact hg j h
  · have : j = g.length := by omega
    subst this
    rw [getD_append_right]
    exact hnd

/-- `linkNewNode` succeeds — either because the layer (and the new vector)
share one dimension, so every pruning distance is computable, or because the
search returned nothing, so no connection is ever scored — and the resulting
layer has the shape of the old layer extended by the new node. -/
theorem linkNewNode_spec (cap : Nat) (v : Vec) (lb : Option Nat)
    (nns : List (ℚ × Nat)) (graph : Layer)
    (hsafe : LayerDim v.length graph ∨ nns = []) :
    ∃ g4, linkNewNode cap v lb nns graph = (g4, none) ∧
      SameShape (graph ++ [⟨v, (nns.map Prod.snd).take cap, lb⟩]) g4 := by
  unfold linkNewNode
  rcases hsafe with hdim | hnil
  · have hdim1 : LayerDim v.length
        (graph ++ [(⟨v, (nns.map Prod.snd).take cap, lb⟩ : LayerNode)]) :=
      layerDim_append hdim rfl
    obtain ⟨g2, hg2⟩ := pruneNodeConnections_total cap graph.length hdim1
    rw [hg2]
    dsimp only
    have hs2 := pruneNodeConnections_sameShape hg2
    have hdim2 := layerDim_of_sameShape hs2 hdim1
    obtain ⟨g3, hg3⟩ := backEdges_total cap graph.length ((nns.map Prod.snd).take cap) g2 hdim2
    rw [hg3]
    dsimp only
    have hs3 := backEdges_sameShape hg3
    have hdim3 := layerDim_of_sameShape hs3 hdim2
    obtain ⟨g4, hg4⟩ := pruneNodeConnections_total cap graph.length hdim3
    rw [hg4]
    exact ⟨g4, rfl, (hs2.trans hs3).trans
      (pruneNodeConnections_sameShape hg4)⟩
  · subst hnil
    have hconn : ((⟨v, ([] : List (ℚ × Nat)).map Prod.snd |>.take cap, lb⟩ :
        LayerNode)).connections = [] := by simp
    have hget : (graph ++ [(⟨v, ([] : List (ℚ × Nat)).map Prod.snd
        |>.take cap, lb⟩ : LayerNode)]).getD graph.length default =
        ⟨v, [], lb⟩ := by
      rw [getD_append_right]
      simp
    have hprune : pruneNodeConnections cap
        (graph ++ [(⟨v, ([] : List (ℚ × Nat)).map Prod.snd |>.take cap, lb⟩ :
          LayerNode)]) graph.length =
        .ok (graph ++ [⟨v, [], lb⟩]) := by
      unfold pruneNodeConnections
      rw [if_neg (by simp)]
      rw [hget]
      simp
    rw [hprune]
    dsimp only
    simp only [backEdges, List.map_nil, List.take_nil]
    rw [show pruneNodeConnections cap (graph ++ [(⟨v, [], lb⟩ : LayerNode)])
        graph.length = .ok (graph ++ [⟨v, [], lb⟩]) from by
      unfold pruneNodeConnections
      rw [if_neg (by simp), getD_append_right]
      simp]
    refine ⟨graph ++ [⟨v, [], lb⟩], rfl, ?_⟩
    exact SameShape.refl _

/-! ## The insert loop on well-formed states -/

/-- Every node of every layer has vector length `d`. -/
def HomogDim (d : Nat) (idx : List Layer) : Prop :=
  ∀ m, LayerDim d (idx.getD m [])

/-- Structural well-formedness of the layers from position `n` on: each is
non-empty, sizes are non-decreasing, every node below the last layer
descends to a valid position of the next layer, and nodes of the last layer
carry the sentinel. -/
def SuffixWF (L n : Nat) (idx : List Layer) : Prop :=
  (∀ m, n ≤ m → m < L → (idx.getD m []).length ≠ 0) ∧
  (∀ m, n ≤ m → m + 1 < L →
    (idx.getD m []).length ≤ (idx.getD (m + 1) []).length) ∧
  (∀ m, n ≤ m → m + 1 < L → ∀ j < (idx.getD m []).length,
    ∃ k, ((idx.getD m []).getD j default).layerBelow = some k ∧
      k < (idx.getD (m + 1) []).length) ∧
  (∀ j < (idx.getD (L - 1) []).length,
    ((idx.getD (L - 1) []).getD j default).layerBelow = none)

/-- Layer `g` is layer `g0` extended by exactly one node carrying `v` with
descent pointer `lbN`, old vectors and descent pointers untouched. -/
def ProcessedLayer (v : Vec) (lbN : Option Nat) (g0 g : Layer) : Prop :=
  g.length = g0.length + 1 ∧
  (∀ j, j < g0.length →
    (g.getD j default).vector = (g0.getD j default).vector ∧
    (g.getD j default).layerBelow = (g0.getD j default).layerBelow) ∧
  (g.getD g0.length default).vector = v ∧
  (g.getD g0.length default).layerBelow = lbN

theorem searchLayer_efz {graph : Layer} {t : Nat} {q : Vec} {ef : Int}
    (hne : ¬ graph.isEmpty) (ht : t < graph.length) (hef : ef ≤ 0) :
    _searchLayer graph (some t) q ef = .ok [] := by
  unfold _searchLayer
  rw [if_neg hne]
  dsimp only
  rw [if_neg (by omega), if_pos hef]

theorem insertGo_else_phase (efc : Int) (cap : Nat) (v : Vec) (l L : Nat) :
    ∀ (fuel n : Nat) (idx : List Layer) (startV : Option Nat),
      fuel + n = L → l ≤ n → idx.length = L →
      SuffixWF L n idx →
      (1 ≤ efc → ∃ d, HomogDim d idx ∧ v.length = d) →
      (n < L → ∃ t, startV = some t ∧ t < (idx.getD n []).length) →
      ∃ idxF, insertGo efc cap v l L fuel n idx startV = (idxF, none) ∧
        idxF.length = L ∧
        (∀ m, m < n → idxF.getD m [] = idx.getD m []) ∧
        (∀ m, n ≤ m → m < L →
          ProcessedLayer v
            (if m < L - 1 then some ((idx.getD (m + 1) []).length) else none)
            (idx.getD m []) (idxF.getD m [])) := by
  intro fuel
  induction fuel with
  | zero =>
    intro n idx startV hfn _ hlen _ _ _
    refine ⟨idx, rfl, by omega, fun m _ => rfl, fun m hm1 hm2 => ?_⟩
    omega
  | succ fuel ih =>
    intro n idx startV hfn hln hlen hwf hhom hstart
    have hn : n < L := by omega
    obtain ⟨t, hsv, ht⟩ := hstart hn
    subst hsv
    have hne : ¬ (idx.getD n []).isEmpty := by
      have := hwf.1 n (le_refl n) hn
      cases hg : idx.getD n [] with
      | nil => rw [hg] at this; simp at this
      | cons a b => simp [hg]
    -- obtain a successful layer search together with the safety disjunct
    have hsl : ∃ nns, _searchLayer (idx.getD n []) (some t) v efc = .ok nns ∧
        (LayerDim v.length (idx.getD n []) ∨ nns = []) := by
      by_cases hefc : 1 ≤ efc
      · obtain ⟨d, hd, hvd⟩ := hhom hefc
        have hdim : ∀ nd ∈ idx.getD n [], nd.vector.length = v.length := by
          intro nd hnd
          rw [hvd]
          exact layerDim_mem (hd n) nd hnd
        obtain ⟨nns, hnns⟩ := searchLayer_total hdim ht
        refine ⟨nns, hnns, Or.inl ?_⟩
        intro j hj
        rw [hvd]
        exact hd n j hj
      · exact ⟨[], searchLayer_efz hne ht (by omega), Or.inr rfl⟩
    obtain ⟨nns, hnns, hsafe⟩ := hsl
    obtain ⟨g4, hg4, hshape⟩ :=
      linkNewNode_spec cap v (descendPtr L n idx) nns (idx.getD n []) hsafe
    -- facts about the new layer g4
    have hg4len : g4.length = (idx.getD n []).length + 1 := by
      rw [hshape.1, List.length_append, List.length_singleton]
    have hg4old : ∀ j, j < (idx.getD n []).length →
        (g4.getD j default).vector = ((idx.getD n []).getD j default).vector ∧
        (g4.getD j default).layerBelow =
          ((idx.getD n []).getD j default).layerBelow := by
      intro j hj
      obtain ⟨h1, h2⟩ := hshape.2 j
      rw [getD_append_left hj] at h1 h2
      exact ⟨h1, h2⟩
    have hg4new :
        (g4.getD (idx.getD n []).length default).vector = v ∧
        (g4.getD (idx.getD n []).length default).layerBelow =
          descendPtr L n idx := by
      obtain ⟨h1, h2⟩ := hshape.2 (idx.getD n []).length
      rw [getD_append_right] at h1 h2
      exact ⟨h1, h2⟩
    have hproc : ProcessedLayer v
        (if n < L - 1 then some ((idx.getD (n + 1) []).length) else none)
        (idx.getD n []) g4 := by
      refine ⟨hg4len, hg4old, hg4new.1, ?_⟩
      rw [hg4new.2]
      rfl
    -- the new index and the updated start vertex
    have hsetn : (idx.set n g4).getD n [] = g4 := getD_set_self (by omega)
    have hsetne : ∀ m, m ≠ n → (idx.set n g4).getD m [] = idx.getD m [] :=
      fun m hm => getD_set_ne (fun hh => hm hh.symm)
    have hnext : nextStart g4 (some t) = (g4.getD t default).layerBelow := by
      unfold nextStart
      dsimp only
      rw [if_pos (by omega)]
    have hlen' : (idx.set n g4).length = L := by
      rw [List.length_set]; exact hlen
    have hwf' : SuffixWF L (n + 1) (idx.set n g4) := by
      obtain ⟨w1, w2, w3, w4⟩ := hwf
      refine ⟨?_, ?_, ?_, ?_⟩
      · intro m hm1 hm2
        rw [hsetne m (by omega)]
        exact w1 m (by omega) hm2
      · intro m hm1 hm2
        rw [hsetne m (by omega), hsetne (m + 1) (by omega)]
        exact w2 m (by omega) hm2
      · intro m hm1 hm2
        rw [hsetne m (by omega), hsetne (m + 1) (by omega)]
        exact w3 m (by omega) hm2
      · by_cases hLn : L - 1 = n
        · rw [hLn, hsetn]
          intro j hj
          rw [hg4len] at hj
          by_cases hj2 : j < (idx.getD n []).length
          · rw [(hg4old j hj2).2]
            rw [← hLn] at hj2 ⊢
            exact w4 j hj2
          · have : j = (idx.getD n []).length := by omega
            subst this
            rw [hg4new.2]
            unfold descendPtr
            rw [if_neg (by omega)]
        · rw [hsetne (L - 1) hLn]
          exact w4
    have hhom' : 1 ≤ efc → ∃ d, HomogDim d (idx.set n g4) ∧ v.length = d := by
      intro hefc
      obtain ⟨d, hd, hvd⟩ := hhom hefc
      refine ⟨d, ?_, hvd⟩
      intro m
      by_cases hm : m = n
      · subst hm
        rw [hsetn]
        intro j hj
        rw [hg4len] at hj
        by_cases hj2 : j < (idx.getD m []).length
        · rw [(hg4old j hj2).1]
          exact hd m j hj2
        · have : j = (idx.getD m []).length := by omega
          subst this
          rw [hg4new.1, hvd]
      · rw [hsetne m hm]
        exact hd m
    have hstart' : n + 1 < L →
        ∃ t', nextStart g4 (some t) = some t' ∧
          t' < ((idx.set n g4).getD (n + 1) []).length := by
      intro hn1
      rw [hnext, (hg4old t ht).2]
      obtain ⟨k, hk1, hk2⟩ := hwf.2.2.1 n (le_refl n) hn1 t ht
      refine ⟨k, hk1, ?_⟩
      rw [hsetne (n + 1) (by omega)]
      exact hk2
    obtain ⟨idxF, hF, hFlen, hFun, hFproc⟩ :=
      ih (n + 1) (idx.set n g4) (nextStart g4 (some t)) (by omega) (by omega)
        hlen' hwf' hhom' hstart'
    -- assemble the result for this iteration
    refine ⟨idxF, ?_, hFlen, ?_, ?_⟩
    · rw [show insertGo efc cap v l L (fuel + 1) n idx (some t) =
          insertGo efc cap v l L fuel (n + 1) (idx.set n g4)
            (nextStart g4 (some t)) from ?_]
      · exact hF
      · simp only [insertGo, if_pos hn]
        rw [if_neg hne, if_neg (by omega : ¬ n < l), hnns]
        dsimp only
        rw [hg4]
    · intro m hm
      rw [hFun m (by omega), hsetne m (by omega)]
    · intro m hm1 hm2
      by_cases hmn : m = n
      · subst hmn
        rw [hFun m (by omega), hsetn]
        exact hproc
      · have h1 := hFproc m (by omega) hm2
        rw [hsetne m hmn, hsetne (m + 1) (by omega)] at h1
        exact h1

theorem searchLayer_entry_dim_error {graph : Layer} {t : Nat} {q : Vec}
    {ef : Int} (hne : ¬ graph.isEmpty) (ht : t < graph.length) (hef : 1 ≤ ef)
    (hd : ((graph.getD t default).vector).length ≠ q.length) :
    _searchLayer graph (some t) q ef = .error .dimensionMismatch := by
  unfold _searchLayer
  rw [if_neg hne]
  dsimp only
  rw [if_neg (by omega), if_neg (by omega)]
  rw [show squaredEuclideanDistance (graph.getD t default).vector q =
      .error .dimensionMismatch from by
    unfold squaredEuclideanDistance
    rw [if_pos hd]]

/-- Running the whole insert loop from a routing position `n ≤ l` on a
well-formed populated suffix: either some layer search fails and the index
is returned unchanged — the routing layers never mutate, and with a
homogeneous index a width-`efc ≥ 1` search can only fail before the first
mutation — or the loop completes, leaving layers below `l` untouched and
appending exactly one node carrying `v` to every layer from `l` on. -/
theorem insertGo_main (efc : Int) (cap : Nat) (v : Vec) (l L : Nat)
    (hlL : l < L) :
    ∀ (fuel n : Nat) (idx : List Layer) (t : Nat),
      fuel + n = L → n ≤ l → idx.length = L →
      SuffixWF L n idx →
      (1 ≤ efc → ∃ d, HomogDim d idx) →
      t < (idx.getD n []).length →
      (∃ e, insertGo efc cap v l L fuel n idx (some t) = (idx, some e)) ∨
      (∃ idxF, insertGo efc cap v l L fuel n idx (some t) = (idxF, none) ∧
        idxF.length = L ∧
        (∀ m, m < l → idxF.getD m [] = idx.getD m []) ∧
        (∀ m, l ≤ m → m < L →
          ProcessedLayer v
            (if m < L - 1 then some ((idx.getD (m + 1) []).length) else none)
            (idx.getD m []) (idxF.getD m [])) ∧
        (1 ≤ efc → ∀ d, HomogDim d idx → v.length = d)) := by
  intro fuel
  induction fuel with
  | zero =>
    intro n idx t hfn hnl hlen hwf hhom ht
    omega
  | succ fuel ih =>
    intro n idx t hfn hnl hlen hwf hhom ht
    have hn : n < L := by omega
    have hne : ¬ (idx.getD n []).isEmpty := by
      have := hwf.1 n (le_refl n) hn
      cases hg : idx.getD n [] with
      | nil => rw [hg] at this; simp at this
      | cons a b => simp [hg]
    by_cases hnl2 : n = l
    · subst hnl2
      -- the first participating layer
      by_cases hefc : 1 ≤ efc
      · obtain ⟨d, hd⟩ := hhom hefc
        by_cases hvd : v.length = d
        · obtain ⟨idxF, hF, h1, h2, h3⟩ :=
            insertGo_else_phase efc cap v n L (fuel + 1) n idx (some t)
              hfn (le_refl n) hlen hwf (fun _ => ⟨d, hd, hvd⟩)
              (fun _ => ⟨t, rfl, ht⟩)
          refine Or.inr ⟨idxF, hF, h1, h2, h3, ?_⟩
          intro _ d' hd'
          have hnode : ((idx.getD n []).getD 0 default).vector.length = d :=
            hd n 0 (by have := hwf.1 n (le_refl n) hn; omega)
          have hnode' : ((idx.getD n []).getD 0 default).vector.length = d' :=
            hd' n 0 (by have := hwf.1 n (le_refl n) hn; omega)
          omega
        · refine Or.inl ⟨.dimensionMismatch, ?_⟩
          simp only [insertGo, if_pos hn]
          rw [if_neg hne, if_neg (by omega : ¬ n < n)]
          rw [searchLayer_entry_dim_error hne ht (by omega)
            (by rw [hd n t ht]; omega)]
      · obtain ⟨idxF, hF, h1, h2, h3⟩ :=
          insertGo_else_phase efc cap v n L (fuel + 1) n idx (some t)
            hfn (le_refl n) hlen hwf (fun h => by omega)
            (fun _ => ⟨t, rfl, ht⟩)
        exact Or.inr ⟨idxF, hF, h1, h2, h3, fun h => by omega⟩
    · -- a routing layer: n < l
      have hnltl : n < l := by omega
      have hred : insertGo efc cap v l L (fuel + 1) n idx (some t) =
          (match _searchLayer (idx.getD n []) (some t) v 1 with
            | .error e => (idx, some e)
            | .ok res => insertGo efc cap v l L fuel (n + 1) idx
                (some (match res with | [] => 0 | r :: _ => r.2))) := by
        simp only [insertGo, if_pos hn]
        rw [if_neg hne, if_pos hnltl]
      cases hsl : _searchLayer (idx.getD n []) (some t) v 1 with
      | error e =>
        refine Or.inl ⟨e, ?_⟩
        rw [hred, hsl]
      | ok res =>
        obtain ⟨hres_ne, _⟩ := searchLayer_ok_nonempty hne (by omega) hsl
        cases res with
        | nil => exact absurd rfl hres_ne
        | cons r tail =>
          have hr2 : r.2 < (idx.getD n []).length := by
            have := (searchLayer_ok_spec hsl).2.2 r (by simp)
            exact this.1
          have hr2' : r.2 < (idx.getD (n + 1) []).length := by
            have := hwf.2.1 n (le_refl n) (by omega)
            omega
          have hwf' : SuffixWF L (n + 1) idx := by
            obtain ⟨w1, w2, w3, w4⟩ := hwf
            exact ⟨fun m hm1 hm2 => w1 m (by omega) hm2,
              fun m hm1 hm2 => w2 m (by omega) hm2,
              fun m hm1 hm2 => w3 m (by omega) hm2, w4⟩
          have := ih (n + 1) idx r.2 (by omega) (by omega) hlen hwf' hhom hr2'
          rcases this with ⟨e, he⟩ | ⟨idxF, hF, h1, h2, h3, h4⟩
          · refine Or.inl ⟨e, ?_⟩
            rw [hred, hsl]
            dsimp only
            exact he
          · refine Or.inr ⟨idxF, ?_, h1, h2, h3, h4⟩
            rw [hred, hsl]
            dsimp only
            exact hF

/-- As `insertGo_main`, but on an index homogeneous in the inserted
vector's dimension: every layer search succeeds, so the loop always
completes. -/
theorem insertGo_routes_success (efc : Int) (cap : Nat) (v : Vec) (l L : Nat)
    (hlL : l < L) (d : Nat) (hvd : v.length = d) :
    ∀ (fuel n : Nat) (idx : List Layer) (t : Nat),
      fuel + n = L → n ≤ l → idx.length = L →
      SuffixWF L n idx → HomogDim d idx →
      t < (idx.getD n []).length →
      ∃ idxF, insertGo efc cap v l L fuel n idx (some t) = (idxF, none) ∧
        idxF.length = L ∧
        (∀ m, m < l → idxF.getD m [] = idx.getD m []) ∧
        (∀ m, l ≤ m → m < L →
          ProcessedLayer v
            (if m < L - 1 then some ((idx.getD (m + 1) []).length) else none)
            (idx.getD m []) (idxF.getD m [])) := by
  intro fuel
  induction fuel with
  | zero => intro n idx t hfn hnl hlen hwf hhom ht; omega
  | succ fuel ih =>
    intro n idx t hfn hnl hlen hwf hhom ht
    have hn : n < L := by omega
    have hne : ¬ (idx.getD n []).isEmpty := by
      have := hwf.1 n (le_refl n) hn
      cases hg : idx.getD n [] with
      | nil => rw [hg] at this; simp at this
      | cons a b => simp [hg]
    by_cases hnl2 : n = l
    · subst hnl2
      obtain ⟨idxF, hF, h1, h2, h3⟩ :=
        insertGo_else_phase efc cap v n L (fuel + 1) n idx (some t)
          hfn (le_refl n) hlen hwf (fun _ => ⟨d, hhom, hvd⟩)
          (fun _ => ⟨t, rfl, ht⟩)
      exact ⟨idxF, hF, h1, h2, h3⟩
    · have hnltl : n < l := by omega
      have hdim : ∀ nd ∈ idx.getD n [], nd.vector.length = v.length := by
        intro nd hnd
        rw [hvd]
        exact layerDim_mem (hhom n) nd hnd
      obtain ⟨res, hres⟩ := @searchLayer_total (idx.getD n []) t v 1 hdim ht
      have hred : insertGo efc cap v l L (fuel + 1) n idx (some t) =
          (match _searchLayer (idx.getD n []) (some t) v 1 with
            | .error e => (idx, some e)
            | .ok res => insertGo efc cap v l L fuel (n + 1) idx
                (some (match res with | [] => 0 | r :: _ => r.2))) := by
        simp only [insertGo, if_pos hn]
        rw [if_neg hne, if_pos hnltl]
      obtain ⟨hres_ne, _⟩ := searchLayer_ok_nonempty hne (by omega) hres
      cases res with
      | nil => exact absurd rfl hres_ne
      | cons r tail =>
        have hr2 : r.2 < (idx.getD n []).length :=
          ((searchLayer_ok_spec hres).2.2 r (by simp)).1
        have hr2' : r.2 < (idx.getD (n + 1) []).length := by
          have := hwf.2.1 n (le_refl n) (by omega)
          omega
        have hwf' : SuffixWF L (n + 1) idx := by
          obtain ⟨w1, w2, w3, w4⟩ := hwf
          exact ⟨fun m hm1 hm2 => w1 m (by omega) hm2,
            fun m hm1 hm2 => w2 m (by omega) hm2,
            fun m hm1 hm2 => w3 m (by omega) hm2, w4⟩
        obtain ⟨idxF, hF, h1, h2, h3⟩ :=
          ih (n + 1) idx r.2 (by omega) (by omega) hlen hwf' hhom hr2'
        refine ⟨idxF, ?_, h1, h2, h3⟩
        rw [hred, hres]
        dsimp only
        exact hF

/-! ## Reachable index states and their invariants -/

/-- All layers are empty (the freshly constructed index). -/
def AllEmpty (idx : List Layer) : Prop := ∀ m, idx.getD m [] = []

/-- The structural invariant of every state reachable from the constructor
by `insert` calls: the layer list has length `L ≥ 1`, and the layers are
either all empty or form a well-formed populated hierarchy that is
dimension-homogeneous whenever `efc ≥ 1` (a non-positive `efc` makes the
width-`efc` searches trivially empty, which lets mixed-dimension vectors
slip in; the spec's constructor contract keeps `efc` positive). -/
def StructWF (s : HIndex) : Prop :=
  s.index.length = s.L ∧ 1 ≤ s.L ∧
    (AllEmpty s.index ∨
      (SuffixWF s.L 0 s.index ∧ (1 ≤ s.efc → ∃ d, HomogDim d s.index)))

theorem allEmpty_eq_replicate {idx : List Layer} (h : AllEmpty idx) :
    idx = List.replicate idx.length [] := by
  apply List.ext_getElem
  · simp
  · intro i h1 h2
    have h3 := h i
    rw [List.getD_eq_getElem idx [] h1] at h3
    simp [h3]

theorem replicate_eq_range_map (L : Nat) (v : Vec) :
    List.replicate L ([] : Layer) =
      (List.range L).map (fun m => if m < 0 then firstNode v L m else []) := by
  rw [show (fun m => if m < 0 then firstNode v L m else []) =
      (fun _ : Nat => ([] : Layer)) from funext (fun m => by simp)]
  rw [List.map_const']
  simp

theorem mkIndex_structWF {L : Int} {mL : ℚ} {efc mc : Int} {s : HIndex}
    (h : mkIndex L mL efc mc = .ok s) : StructWF s := by
  unfold mkIndex at h
  split at h
  · exact absurd h (by simp)
  · injection h with h
    subst h
    refine ⟨by simp, by simp; omega, Or.inl ?_⟩
    intro m
    rw [List.getD_eq_getElem?_getD]
    cases hm : (List.replicate L.toNat ([] : Layer))[m]? with
    | none => rfl
    | some g =>
      have := List.getElem?_mem hm
      rw [List.eq_of_mem_replicate this]
      rfl

theorem insert_def (s : HIndex) (v : Vec) (draw : Nat) :
    s.insert v draw =
      ({ s with index := (insertGo s.efc s.maxConnections v
          (min draw (s.L - 1)) s.L s.L 0 s.index (some 0)).1 },
        (insertGo s.efc s.maxConnections v (min draw (s.L - 1)) s.L s.L 0
          s.index (some 0)).2) := by
  unfold HIndex.insert
  cases h : insertGo s.efc s.maxConnections v (min draw (s.L - 1)) s.L s.L 0
    s.index (some 0) with
  | mk idx' e => rfl

/-- Rebuilding `SuffixWF` for the whole index after a completed insert:
layers below `l` are untouched and layers from `l` on each gained one
node whose descent pointer records the next layer's former size. -/
theorem suffixWF_of_processed {v : Vec} {L l : Nat} {idx idxF : List Layer}
    (hlL : l < L) (hwf : SuffixWF L 0 idx)
    (hun : ∀ m, m < l → idxF.getD m [] = idx.getD m [])
    (hpr : ∀ m, l ≤ m → m < L →
      ProcessedLayer v
        (if m < L - 1 then some ((idx.getD (m + 1) []).length) else none)
        (idx.getD m []) (idxF.getD m [])) :
    SuffixWF L 0 idxF := by
  obtain ⟨w1, w2, w3, w4⟩ := hwf
  have hlenF : ∀ m, m < L → (idxF.getD m []).length =
      (idx.getD m []).length + (if l ≤ m then 1 else 0) := by
    intro m hm
    by_cases hlm : l ≤ m
    · rw [if_pos hlm, (hpr m hlm hm).1]
    · rw [if_neg hlm, hun m (by omega)]
      omega
  refine ⟨?_, ?_, ?_, ?_⟩
  · intro m hm1 hm2
    rw [hlenF m hm2]
    have := w1 m (by omega) hm2
    omega
  · intro m hm1 hm2
    rw [hlenF m (by omega), hlenF (m + 1) hm2]
    have := w2 m (by omega) hm2
    by_cases h1 : l ≤ m
    · rw [if_pos h1, if_pos (by omega)]
      omega
    · rw [if_neg h1]
      by_cases h2 : l ≤ m + 1
      · rw [if_pos h2]; omega
      · rw [if_neg h2]; omega
  · intro m hm1 hm2
    intro j hj
    rw [hlenF m (by omega)] at hj
    rw [hlenF (m + 1) hm2]
    by_cases hlm : l ≤ m
    · rw [if_pos hlm] at hj
      obtain ⟨p1, p2, p3, p4⟩ := hpr m hlm (by omega)
      by_cases hjold : j < (idx.getD m []).length
      · obtain ⟨k, hk1, hk2⟩ := w3 m (by omega) hm2 j hjold
        refine ⟨k, ?_, ?_⟩
        · rw [(p2 j hjold).2]; exact hk1
        · split <;> omega
      · have : j = (idx.getD m []).length := by omega
        subst this
        rw [p4]
        rw [if_pos (by omega : m < L - 1)]
        refine ⟨(idx.getD (m + 1) []).length, rfl, ?_⟩
        rw [if_pos (by omega)]
        omega
    · rw [if_neg hlm] at hj
      rw [hun m (by omega)]
      obtain ⟨k, hk1, hk2⟩ := w3 m (by omega) hm2 j (by omega)
      refine ⟨k, hk1, ?_⟩
      split <;> omega
  · intro j hj
    have hl1 : l ≤ L - 1 := by omega
    have hL1 : L - 1 < L := by omega
    obtain ⟨p1, p2, p3, p4⟩ := hpr (L - 1) hl1 hL1
    rw [hlenF (L - 1) hL1, if_pos hl1] at hj
    by_cases hjold : j < (idx.getD (L - 1) []).length
    · rw [(p2 j hjold).2]
      exact w4 j hjold
    · have : j = (idx.getD (L - 1) []).length := by omega
      subst this
      rw [p4, if_neg (by omega)]

theorem homogDim_of_processed {v : Vec} {d L l : Nat} {idx idxF : List Layer}
    (hvd : v.length = d) (hhom : HomogDim d idx) (hlenF : idxF.length = L)
    (hun : ∀ m, m < l → idxF.getD m [] = idx.getD m [])
    (hpr : ∀ m, l ≤ m → m < L →
      ProcessedLayer v
        (if m < L - 1 then some ((idx.getD (m + 1) []).length) else none)
        (idx.getD m []) (idxF.getD m [])) :
    HomogDim d idxF := by
  intro m
  by_cases hm : m < L
  · by_cases hlm : l ≤ m
    · obtain ⟨p1, p2, p3, p4⟩ := hpr m hlm hm
      intro j hj
      rw [p1] at hj
      by_cases hjold : j < (idx.getD m []).length
      · rw [(p2 j hjold).1]
        exact hhom m j hjold
      · have : j = (idx.getD m []).length := by omega
        subst this
        rw [p3, hvd]
    · rw [hun m (by omega)]
      exact hhom m
  · rw [show idxF.getD m [] = [] from by
      rw [List.getD_eq_getElem?_getD, List.getElem?_eq_none (by omega)]
      rfl]
    intro j hj
    simp at hj

theorem vector_mem_of_getD {g : Layer} {j : Nat} (hj : j < g.length) :
    (g.getD j default).vector ∈ g.map LayerNode.vector := by
  rw [List.getD_eq_getElem g default hj]
  exact List.mem_map_of_mem LayerNode.vector (List.getElem_mem hj)

theorem mem_vector_iff_getD {g : Layer} {w : Vec} :
    w ∈ g.map LayerNode.vector ↔
      ∃ j, j < g.length ∧ (g.getD j default).vector = w := by
  constructor
  · intro h
    obtain ⟨nd, hnd, rfl⟩ := List.mem_map.mp h
    obtain ⟨j, hj, rfl⟩ := List.getElem_of_mem hnd
    exact ⟨j, hj, by rw [List.getD_eq_getElem g default hj]⟩
  · intro ⟨j, hj, hw⟩
    rw [← hw]
    exact vector_mem_of_getD hj

/-- A failed `insert` on a structurally well-formed state leaves the index
exactly as it was before the call. -/
theorem insert_fail_unchanged {s : HIndex} {v : Vec} {draw : Nat}
    (hwf : StructWF s) {e : HErr} (hf : (s.insert v draw).2 = some e) :
    (s.insert v draw).1 = s := by
  obtain ⟨hlen, hL, hcase⟩ := hwf
  rw [insert_def] at hf ⊢
  rcases hcase with hempty | ⟨hswf, hhom⟩
  · exfalso
    have hrep := allEmpty_eq_replicate hempty
    rw [hlen] at hrep
    rw [hrep, replicate_eq_range_map s.L v] at hf
    rw [insertGo_fills_empty s.efc s.maxConnections v (min draw (s.L - 1))
      s.L s.L 0 (some 0) (by omega)] at hf
    exact absurd hf (by simp)
  · have h0 : (0 : Nat) < (s.index.getD 0 []).length := by
      have := hswf.1 0 (le_refl 0) (by omega)
      omega
    rcases insertGo_main s.efc s.maxConnections v (min draw (s.L - 1)) s.L
        (by omega) s.L 0 s.index 0 (by omega) (by omega) hlen hswf
        (fun h => hhom h) h0 with ⟨e', he'⟩ | ⟨idxF, hF, _⟩
    · rw [he']
    · rw [hF] at hf
      exact absurd hf (by simp)

/-- `insert` preserves the structural invariant, whether it completes or
fails. -/
theorem insert_structWF {s : HIndex} (v : Vec) (draw : Nat)
    (hwf : StructWF s) : StructWF (s.insert v draw).1 := by
  obtain ⟨hlen, hL, hcase⟩ := hwf
  rw [insert_def]
  rcases hcase with hempty | ⟨hswf, hhom⟩
  · have hrep := allEmpty_eq_replicate hempty
    rw [hlen] at hrep
    rw [hrep, replicate_eq_range_map s.L v]
    rw [insertGo_fills_empty s.efc s.maxConnections v (min draw (s.L - 1))
      s.L s.L 0 (some 0) (by omega)]
    refine show
        ((List.range s.L).map (fun m => firstNode v s.L m)).length = s.L ∧
        1 ≤ s.L ∧
        (AllEmpty ((List.range s.L).map (fun m => firstNode v s.L m)) ∨
          (SuffixWF s.L 0 ((List.range s.L).map (fun m => firstNode v s.L m)) ∧
            (1 ≤ s.efc → ∃ d, HomogDim d
              ((List.range s.L).map (fun m => firstNode v s.L m)))))
      from ⟨by simp, hL, Or.inr ⟨?_, ?_⟩⟩
    · refine ⟨?_, ?_, ?_, ?_⟩
      · intro m hm1 hm2
        rw [getD_range_map, if_pos hm2]
        simp [firstNode]
      · intro m hm1 hm2
        rw [getD_range_map, getD_range_map, if_pos (by omega),
          if_pos (by omega)]
        simp [firstNode]
      · intro m hm1 hm2
        rw [getD_range_map, getD_range_map, if_pos (by omega),
          if_pos (by omega)]
        intro j hj
        simp only [firstNode, List.length_singleton] at hj
        have hj0 : j = 0 := by omega
        subst hj0
        refine ⟨0, ?_, by simp [firstNode]⟩
        simp [firstNode, show m < s.L - 1 from by omega]
      · intro j hj
        rw [getD_range_map, if_pos (by omega)] at hj ⊢
        simp only [firstNode, List.length_singleton] at hj
        have hj0 : j = 0 := by omega
        subst hj0
        simp [firstNode]
    · intro _
      refine ⟨v.length, ?_⟩
      intro m j hj
      rw [getD_range_map] at hj ⊢
      by_cases hm : m < s.L
      · rw [if_pos hm] at hj ⊢
        simp only [firstNode, List.length_singleton] at hj
        have : j = 0 := by omega
        subst this
        rfl
      · rw [if_neg hm] at hj
        simp at hj
  · have h0 : (0 : Nat) < (s.index.getD 0 []).length := by
      have := hswf.1 0 (le_refl 0) (by omega)
      omega
    rcases insertGo_main s.efc s.maxConnections v (min draw (s.L - 1)) s.L
        (by omega) s.L 0 s.index 0 (by omega) (by omega) hlen hswf
        (fun h => hhom h) h0 with ⟨e', he'⟩ | ⟨idxF, hF, h1, h2, h3, h4⟩
    · rw [he']
      exact ⟨hlen, hL, Or.inr ⟨hswf, hhom⟩⟩
    · rw [hF]
      refine ⟨h1, hL, Or.inr ⟨?_, ?_⟩⟩
      · exact @suffixWF_of_processed v s.L (min draw (s.L - 1)) s.index idxF
          (by omega) hswf h2 h3
      · intro hefc
        obtain ⟨d, hd⟩ := hhom hefc
        exact ⟨d, @homogDim_of_processed v d s.L (min draw (s.L - 1))
          s.index idxF (h4 hefc d hd) hd h1 h2 h3⟩

/-! ## The descent of `search` ends in the last layer -/

/-- The last layer of a layer list (`index[L-1]`). -/
def lastLayer (layers : List Layer) : Layer :=
  layers.getD (layers.length - 1) []

theorem lastLayer_cons {g : Layer} {rest : List Layer} (h : rest ≠ []) :
    lastLayer (g :: rest) = lastLayer rest := by
  unfold lastLayer
  cases rest with
  | nil => exact absurd rfl h
  | cons g2 rest2 =>
    simp only [List.length_cons]
    rfl

/-- Chained well-formedness of a layer suffix: every node of a non-final
layer descends to a valid position of the next layer; nodes of the final
layer carry the sentinel. -/
def ChainWF : List Layer → Prop
  | [] => True
  | [g] => ∀ j < g.length, (g.getD j default).layerBelow = none
  | g :: g2 :: rest =>
    (∀ j < g.length, ∃ k, (g.getD j default).layerBelow = some k ∧
      k < g2.length) ∧ ChainWF (g2 :: rest)

theorem chainWF_drop {L : Nat} {idx : List Layer} (hlen : idx.length = L)
    (hwf : SuffixWF L 0 idx) (hL : 1 ≤ L) : ChainWF idx := by
  suffices h : ∀ (fuel n : Nat), idx.length - n = fuel → ChainWF (idx.drop n) by
    have := h idx.length 0 (by omega)
    simpa using this
  intro fuel
  induction fuel with
  | zero =>
    intro n hn
    rw [List.drop_eq_nil_of_le (by omega)]
    trivial
  | succ fuel ih =>
    intro n hn
    have hnlen : n < idx.length := by omega
    rw [List.drop_eq_getElem_cons hnlen]
    have hgetD : idx[n] = idx.getD n [] :=
      (List.getD_eq_getElem idx [] hnlen).symm
    by_cases hlast : n + 1 < idx.length
    · rw [List.drop_eq_getElem_cons hlast]
      have hgetD1 : idx[n + 1] = idx.getD (n + 1) [] :=
        (List.getD_eq_getElem idx [] hlast).symm
      refine ⟨?_, ?_⟩
      · intro j hj
        rw [hgetD] at hj ⊢
        rw [hgetD1]
        exact hwf.2.2.1 n (by omega) (by omega) j hj
      · have := ih (n + 1) (by omega)
        rwa [List.drop_eq_getElem_cons hlast] at this
    · have hdropnil : idx.drop (n + 1) = [] :=
        List.drop_eq_nil_of_le (by omega)
      rw [hdropnil]
      intro j hj
      rw [hgetD] at hj ⊢
      have hn1 : n = L - 1 := by omega
      rw [hn1]
      rw [hn1] at hj
      exact hwf.2.2.2 j hj

theorem searchGo_spec (q : Vec) (ef : Int) :
    ∀ (layers : List Layer) (bestV : Nat) (r : List (ℚ × Nat)),
      ChainWF layers →
      searchGo q ef layers bestV = .ok r →
      r = [] ∨ (SortedD r ∧ r.length ≤ ef.toNat ∧
        ∀ p ∈ r, p.2 < (lastLayer layers).length ∧
          squaredEuclideanDistance
            ((lastLayer layers).getD p.2 default).vector q = .ok p.1) := by
  intro layers
  induction layers with
  | nil =>
    intro bestV r _ h
    simp only [searchGo, Except.ok.injEq] at h
    exact Or.inl h.symm
  | cons g rest ih =>
    intro bestV r hwf h
    simp only [searchGo] at h
    cases hsl : _searchLayer g (some bestV) q ef with
    | error e => rw [hsl] at h; exact absurd h (by simp)
    | ok res =>
      rw [hsl] at h
      dsimp only at h
      cases res with
      | nil =>
        cases rest with
        | nil =>
          simp only [searchGo, Except.ok.injEq] at h
          exact Or.inl h.symm
        | cons g2 rest2 =>
          rcases ih bestV r hwf.2 h with h1 | ⟨h1, h2, h3⟩
          · exact Or.inl h1
          · refine Or.inr ⟨h1, h2, ?_⟩
            rw [lastLayer_cons (by simp)]
            exact h3
      | cons p tail =>
        obtain ⟨pd, pb⟩ := p
        have hp2 : pb < g.length :=
          ((searchLayer_ok_spec hsl).2.2 (pd, pb) (by simp)).1
        dsimp only at h
        cases rest with
        | nil =>
          have hlb : (g.getD pb default).layerBelow = none := hwf pb hp2
          rw [hlb] at h
          dsimp only at h
          obtain ⟨h1, h2, h3⟩ := searchLayer_ok_spec h
          exact Or.inr ⟨h1, h2, fun z hz => (h3 z hz)⟩
        | cons g2 rest2 =>
          obtain ⟨k, hk1, hk2⟩ := hwf.1 pb hp2
          rw [hk1] at h
          dsimp only at h
          rcases ih k r hwf.2 h with h1 | ⟨h1, h2, h3⟩
          · exact Or.inl h1
          · refine Or.inr ⟨h1, h2, ?_⟩
            rw [lastLayer_cons (by simp)]
            exact h3

/-! ## Reachability by insert calls -/

/-- States reachable from the source's constructor by any sequence of
`insert` calls (with arbitrary layer draws, i.e. arbitrary RNG outcomes). -/
inductive InsertReachable : HIndex → Prop where
  | base {L : Int} {mL : ℚ} {efc mc : Int} {s : HIndex} :
      mkIndex L mL efc mc = .ok s → InsertReachable s
  | step {s : HIndex} (v : Vec) (draw : Nat) :
      InsertReachable s → InsertReachable (s.insert v draw).1

theorem insertReachable_structWF {s : HIndex} (h : InsertReachable s) :
    StructWF s := by
  induction h with
  | base hmk => exact mkIndex_structWF hmk
  | step v draw _ ih => exact insert_structWF v draw ih

/-! ## Claim C1, amended part -/

/-- C1 (amended): for every index state reachable by insert calls from a
freshly constructed index, whenever `search(query, ef)` returns, it returns
at most `ef` (distance, node id) pairs sorted ascending both by the squared
distances the engine compares and by their square roots — the true
Euclidean distances the source reports — and each node id is the position
of the corresponding node within the **last** layer (index `L-1`), whose
stored vector realizes exactly the reported distance.  (The claim's "layer
0" is corrected to the last layer: vectors are appended to layers `n ≥ l`,
so the dense layer holding every vector — and the only layer whose nodes
carry the sentinel that makes `search` return — is layer `L-1`, not layer
0; the two agree only when `L = 1`.) -/
theorem search_results_from_last_layer (s : HIndex) (q : Vec) (ef : Int)
    (r : List (ℚ × Nat)) (hr : InsertReachable s)
    (h : s.search q ef = .ok r) :
    r.length ≤ ef.toNat ∧ SortedD r ∧
      r.Pairwise (fun a b => Real.sqrt (a.1 : ℝ) ≤ Real.sqrt (b.1 : ℝ)) ∧
      ∀ p ∈ r, p.2 < (s.index.getD (s.L - 1) []).length ∧
        squaredEuclideanDistance
          ((s.index.getD (s.L - 1) []).getD p.2 default).vector q =
          .ok p.1 := by
  obtain ⟨hlen, hL, hcase⟩ := insertReachable_structWF hr
  have hmain : r = [] ∨ (SortedD r ∧ r.length ≤ ef.toNat ∧
      ∀ p ∈ r, p.2 < (lastLayer s.index).length ∧
        squaredEuclideanDistance
          ((lastLayer s.index).getD p.2 default).vector q = .ok p.1) := by
    unfold HIndex.search at h
    split at h
    · injection h with h
      exact Or.inl h.symm
    · rcases hcase with hempty | ⟨hswf, _⟩
      · rename_i hcond
        exfalso
        exact hcond (Or.inr (by rw [hempty 0]; rfl))
      · exact searchGo_spec q ef s.index 0 r
          (chainWF_drop hlen hswf hL) h
  have hlast : lastLayer s.index = s.index.getD (s.L - 1) [] := by
    unfold lastLayer
    rw [hlen]
  rcases hmain with rfl | ⟨h1, h2, h3⟩
  · exact ⟨by simp, by simp [SortedD], by simp, by simp⟩
  · rw [hlast] at h3
    refine ⟨h2, h1, ?_, h3⟩
    refine h1.imp ?_
    intro a b hab
    exact Real.sqrt_le_sqrt (by exact_mod_cast hab)

/-- Witness for `search_results_from_last_layer` on the concrete reachable
state `exampleA`. -/
theorem search_results_from_last_layer_witness :
    ([((0 : ℚ), 1)].length ≤ (1 : Int).toNat ∧ SortedD [((0 : ℚ), 1)] ∧
      ([((0 : ℚ), 1)]).Pairwise
        (fun a b => Real.sqrt (a.1 : ℝ) ≤ Real.sqrt (b.1 : ℝ)) ∧
      ∀ p ∈ [((0 : ℚ), 1)], p.2 <
          (exampleA.index.getD (exampleA.L - 1) []).length ∧
        squaredEuclideanDistance
          ((exampleA.index.getD (exampleA.L - 1) []).getD p.2 default).vector
          [10] = .ok p.1) :=
  search_results_from_last_layer exampleA [10] 1 [(0, 1)]
    (.step [10] 1 (.step [0] 0 (.base
      (show mkIndex 2 1 10 16 = .ok exampleA0 by with_unfolding_all rfl))))
    (by with_unfolding_all rfl)

/-! ## Claim C4, amended part -/

/-- C4 (amended): for every index state reachable by construction and
insert calls (rather than every state, including those loaded from
documents with empty low layers), a failed insert leaves the index exactly
as it was before the call: the very first distance computation — at layer
0, before any mutation — is the one that can fail, and the routing layers
never mutate.  States reachable through `fromJSON` can violate this (see
the counterexample). -/
theorem failed_insert_leaves_index_unchanged (s : HIndex) (v : Vec)
    (draw : Nat) (e : HErr) (hr : InsertReachable s)
    (h : (s.insert v draw).2 = some e) : (s.insert v draw).1 = s :=
  insert_fail_unchanged (insertReachable_structWF hr) h

/-- Witness for `failed_insert_leaves_index_unchanged`: a dimension-2
insert into a dimension-1 reachable index fails and changes nothing. -/
theorem failed_insert_leaves_index_unchanged_witness :
    (((exampleA0.insert [0] 0).1).insert [1, 2] 0).1 =
      (exampleA0.insert [0] 0).1 :=
  failed_insert_leaves_index_unchanged _ [1, 2] 0 .dimensionMismatch
    (.step [0] 0 (.base
      (show mkIndex 2 1 10 16 = .ok exampleA0 by with_unfolding_all rfl)))
    (by with_unfolding_all rfl)

/-! ## Sequences of dimension-matching inserts -/

/-- An all-empty layer list is dimension-homogeneous for any dimension. -/
theorem allEmpty_homogDim {idx : List Layer} (d : Nat) (h : AllEmpty idx) :
    HomogDim d idx := by
  intro m
  rw [h m]
  intro j hj
  simp at hj

/-- The invariant threaded through sequences of dimension-`d` inserts: the
layer list has length `L ≥ 1`, is all empty or a well-formed populated
hierarchy, and every stored vector has dimension `d`. -/
def GoodState (d : Nat) (s : HIndex) : Prop :=
  s.index.length = s.L ∧ 1 ≤ s.L ∧
    (AllEmpty s.index ∨ SuffixWF s.L 0 s.index) ∧ HomogDim d s.index

theorem mkIndex_goodState {L : Int} {mL : ℚ} {efc mc : Int} {s : HIndex}
    (d : Nat) (h : mkIndex L mL efc mc = .ok s) : GoodState d s := by
  have hempty : AllEmpty s.index := by
    unfold mkIndex at h
    split at h
    · exact absurd h (by simp)
    · injection h with h
      subst h
      intro m
      rw [List.getD_eq_getElem?_getD]
      cases hm : (List.replicate L.toNat ([] : Layer))[m]? with
      | none => rfl
      | some g =>
        have := List.getElem?_mem hm
        rw [List.eq_of_mem_replicate this]
        rfl
  obtain ⟨h1, h2, _⟩ := mkIndex_structWF h
  exact ⟨h1, h2, Or.inl hempty, allEmpty_homogDim d hempty⟩

/-- The layer list left by the very first insert is suffix-well-formed. -/
theorem fills_suffixWF (v : Vec) (L : Nat) (hL : 1 ≤ L) :
    SuffixWF L 0 ((List.range L).map (fun m => firstNode v L m)) := by
  refine ⟨?_, ?_, ?_, ?_⟩
  · intro m hm1 hm2
    rw [getD_range_map, if_pos hm2]
    simp [firstNode]
  · intro m hm1 hm2
    rw [getD_range_map, getD_range_map, if_pos (by omega), if_pos (by omega)]
    simp [firstNode]
  · intro m hm1 hm2
    rw [getD_range_map, getD_range_map, if_pos (by omega), if_pos (by omega)]
    intro j hj
    simp only [firstNode, List.length_singleton] at hj
    have hj0 : j = 0 := by omega
    subst hj0
    refine ⟨0, ?_, by simp [firstNode]⟩
    simp [firstNode, show m < L - 1 from by omega]
  · intro j hj
    rw [getD_range_map, if_pos (by omega)] at hj ⊢
    simp only [firstNode, List.length_singleton] at hj
    have hj0 : j = 0 := by omega
    subst hj0
    simp [firstNode]

/-- The layer list left by the very first insert is homogeneous of the
inserted vector's dimension. -/
theorem fills_homog (v : Vec) (L : Nat) :
    HomogDim v.length ((List.range L).map (fun m => firstNode v L m)) := by
  intro m j hj
  rw [getD_range_map] at hj ⊢
  by_cases hm : m < L
  · rw [if_pos hm] at hj ⊢
    simp only [firstNode, List.length_singleton] at hj
    have : j = 0 := by omega
    subst this
    rfl
  · rw [if_neg hm] at hj
    simp at hj

/-- A dimension-matching insert on a good state always completes, places the
vector into the last layer, keeps every vector already present in its layer,
and preserves the good state (and `L`). -/
theorem insert_good {d : Nat} {s : HIndex} (v : Vec) (draw : Nat)
    (hg : GoodState d s) (hvd : v.length = d) :
    (s.insert v draw).2 = none ∧ GoodState d (s.insert v draw).1 ∧
      (s.insert v draw).1.L = s.L ∧
      v ∈ ((s.insert v draw).1.index.getD (s.L - 1) []).map LayerNode.vector ∧
      ∀ m, ∀ w ∈ (s.index.getD m []).map LayerNode.vector,
        w ∈ ((s.insert v draw).1.index.getD m []).map LayerNode.vector := by
  obtain ⟨hlen, hL, hcase, hhom⟩ := hg
  rcases hcase with hempty | hswf
  · have hrep := allEmpty_eq_replicate hempty
    rw [hlen] at hrep
    have hres : insertGo s.efc s.maxConnections v (min draw (s.L - 1)) s.L s.L
        0 s.index (some 0) =
        ((List.range s.L).map (fun m => firstNode v s.L m), none) := by
      conv_lhs => rw [hrep, replicate_eq_range_map s.L v]
      exact insertGo_fills_empty s.efc s.maxConnections v (min draw (s.L - 1))
        s.L s.L 0 (some 0) (by omega)
    have hget : ∀ m, m < s.L →
        ((List.range s.L).map (fun m => firstNode v s.L m)).getD m [] =
          firstNode v s.L m := by
      intro m hm
      rw [getD_range_map, if_pos hm]
    rw [insert_def, hres]
    refine ⟨rfl, ⟨by simp, hL, Or.inr (fills_suffixWF v s.L hL),
      hvd ▸ fills_homog v s.L⟩, rfl, ?_, ?_⟩
    · rw [show ({ s with index :=
          ((List.range s.L).map (fun m => firstNode v s.L m), none).1 } :
          HIndex).index = (List.range s.L).map (fun m => firstNode v s.L m)
        from rfl]
      rw [hget (s.L - 1) (by omega)]
      simp [firstNode]
    · intro m w hw
      rw [hempty m] at hw
      simp at hw
  · have h0 : (0 : Nat) < (s.index.getD 0 []).length := by
      have := hswf.1 0 (le_refl 0) (by omega)
      omega
    obtain ⟨idxF, hF, hlenF, hun, hpr⟩ :=
      insertGo_routes_success s.efc s.maxConnections v (min draw (s.L - 1))
        s.L (by omega) d hvd s.L 0 s.index 0 (by omega) (by omega) hlen hswf
        hhom h0
    rw [insert_def, hF]
    refine ⟨rfl, ⟨hlenF, hL, Or.inr ?_, ?_⟩, rfl, ?_, ?_⟩
    · exact @suffixWF_of_processed v s.L (min draw (s.L - 1)) s.index idxF
        (by omega) hswf hun hpr
    · exact @homogDim_of_processed v d s.L (min draw (s.L - 1)) s.index idxF
        hvd hhom hlenF hun hpr
    · obtain ⟨p1, p2, p3, p4⟩ := hpr (s.L - 1) (by omega) (by omega)
      rw [show ({ s with index := (idxF, none).1 } : HIndex).index = idxF
        from rfl]
      rw [mem_vector_iff_getD]
      exact ⟨(s.index.getD (s.L - 1) []).length, by omega, p3⟩
    · intro m w hw
      rw [show ({ s with index := (idxF, none).1 } : HIndex).index = idxF
        from rfl]
      by_cases hm : m < s.L
      · by_cases hlm : min draw (s.L - 1) ≤ m
        · obtain ⟨p1, p2, p3, p4⟩ := hpr m hlm hm
          rw [mem_vector_iff_getD] at hw ⊢
          obtain ⟨j, hj, hjw⟩ := hw
          exact ⟨j, by omega, by rw [(p2 j hj).1]; exact hjw⟩
        · rw [hun m (by omega)]
          exact hw
      · rw [show s.index.getD m [] = [] from by
          rw [List.getD_eq_getElem?_getD, List.getElem?_eq_none (by omega)]
          rfl] at hw
        simp at hw

/-- A sequence of `insert` calls (`pairs` lists the vectors with their layer
draws, applied left to right). -/
def insertAll : List (Vec × Nat) → HIndex → HIndex
  | [], s => s
  | p :: rest, s => insertAll rest (s.insert p.1 p.2).1

/-- Folding `insert_good` over a sequence of dimension-`d` inserts: the good
state and `L` are preserved, vectors already present stay in their layers,
and every inserted vector ends up in the last layer. -/
theorem insertAll_good {d : Nat} :
    ∀ (pairs : List (Vec × Nat)) (s : HIndex), GoodState d s →
      (∀ p ∈ pairs, (p.1 : Vec).length = d) →
      GoodState d (insertAll pairs s) ∧ (insertAll pairs s).L = s.L ∧
      (∀ m, ∀ w ∈ (s.index.getD m []).map LayerNode.vector,
        w ∈ ((insertAll pairs s).index.getD m []).map LayerNode.vector) ∧
      ∀ p ∈ pairs, p.1 ∈ ((insertAll pairs s).index.getD
        ((insertAll pairs s).L - 1) []).map LayerNode.vector := by
  intro pairs
  induction pairs with
  | nil =>
    intro s hg hd
    exact ⟨hg, rfl, fun m w hw => hw, by simp⟩
  | cons p rest ih =>
    intro s hg hd
    obtain ⟨hnone, hg', hL', hv, hpres⟩ :=
      insert_good p.1 p.2 hg (hd p (by simp))
    obtain ⟨g1, g2, g3, g4⟩ := ih (s.insert p.1 p.2).1 hg'
      (fun q hq => hd q (by simp [hq]))
    have hstep : insertAll (p :: rest) s =
        insertAll rest (s.insert p.1 p.2).1 := rfl
    rw [hstep]
    have hLL : (insertAll rest (s.insert p.1 p.2).1).L = s.L := by
      rw [g2, hL']
    refine ⟨g1, hLL, ?_, ?_⟩
    · intro m w hw
      exact g3 m w (hpres m w hw)
    · intro q hq
      rcases List.mem_cons.mp hq with rfl | hq
      · rw [hLL]
        exact g3 (s.L - 1) q.1 hv
      · exact g4 q hq

/-- C2 (amended): for every index built by a sequence of inserts of vectors
of one common dimension from a freshly constructed index, the LAST layer
(index `L-1`) contains a node holding each inserted vector.  (The claim's
"layer 0" is corrected to layer `L-1`: the insert loop appends the vector
to every layer `n ≥ l` of the clamped draw `l`, so the dense layer that is
guaranteed to hold every inserted vector is the last one; layer 0 receives
a vector only when its draw is 0, as the counterexample
`inserted_vector_missing_from_layer0` shows.) -/
theorem inserted_vectors_in_last_layer (L : Int) (mL : ℚ) (efc mc : Int)
    (s0 : HIndex) (hmk : mkIndex L mL efc mc = .ok s0) (d : Nat)
    (pairs : List (Vec × Nat)) (hd : ∀ p ∈ pairs, (p.1 : Vec).length = d) :
    ∀ p ∈ pairs, p.1 ∈ ((insertAll pairs s0).index.getD
      ((insertAll pairs s0).L - 1) []).map LayerNode.vector :=
  (insertAll_good pairs s0 (mkIndex_goodState d hmk) hd).2.2.2

/-- Witness for `inserted_vectors_in_last_layer`: both vectors inserted
into a fresh two-layer index are found in the last layer. -/
theorem inserted_vectors_in_last_layer_witness :
    ([10] : Vec) ∈
      ((insertAll [(([0] : Vec), 0), (([10] : Vec), 1)] exampleA0).index.getD
        ((insertAll [(([0] : Vec), 0), (([10] : Vec), 1)] exampleA0).L - 1)
        []).map LayerNode.vector :=
  inserted_vectors_in_last_layer 2 1 10 16 exampleA0
    (by with_unfolding_all rfl) 1 [(([0] : Vec), 0), (([10] : Vec), 1)]
    (by intro p hp; rcases List.mem_cons.mp hp with rfl | hp; · rfl
        · simp at hp; rw [hp]; rfl)
    ([10], 1) (by simp)

/-! ## Identity retrieval -/

theorem sqVal_self (v : Vec) : sqVal v v = 0 := by
  induction v with
  | nil => rfl
  | cons a t ih =>
    simp only [sqVal, List.zip_cons_cons, List.map_cons, List.sum_cons,
      sub_self, zero_mul, zero_add]
    exact ih

/-- `_searchLayer` on a one-node layer, querying the stored vector itself,
returns exactly that node at squared distance 0. -/
theorem searchLayer_single_self (v : Vec) (lb : Option Nat) (ef : Int)
    (hef : 1 ≤ ef) :
    _searchLayer [⟨v, [], lb⟩] (some 0) v ef = .ok [(0, 0)] := by
  obtain ⟨k, hk⟩ : ∃ k, ef.toNat = k + 1 := ⟨ef.toNat - 1, by omega⟩
  have hd : squaredEuclideanDistance v v = .ok 0 := by
    unfold squaredEuclideanDistance
    rw [if_neg (by simp), sqVal_self]
  unfold _searchLayer
  rw [if_neg (by simp)]
  dsimp only
  rw [if_neg (by simp), if_neg (by omega),
    show (([⟨v, [], lb⟩] : Layer).getD 0 default).vector = v from rfl, hd]
  dsimp only
  rw [hk]
  show searchLoop [⟨v, [], lb⟩] v (k + 1) 2 (emplaceBest (k + 1) (0, 0) [])
    [(0, 0)] ((List.replicate 1 false).set 0 true) = .ok [(0, 0)]
  have hemp : emplaceBest (k + 1) ((0 : ℚ), 0) [] = [((0 : ℚ), 0)] := by
    unfold emplaceBest
    rw [if_pos (by simp)]
    rfl
  rw [hemp]
  with_unfolding_all rfl

/-- The descent of `search` through a stack of one-node layers all carrying
`v` and chained by descent pointer 0 ends with the exact result `(0, 0)`. -/
theorem searchGo_all_single (v : Vec) (ef : Int) (hef : 1 ≤ ef) :
    ∀ layers : List Layer, layers ≠ [] →
      (∀ m, m < layers.length → layers.getD m [] =
        [⟨v, [], if m + 1 < layers.length then some 0 else none⟩]) →
      searchGo v ef layers 0 = .ok [(0, 0)] := by
  intro layers
  induction layers with
  | nil => intro h _; exact absurd rfl h
  | cons g rest ih =>
    intro _ hall
    have hg0 := hall 0 (by simp)
    rw [List.getD_cons_zero] at hg0
    simp only [searchGo]
    cases rest with
    | nil =>
      have hg : g = [⟨v, [], none⟩] := by
        rw [hg0,
          if_neg (by simp only [List.length_cons, List.length_nil]; omega)]
      rw [hg, searchLayer_single_self v none ef hef]
      dsimp only
      rw [show (([⟨v, [], none⟩] : Layer).getD 0 default).layerBelow = none
        from rfl]
      dsimp only
      exact searchLayer_single_self v none ef hef
    | cons g2 rest2 =>
      have hg : g = [⟨v, [], some 0⟩] := by
        rw [hg0, if_pos (by simp only [List.length_cons]; omega)]
      rw [hg, searchLayer_single_self v (some 0) ef hef]
      dsimp only
      rw [show (([⟨v, [], some 0⟩] : Layer).getD 0 default).layerBelow =
        some 0 from rfl]
      dsimp only
      refine ih (by simp) ?_
      intro m hm
      have h2 := hall (m + 1)
        (by simp only [List.length_cons] at hm ⊢; omega)
      rw [List.getD_cons_succ] at h2
      rw [h2]
      by_cases hc : m + 1 < (g2 :: rest2).length
      · rw [if_pos (by simp only [List.length_cons] at hc ⊢; omega),
          if_pos hc]
      · rw [if_neg (by simp only [List.length_cons] at hc ⊢; omega),
          if_neg hc]

/-- On a state produced by `mkIndex`, an insert fills every layer with the
single node `firstNode`; the ambient `L` is at least 1. -/
theorem insert_on_fresh {L : Int} {mL : ℚ} {efc mc : Int} {s : HIndex}
    (hmk : mkIndex L mL efc mc = .ok s) (v : Vec) (draw : Nat) :
    1 ≤ s.L ∧ (s.insert v draw).1.index =
      (List.range s.L).map (fun m => firstNode v s.L m) := by
  unfold mkIndex at hmk
  split at hmk
  · exact absurd hmk (by simp)
  · rename_i hL
    injection hmk with hmk
    subst hmk
    refine ⟨by show 1 ≤ L.toNat; omega, ?_⟩
    unfold HIndex.insert
    have hrep : (List.replicate L.toNat ([] : Layer)) =
        (List.range L.toNat).map
          (fun m => if m < 0 then firstNode v L.toNat m else []) := by
      rw [show (fun m => if m < 0 then firstNode v L.toNat m else []) =
          (fun _ : Nat => ([] : Layer)) from funext (fun m => by simp)]
      rw [List.map_const']
      simp
    simp only [hrep]
    rw [insertGo_fills_empty efc ((max 1 mc).toNat) v
      (min draw (L.toNat - 1)) L.toNat L.toNat 0 (some 0) (by omega)]

/-- Searching a freshly constructed index for the single vector it received
returns exactly that node, at squared distance 0. -/
theorem single_insert_search_exact {L : Int} {mL : ℚ} {efc mc : Int}
    {s0 : HIndex} (hmk : mkIndex L mL efc mc = .ok s0) (v : Vec) (draw : Nat)
    (ef : Int) (hef : 1 ≤ ef) :
    ((s0.insert v draw).1).search v ef = .ok [(0, 0)] := by
  obtain ⟨hL, hidx⟩ := insert_on_fresh hmk v draw
  unfold HIndex.search
  rw [hidx]
  have hlenidx : ((List.range s0.L).map
      (fun m => firstNode v s0.L m)).length = s0.L := by simp
  split
  · rename_i hcond
    exfalso
    rcases hcond with h | h
    · rw [List.isEmpty_iff] at h
      rw [h] at hlenidx
      simp at hlenidx
      omega
    · rw [getD_range_map, if_pos (by omega)] at h
      simp [firstNode] at h
  · apply searchGo_all_single v ef hef
    · intro hnil
      rw [hnil] at hlenidx
      simp at hlenidx
      omega
    · intro m hm
      rw [hlenidx] at hm
      rw [getD_range_map, if_pos hm, hlenidx]
      unfold firstNode
      by_cases hc : m + 1 < s0.L
      · rw [if_pos (by omega), if_pos hc]
      · rw [if_neg (by omega), if_neg hc]

/-- On a layer stack whose layers are all non-empty and homogeneous of the
query's dimension, the `search` descent always succeeds with a non-empty
result. -/
theorem searchGo_total_nonempty (q : Vec) (ef : Int) (hef : 1 ≤ ef) (d : Nat)
    (hq : q.length = d) :
    ∀ (layers : List Layer) (bestV : Nat), ChainWF layers →
      (∀ g ∈ layers, g ≠ [] ∧ LayerDim d g) →
      bestV < (layers.getD 0 []).length →
      ∃ r, searchGo q ef layers bestV = .ok r ∧ r ≠ [] := by
  intro layers
  induction layers with
  | nil =>
    intro bestV _ _ hb
    simp at hb
  | cons g rest ih =>
    intro bestV hwf hprops hb
    obtain ⟨hgne, hgdim⟩ := hprops g (by simp)
    have hdim : ∀ nd ∈ g, nd.vector.length = q.length := by
      intro nd hnd
      rw [hq]
      exact layerDim_mem hgdim nd hnd
    have hbg : bestV < g.length := by
      rw [List.getD_cons_zero] at hb
      exact hb
    have hne : ¬ g.isEmpty := by
      rw [List.isEmpty_iff]
      exact hgne
    obtain ⟨res, hres⟩ := @searchLayer_total g bestV q ef hdim hbg
    obtain ⟨hresne, _⟩ := searchLayer_ok_nonempty hne hef hres
    simp only [searchGo]
    rw [hres]
    dsimp only
    cases res with
    | nil => exact absurd rfl hresne
    | cons p tail =>
      obtain ⟨pd, pb⟩ := p
      dsimp only
      have hp2 : pb < g.length :=
        ((searchLayer_ok_spec hres).2.2 (pd, pb) (by simp)).1
      cases rest with
      | nil =>
        have hlb : (g.getD pb default).layerBelow = none := hwf pb hp2
        rw [hlb]
        dsimp only
        obtain ⟨r2, hr2⟩ := @searchLayer_total g pb q ef hdim hp2
        obtain ⟨hr2ne, _⟩ := searchLayer_ok_nonempty hne hef hr2
        exact ⟨r2, hr2, hr2ne⟩
      | cons g2 rest2 =>
        obtain ⟨k, hk1, hk2⟩ := hwf.1 pb hp2
        rw [hk1]
        dsimp only
        refine ih k hwf.2 (fun g' hg' => hprops g' (by simp [hg'])) ?_
        rw [List.getD_cons_zero]
        exact hk2

/-- C3 (amended): on an index built by inserting vectors of one common
dimension into a freshly constructed index, searching for any previously
inserted vector with `ef ≥ 1` succeeds and returns a non-empty result; and
when exactly one vector has been inserted, the result is exactly
`[(0, 0)]` — squared top distance 0, so the Euclidean distance the source
reports is `√0 = 0`, within any tolerance.  (The claim's unconditional
"top distance 0" for every inserted vector is refuted by
`identity_retrieval_violated`: pruning with a small `max_connections`
disconnects an earlier node from the beam, leaving a top distance far above
the `1e-9` tolerance.) -/
theorem identity_retrieval_amended (L : Int) (mL : ℚ) (efc mc : Int)
    (s0 : HIndex) (hmk : mkIndex L mL efc mc = .ok s0) (d : Nat)
    (pairs : List (Vec × Nat)) (hd : ∀ p ∈ pairs, (p.1 : Vec).length = d)
    (ef : Int) (hef : 1 ≤ ef) :
    (∀ p ∈ pairs, ∃ r, (insertAll pairs s0).search p.1 ef = .ok r ∧ r ≠ []) ∧
    ∀ (v : Vec) (draw : Nat),
      (insertAll [(v, draw)] s0).search v ef = .ok [(0, 0)] := by
  constructor
  · intro p hp
    obtain ⟨hg, hLeq, hpres, hlast⟩ :=
      insertAll_good pairs s0 (mkIndex_goodState d hmk) hd
    obtain ⟨hlen, hL, hcase, hhom⟩ := hg
    have hmem := hlast p hp
    have hne_last : (insertAll pairs s0).index.getD
        ((insertAll pairs s0).L - 1) [] ≠ [] := by
      intro hnil
      rw [hnil] at hmem
      simp at hmem
    have hswf : SuffixWF (insertAll pairs s0).L 0
        (insertAll pairs s0).index := by
      rcases hcase with hempty | hswf
      · exact absurd (hempty _) hne_last
      · exact hswf
    have hprops : ∀ g ∈ (insertAll pairs s0).index, g ≠ [] ∧ LayerDim d g := by
      intro g hgmem
      obtain ⟨m, hm, hgm⟩ := List.getElem_of_mem hgmem
      have hgd : (insertAll pairs s0).index.getD m [] = g := by
        rw [List.getD_eq_getElem (insertAll pairs s0).index [] hm, hgm]
      constructor
      · intro hnil
        have := hswf.1 m (by omega) (by omega)
        rw [hgd, hnil] at this
        simp at this
      · rw [← hgd]
        exact hhom m
    have hq : (p.1 : Vec).length = d := hd p hp
    have h00 : 0 < ((insertAll pairs s0).index.getD 0 []).length := by
      have := hswf.1 0 (le_refl 0) (by omega)
      omega
    obtain ⟨r, hr, hrne⟩ := searchGo_total_nonempty p.1 ef hef d hq
      (insertAll pairs s0).index 0 (chainWF_drop hlen hswf hL) hprops h00
    refine ⟨r, ?_, hrne⟩
    unfold HIndex.search
    split
    · rename_i hcond
      exfalso
      rcases hcond with h | h
      · rw [List.isEmpty_iff] at h
        rw [h] at hlen
        simp at hlen
        omega
      · rw [List.isEmpty_iff] at h
        rw [h] at h00
        simp at h00
    · exact hr
  · intro v draw
    exact single_insert_search_exact hmk v draw ef hef

/-- Witness for `identity_retrieval_amended`: the sole vector of a
single-insert two-layer index is retrieved exactly, at distance 0. -/
theorem identity_retrieval_amended_witness :
    (insertAll [(([7] : Vec), 0)] exampleA0).search [7] 1 = .ok [(0, 0)] :=
  (identity_retrieval_amended 2 1 10 16 exampleA0 (by with_unfolding_all rfl)
    1 [] (by simp) 1 (by omega)).2 [7] 0

/-! ## Connection-list invariants -/

/-- Node `i` (in a layer of `len` nodes) has at most `cap` connections, all
targeting in-range positions other than `i` itself. -/
def NodeOK (cap len i : Nat) (nd : LayerNode) : Prop :=
  nd.connections.length ≤ cap ∧ ∀ c ∈ nd.connections, c < len ∧ c ≠ i

/-- Every node of the layer satisfies `NodeOK`. -/
def LayerOK (cap : Nat) (g : Layer) : Prop :=
  ∀ i, i < g.length → NodeOK cap g.length i (g.getD i default)

/-- The connection invariant of a whole index state. -/
def ConnOK (s : HIndex) : Prop :=
  ∀ g ∈ s.index, LayerOK s.maxConnections g

theorem getDN_set_ne {g : Layer} {i j : Nat} {nd : LayerNode} (h : i ≠ j) :
    (g.set i nd).getD j default = g.getD j default := by
  rw [List.getD_eq_getElem?_getD, List.getD_eq_getElem?_getD,
    List.getElem?_set_ne h]

theorem getDN_set_self {g : Layer} {i : Nat} {nd : LayerNode}
    (h : i < g.length) : (g.set i nd).getD i default = nd := by
  rw [List.getD_eq_getElem?_getD, List.getElem?_set_self h]
  rfl

/-- Every scored pair of `pruneScore` records a surviving connection: an
in-range index other than the node's own, paired with its exact squared
distance from the node's own vector (whose dimension it must share). -/
theorem mem_pruneScore {layer : Layer} {own : Vec} {i : Nat} :
    ∀ {conns : List Nat} {scored : List (ℚ × Nat)},
      pruneScore layer own i conns = .ok scored →
      ∀ e ∈ scored, e.2 ∈ conns ∧ e.2 ≠ i ∧ e.2 < layer.length ∧
        own.length = ((layer.getD e.2 default).vector).length ∧
        e.1 = sqVal own ((layer.getD e.2 default).vector) := by
  intro conns
  induction conns with
  | nil =>
    intro scored h e he
    simp only [pruneScore, Except.ok.injEq] at h
    subst h
    simp at he
  | cons c rest ih =>
    intro scored h e he
    simp only [pruneScore] at h
    split at h
    · obtain ⟨h1, h2, h3, h4, h5⟩ := ih h e he
      exact ⟨List.mem_cons_of_mem c h1, h2, h3, h4, h5⟩
    · rename_i hc
      obtain ⟨hcne, hclt⟩ := not_or.mp hc
      cases hd : squaredEuclideanDistance own
          ((layer.getD c default).vector) with
      | error err => rw [hd] at h; exact absurd h (by simp)
      | ok dv =>
        rw [hd] at h
        dsimp only at h
        cases hrec : pruneScore layer own i rest with
        | error err => rw [hrec] at h; exact absurd h (by simp)
        | ok scored' =>
          rw [hrec] at h
          dsimp only at h
          injection h with h
          subst h
          rcases List.mem_cons.mp he with rfl | he
          · refine ⟨by simp, hcne, by omega, ?_, ?_⟩
            · show own.length = ((layer.getD c default).vector).length
              exact (sqDist_ok_iff.mp hd).1
            · show dv = sqVal own ((layer.getD c default).vector)
              exact (sqDist_ok_iff.mp hd).2
          · obtain ⟨h1, h2, h3, h4, h5⟩ := ih hrec e he
            exact ⟨List.mem_cons_of_mem c h1, h2, h3, h4, h5⟩

theorem rebuildConns_length : ∀ (l : List (ℚ × Nat)) (acc : List Nat),
    (rebuildConns l acc).length ≤ acc.length + l.length := by
  intro l
  induction l with
  | nil => intro acc; simp [rebuildConns]
  | cons e rest ih =>
    intro acc
    simp only [rebuildConns]
    by_cases he : e.2 ∈ acc
    · rw [if_pos he]
      have := ih acc
      simp only [List.length_cons]
      omega
    · rw [if_neg he]
      have := ih (acc ++ [e.2])
      simp only [List.length_append, List.length_cons,
        List.length_singleton, List.length_nil] at this ⊢
      omega

theorem mem_rebuildConns : ∀ (l : List (ℚ × Nat)) (acc : List Nat) (x : Nat),
    x ∈ rebuildConns l acc → x ∈ acc ∨ x ∈ l.map Prod.snd := by
  intro l
  induction l with
  | nil =>
    intro acc x h
    simp only [rebuildConns] at h
    exact Or.inl h
  | cons e rest ih =>
    intro acc x h
    simp only [rebuildConns] at h
    by_cases he : e.2 ∈ acc
    · rw [if_pos he] at h
      rcases ih acc x h with h1 | h1
      · exact Or.inl h1
      · exact Or.inr (by simp [h1])
    · rw [if_neg he] at h
      rcases ih (acc ++ [e.2]) x h with h1 | h1
      · rcases List.mem_append.mp h1 with h2 | h2
        · exact Or.inl h2
        · simp at h2
          exact Or.inr (by simp [h2])
      · exact Or.inr (by simp [h1])

/-- After a successful prune, the pruned node's connection list is within
the cap and confined to in-range targets other than itself. -/
theorem pruneNodeConnections_ok_node {cap : Nat} {layer layer' : Layer}
    {i : Nat} (hi : i < layer.length)
    (h : pruneNodeConnections cap layer i = .ok layer') :
    (layer'.getD i default).connections.length ≤ cap ∧
      ∀ c ∈ (layer'.getD i default).connections, c < layer.length ∧ c ≠ i := by
  unfold pruneNodeConnections at h
  rw [if_neg (by omega)] at h
  by_cases hemp : (layer.getD i default).connections.isEmpty
  · rw [if_pos hemp] at h
    injection h with h
    subst h
    rw [List.isEmpty_iff] at hemp
    rw [hemp]
    exact ⟨by simp, by simp⟩
  · rw [if_neg hemp] at h
    cases hsc : pruneScore layer (layer.getD i default).vector i
        (layer.getD i default).connections with
    | error e => rw [hsc] at h; exact absurd h (by simp)
    | ok scored =>
      rw [hsc] at h
      dsimp only at h
      by_cases hscemp : scored.isEmpty
      · rw [if_pos hscemp] at h
        injection h with h
        subst h
        rw [getDN_set_self hi]
        exact ⟨by simp, by simp⟩
      · rw [if_neg hscemp] at h
        injection h with h
        subst h
        rw [getDN_set_self hi]
        dsimp only
        constructor
        · have h1 := rebuildConns_length ((sortPairs scored).take cap) []
          rw [List.length_nil] at h1
          have h2 : ((sortPairs scored).take cap).length ≤ cap := by
            rw [List.length_take]
            omega
          omega
        · intro c hc
          rcases mem_rebuildConns _ _ c hc with h1 | h1
          · simp at h1
          · obtain ⟨e, he, rfl⟩ := List.mem_map.mp h1
            have he2 : e ∈ sortPairs scored :=
              (List.take_sublist cap (sortPairs scored)).subset he
            obtain ⟨_, h2, h3, _, _⟩ := mem_pruneScore hsc e
              (mem_sortPairs.mp he2)
            exact ⟨h3, h2⟩

/-- A prune touches only the pruned node. -/
theorem pruneNodeConnections_other {cap : Nat} {layer layer' : Layer}
    {i : Nat} (h : pruneNodeConnections cap layer i = .ok layer')
    {j : Nat} (hj : j ≠ i) :
    layer'.getD j default = layer.getD j default := by
  unfold pruneNodeConnections at h
  split at h
  · injection h with h; subst h; rfl
  · split at h
    · injection h with h; subst h; rfl
    · split at h
      · exact absurd h (by simp)
      · split at h
        · injection h with h; subst h
          exact getDN_set_ne (fun hh => hj hh.symm)
        · injection h with h; subst h
          exact getDN_set_ne (fun hh => hj hh.symm)

theorem layerOK_prune {cap : Nat} {g g' : Layer} {i : Nat}
    (h : LayerOK cap g) (hp : pruneNodeConnections cap g i = .ok g') :
    LayerOK cap g' := by
  have hlen : g'.length = g.length :=
    pruneNodeConnections_length cap g i g' hp
  intro j hj
  rw [hlen] at hj ⊢
  by_cases hij : j = i
  · subst hij
    exact pruneNodeConnections_ok_node hj hp
  · rw [pruneNodeConnections_other hp hij]
    exact h j hj

theorem layerOK_eraseConn {cap : Nat} {g : Layer} {i nbr : Nat}
    (h : LayerOK cap g) : LayerOK cap (eraseConn g i nbr) := by
  intro j hj
  unfold eraseConn at hj ⊢
  rw [List.length_set] at hj ⊢
  by_cases hij : i = j
  · subst hij
    by_cases hil : i < g.length
    · rw [getDN_set_self hil]
      dsimp only
      obtain ⟨h1, h2⟩ := h i hil
      refine ⟨le_trans (List.length_filter_le _ _) h1, ?_⟩
      intro c hc
      exact h2 c (List.mem_of_mem_filter hc)
    · omega
  · rw [getDN_set_ne hij]
    exact h j hj

/-- One completed back-edge step (add the edge, prune the neighbor)
preserves the layer invariant. -/
theorem layerOK_backstep {cap : Nat} {g g2 : Layer} {nbr newIndex : Nat}
    (h : LayerOK cap g) (hnbr : nbr < g.length)
    (hp : pruneNodeConnections cap (addBackEdge g nbr newIndex) nbr =
      .ok g2) :
    LayerOK cap g2 ∧ g2.length = g.length := by
  have hlen1 : (addBackEdge g nbr newIndex).length = g.length := by
    unfold addBackEdge
    split
    · rfl
    · exact List.length_set g nbr _
  have hlen2 : g2.length = g.length := by
    rw [pruneNodeConnections_length cap _ nbr g2 hp, hlen1]
  refine ⟨?_, hlen2⟩
  intro j hj
  rw [hlen2] at hj ⊢
  by_cases hjn : j = nbr
  · subst hjn
    obtain ⟨h1, h2⟩ := pruneNodeConnections_ok_node (by omega) hp
    refine ⟨h1, fun c hc => ?_⟩
    have h3 := h2 c hc
    rw [hlen1] at h3
    exact h3
  · have hget : (addBackEdge g nbr newIndex).getD j default =
        g.getD j default := by
      unfold addBackEdge
      split
      · rfl
      · exact getDN_set_ne (fun hh => hjn hh.symm)
    rw [pruneNodeConnections_other hp hjn, hget]
    exact h j hj

/-- The completed back-edge loop preserves the layer invariant. -/
theorem backEdges_connOK {cap newIndex : Nat} :
    ∀ (nbrs : List Nat) (g gF : Layer), LayerOK cap g →
      backEdges cap newIndex nbrs g = (gF, none) →
      gF.length = g.length ∧ LayerOK cap gF := by
  intro nbrs
  induction nbrs with
  | nil =>
    intro g gF hok h
    simp only [backEdges] at h
    injection h with h1 h2
    rw [← h1]
    exact ⟨rfl, hok⟩
  | cons nbr rest ih =>
    intro g gF hok h
    simp only [backEdges] at h
    by_cases hge : nbr ≥ g.length
    · rw [if_pos hge] at h
      exact ih g gF hok h
    · rw [if_neg hge] at h
      cases hp : pruneNodeConnections cap (addBackEdge g nbr newIndex)
          nbr with
      | error e => rw [hp] at h; simp at h
      | ok g2 =>
        rw [hp] at h
        dsimp only at h
        obtain ⟨hok2, hlen2⟩ := layerOK_backstep hok (by omega) hp
        obtain ⟨hl, ho⟩ := ih (eraseConn g2 newIndex nbr) gF
          (layerOK_eraseConn hok2) h
        refine ⟨?_, ho⟩
        rw [hl]
        unfold eraseConn
        rw [List.length_set, hlen2]

/-- A completed linking phase grows the layer by the new node and preserves
the layer invariant, provided the neighbor candidates target the old
layer. -/
theorem linkNewNode_connOK {cap : Nat} {v : Vec} {lb : Option Nat}
    {nns : List (ℚ × Nat)} {g gF : Layer} (hok : LayerOK cap g)
    (hnns : ∀ p ∈ nns, p.2 < g.length)
    (h : linkNewNode cap v lb nns g = (gF, none)) :
    gF.length = g.length + 1 ∧ LayerOK cap gF := by
  have hg1 : LayerOK cap (g ++ [⟨v, (nns.map Prod.snd).take cap, lb⟩]) := by
    intro j hj
    rw [List.length_append, List.length_singleton] at hj ⊢
    by_cases hjg : j < g.length
    · rw [getD_append_left hjg]
      obtain ⟨h1, h2⟩ := hok j hjg
      refine ⟨h1, fun c hc => ?_⟩
      obtain ⟨hc1, hc2⟩ := h2 c hc
      exact ⟨by omega, hc2⟩
    · have hjeq : j = g.length := by omega
      subst hjeq
      rw [getD_append_right]
      constructor
      · show ((nns.map Prod.snd).take cap).length ≤ cap
        rw [List.length_take]
        omega
      · intro c hc
        have hc2 := (List.take_sublist cap (nns.map Prod.snd)).subset hc
        obtain ⟨p, hp, rfl⟩ := List.mem_map.mp hc2
        have := hnns p hp
        exact ⟨by omega, by omega⟩
  unfold linkNewNode at h
  cases hp1 : pruneNodeConnections cap
      (g ++ [(⟨v, (nns.map Prod.snd).take cap, lb⟩ : LayerNode)])
      g.length with
  | error e => rw [hp1] at h; simp at h
  | ok g2 =>
    rw [hp1] at h
    dsimp only at h
    have hlen1 : g2.length = g.length + 1 := by
      rw [pruneNodeConnections_length cap _ g.length g2 hp1]
      simp
    have hok2 : LayerOK cap g2 := layerOK_prune hg1 hp1
    cases hb : backEdges cap g.length ((nns.map Prod.snd).take cap) g2 with
    | mk g3 e3 =>
      rw [hb] at h
      cases e3 with
      | some e => dsimp only at h; simp at h
      | none =>
        dsimp only at h
        obtain ⟨hlen3, hok3⟩ :=
          backEdges_connOK ((nns.map Prod.snd).take cap) g2 g3 hok2 hb
        cases hp2 : pruneNodeConnections cap g3 g.length with
        | error e => rw [hp2] at h; simp at h
        | ok g4 =>
          rw [hp2] at h
          dsimp only at h
          injection h with h1 h2
          rw [← h1]
          refine ⟨?_, layerOK_prune hok3 hp2⟩
          rw [pruneNodeConnections_length cap g3 g.length g4 hp2, hlen3,
            hlen1]

/-- A completed insert loop preserves the connection invariant of every
layer. -/
theorem insertGo_connOK (efc : Int) (cap : Nat) (v : Vec) (l L : Nat) :
    ∀ (fuel n : Nat) (idx : List Layer) (startV : Option Nat)
      (idxF : List Layer),
      (∀ g ∈ idx, LayerOK cap g) →
      insertGo efc cap v l L fuel n idx startV = (idxF, none) →
      ∀ g ∈ idxF, LayerOK cap g := by
  intro fuel
  induction fuel with
  | zero =>
    intro n idx startV idxF hok h
    simp only [insertGo] at h
    injection h with h1 h2
    rw [← h1]
    exact hok
  | succ fuel ih =>
    intro n idx startV idxF hok h
    simp only [insertGo] at h
    by_cases hn : n < L
    · rw [if_pos hn] at h
      by_cases hemp : (idx.getD n []).isEmpty
      · rw [if_pos hemp] at h
        refine ih (n + 1) _ startV idxF ?_ h
        intro g hg
        rcases List.mem_or_eq_of_mem_set hg with hg1 | hg1
        · exact hok g hg1
        · subst hg1
          rw [List.isEmpty_iff] at hemp
          rw [hemp]
          intro j hj
          simp only [List.nil_append, List.length_singleton] at hj
          have hj0 : j = 0 := by omega
          subst hj0
          rw [List.nil_append, List.getD_cons_zero]
          exact ⟨by simp, fun c hc => by simp at hc⟩
      · rw [if_neg hemp] at h
        by_cases hnl : n < l
        · rw [if_pos hnl] at h
          cases hs : _searchLayer (idx.getD n []) startV v 1 with
          | error e => rw [hs] at h; simp at h
          | ok res =>
            rw [hs] at h
            dsimp only at h
            exact ih (n + 1) idx _ idxF hok h
        · rw [if_neg hnl] at h
          cases hs : _searchLayer (idx.getD n []) startV v efc with
          | error e => rw [hs] at h; simp at h
          | ok nns =>
            rw [hs] at h
            dsimp only at h
            cases hl : linkNewNode cap v (descendPtr L n idx) nns
                (idx.getD n []) with
            | mk g4 e4 =>
              rw [hl] at h
              cases e4 with
              | some e => dsimp only at h; simp at h
              | none =>
                dsimp only at h
                have hnidx : n < idx.length := by
                  by_contra hcon
                  have hnil : idx.getD n [] = [] := by
                    rw [List.getD_eq_getElem?_getD,
                      List.getElem?_eq_none (by omega)]
                    rfl
                  rw [hnil] at hemp
                  simp at hemp
                have hmem : idx.getD n [] ∈ idx := by
                  rw [List.getD_eq_getElem idx [] hnidx]
                  exact List.getElem_mem hnidx
                have hnns : ∀ p ∈ nns, p.2 < (idx.getD n []).length :=
                  fun p hp => ((searchLayer_ok_spec hs).2.2 p hp).1
                obtain ⟨hlen4, hok4⟩ :=
                  linkNewNode_connOK (hok _ hmem) hnns hl
                refine ih (n + 1) _ _ idxF ?_ h
                intro g hg
                rcases List.mem_or_eq_of_mem_set hg with hg1 | hg1
                · exact hok g hg1
                · subst hg1
                  exact hok4
    · rw [if_neg hn] at h
      injection h with h1 h2
      rw [← h1]
      exact hok

theorem mkIndex_connOK {L : Int} {mL : ℚ} {efc mc : Int} {s : HIndex}
    (h : mkIndex L mL efc mc = .ok s) : ConnOK s := by
  unfold mkIndex at h
  split at h
  · exact absurd h (by simp)
  · injection h with h
    subst h
    intro g hg
    rw [List.eq_of_mem_replicate hg]
    intro j hj
    simp at hj

theorem insert_connOK {s : HIndex} {v : Vec} {draw : Nat}
    (hok : ConnOK s) (hc : (s.insert v draw).2 = none) :
    ConnOK (s.insert v draw).1 := by
  rw [insert_def] at hc ⊢
  dsimp only at hc ⊢
  cases hins : insertGo s.efc s.maxConnections v (min draw (s.L - 1)) s.L
      s.L 0 s.index (some 0) with
  | mk idxF e =>
    rw [hins] at hc
    dsimp only at hc
    subst hc
    intro g hg
    exact insertGo_connOK s.efc s.maxConnections v (min draw (s.L - 1)) s.L
      s.L 0 s.index (some 0) idxF hok hins g hg

/-- A completed per-layer pruning pass (started at `i` with enough fuel,
all nodes before `i` already conforming) establishes the layer invariant. -/
theorem pruneLayerFrom_connOK (cap : Nat) :
    ∀ (fuel i : Nat) (layer layerF : Layer),
      layer.length ≤ i + fuel →
      (∀ j, j < i → j < layer.length →
        NodeOK cap layer.length j (layer.getD j default)) →
      pruneLayerFrom cap fuel layer i = (layerF, none) →
      layerF.length = layer.length ∧ LayerOK cap layerF := by
  intro fuel
  induction fuel with
  | zero =>
    intro i layer layerF hfuel hinv h
    simp only [pruneLayerFrom] at h
    injection h with h1 h2
    rw [← h1]
    exact ⟨rfl, fun j hj => hinv j (by omega) hj⟩
  | succ fuel ih =>
    intro i layer layerF hfuel hinv h
    simp only [pruneLayerFrom] at h
    by_cases hi : i < layer.length
    · rw [if_pos hi] at h
      cases hp : pruneNodeConnections cap layer i with
      | error e => rw [hp] at h; simp at h
      | ok layer2 =>
        rw [hp] at h
        dsimp only at h
        have hlen2 : layer2.length = layer.length :=
          pruneNodeConnections_length cap layer i layer2 hp
        have hinv2 : ∀ j, j < i + 1 → j < layer2.length →
            NodeOK cap layer2.length j (layer2.getD j default) := by
          intro j hj hjl
          rw [hlen2]
          by_cases hji : j = i
          · subst hji
            exact pruneNodeConnections_ok_node hi hp
          · rw [pruneNodeConnections_other hp hji]
            exact hinv j (by omega) (by omega)
        obtain ⟨hl, ho⟩ := ih (i + 1) layer2 layerF (by omega) hinv2 h
        exact ⟨by rw [hl, hlen2], ho⟩
    · rw [if_neg hi] at h
      injection h with h1 h2
      rw [← h1]
      exact ⟨rfl, fun j hj => hinv j (by omega) hj⟩

/-- Every layer of a completed `setIndex` pruning pass satisfies the layer
invariant. -/
theorem setIndexLayers_connOK (cap : Nat) :
    ∀ (idx idxF : List Layer), setIndexLayers cap idx = (idxF, none) →
      ∀ g ∈ idxF, LayerOK cap g := by
  intro idx
  induction idx with
  | nil =>
    intro idxF h g hg
    simp only [setIndexLayers] at h
    injection h with h1 h2
    rw [← h1] at hg
    simp at hg
  | cons layer rest ih =>
    intro idxF h g hg
    simp only [setIndexLayers] at h
    cases hp : pruneLayerFrom cap layer.length layer 0 with
    | mk l' e' =>
      rw [hp] at h
      cases e' with
      | some e => dsimp only at h; simp at h
      | none =>
        dsimp only at h
        cases hrec : setIndexLayers cap rest with
        | mk rest' e2 =>
          rw [hrec] at h
          dsimp only at h
          injection h with h1 h2
          subst h2
          rw [← h1] at hg
          rcases List.mem_cons.mp hg with rfl | hgr
          · exact (pruneLayerFrom_connOK cap layer.length 0 layer g
              (by omega) (fun j hj _ => absurd hj (Nat.not_lt_zero j))
              hp).2
          · exact ih rest' hrec g hgr

/-- `setIndexLayers` preserves the number of layers, completed or not. -/
theorem setIndexLayers_length (cap : Nat) :
    ∀ (idx idxF : List Layer) (e : Option HErr),
      setIndexLayers cap idx = (idxF, e) → idxF.length = idx.length := by
  intro idx
  induction idx with
  | nil =>
    intro idxF e h
    simp only [setIndexLayers] at h
    injection h with h1 h2
    rw [← h1]
  | cons layer rest ih =>
    intro idxF e h
    simp only [setIndexLayers] at h
    cases hp : pruneLayerFrom cap layer.length layer 0 with
    | mk l' e' =>
      rw [hp] at h
      cases e' with
      | some err =>
        dsimp only at h
        injection h with h1 h2
        rw [← h1]
        simp
      | none =>
        dsimp only at h
        cases hrec : setIndexLayers cap rest with
        | mk rest' e2 =>
          rw [hrec] at h
          dsimp only at h
          injection h with h1 h2
          rw [← h1]
          simp [ih rest' e2 hrec]

theorem setIndex_connOK {s : HIndex} {newIndex : List Layer}
    (h : (setIndex s newIndex).2 = none) :
    ConnOK (setIndex s newIndex).1 := by
  unfold setIndex at h ⊢
  cases hs : setIndexLayers s.maxConnections newIndex with
  | mk idx' e =>
    rw [hs] at h
    dsimp only at h
    subst h
    intro g hg
    exact setIndexLayers_connOK s.maxConnections newIndex idx' hs g hg

theorem mapM_option_length {α β : Type} (f : α → Option β) :
    ∀ (l : List α) (l' : List β), l.mapM f = some l' →
      l'.length = l.length := by
  intro l
  induction l with
  | nil =>
    intro l' h
    simp only [List.mapM_nil] at h
    injection h with h
    rw [← h]
    rfl
  | cons a t ih =>
    intro l' h
    rw [List.mapM_cons] at h
    cases hfa : f a with
    | none => rw [hfa] at h; simp at h
    | some b =>
      rw [hfa] at h
      simp only [Option.bind_eq_bind, Option.some_bind] at h
      cases hmt : t.mapM f with
      | none => rw [hmt] at h; simp at h
      | some bs =>
        rw [hmt] at h
        simp only [Option.some_bind] at h
        injection h with h
        rw [← h]
        simp [ih bs hmt]

/-- Inversion of a successful `fromJSON`: it is a constructor call followed
by a completed `setIndex` on as many parsed layers as `L` prescribes. -/
theorem fromJSON_inv {j : Json} {s : HIndex} (h : fromJSON j = .ok s) :
    ∃ (L : Int) (mL : ℚ) (efc mc : Int) (h0 : HIndex) (layers : List Layer),
      mkIndex L mL efc mc = .ok h0 ∧ layers.length = L.toNat ∧
      setIndex h0 layers = (s, none) := by
  unfold fromJSON at h
  split at h
  · exact absurd h (by simp)
  · split at h
    · split at h
      · split at h
        · exact absurd h (by simp)
        · split at h
          · split at h
            · exact absurd h (by simp)
            · rename_i hlscond
              split at h
              · exact absurd h (by simp)
              · rename_i layers hmapM
                split at h
                · exact absurd h (by simp)
                · rename_i h0 hmk
                  split at h
                  · rename_i h' hset
                    injection h with h
                    subst h
                    have hml := mapM_option_length parseLayer _ _ hmapM
                    exact ⟨_, _, _, _, _, _, hmk, by omega, hset⟩
                  · exact absurd h (by simp)
          · exact absurd h (by simp)
      · exact absurd h (by simp)
    · exact absurd h (by simp)

theorem fromJSON_connOK {j : Json} {s : HIndex} (h : fromJSON j = .ok s) :
    ConnOK s := by
  obtain ⟨L, mL, efc, mc, h0, layers, hmk, hlen, hset⟩ := fromJSON_inv h
  have h2 : (setIndex h0 layers).2 = none := by rw [hset]
  have h1 := setIndex_connOK h2
  rw [hset] at h1
  exact h1

/-- C6: after every completed public operation — construction, a completed
`insert` on a state already satisfying the invariant, a completed
`setIndex`, or a successful `fromJSON` — every node's connection list
contains only indices of nodes in its own layer, never contains the node's
own index, and has length at most `maxConnections`. -/
theorem connection_invariants :
    (∀ (L : Int) (mL : ℚ) (efc mc : Int) (s : HIndex),
      mkIndex L mL efc mc = .ok s → ConnOK s) ∧
    (∀ (s : HIndex) (v : Vec) (draw : Nat), ConnOK s →
      (s.insert v draw).2 = none → ConnOK (s.insert v draw).1) ∧
    (∀ (s : HIndex) (newIndex : List Layer),
      (setIndex s newIndex).2 = none → ConnOK (setIndex s newIndex).1) ∧
    (∀ (j : Json) (s : HIndex), fromJSON j = .ok s → ConnOK s) :=
  ⟨fun _ _ _ _ _ h => mkIndex_connOK h,
   fun _ _ _ hok hc => insert_connOK hok hc,
   fun _ _ h => setIndex_connOK h,
   fun _ _ h => fromJSON_connOK h⟩

/-- Witness for `connection_invariants`: a fresh index and a completed
insert into it satisfy the connection invariant. -/
theorem connection_invariants_witness :
    ConnOK exampleA0 ∧ ConnOK (exampleA0.insert [0] 0).1 :=
  ⟨connection_invariants.1 2 1 10 16 exampleA0 (by with_unfolding_all rfl),
   connection_invariants.2.1 exampleA0 [0] 0
     (connection_invariants.1 2 1 10 16 exampleA0 (by with_unfolding_all rfl))
     (by with_unfolding_all rfl)⟩

/-! ## Canonical (prune-stable) connection lists and the JSON round trip -/

/-- Node `i`'s connection list is exactly what `pruneNodeConnections` would
produce: duplicate-free, within the cap, confined to in-range targets other
than `i` of the node's own dimension, and sorted ascending by squared
distance from the node's own vector. -/
def NodeCanonical (cap : Nat) (layer : Layer) (i : Nat) : Prop :=
  ((layer.getD i default).connections).Nodup ∧
  ((layer.getD i default).connections).length ≤ cap ∧
  (∀ c ∈ (layer.getD i default).connections, c ≠ i ∧ c < layer.length ∧
    ((layer.getD i default).vector).length =
      ((layer.getD c default).vector).length) ∧
  (((layer.getD i default).connections).map
    (fun c => sqVal ((layer.getD i default).vector)
      ((layer.getD c default).vector))).Pairwise (fun a b => a ≤ b)

/-- Every node of the layer (in range or not) is canonical. -/
def CanonLayer (cap : Nat) (g : Layer) : Prop := ∀ i, NodeCanonical cap g i

theorem nodeCanonical_of_nil {cap : Nat} {layer : Layer} {i : Nat}
    (h : (layer.getD i default).connections = []) :
    NodeCanonical cap layer i := by
  refine ⟨?_, ?_, ?_, ?_⟩ <;> rw [h]
  · exact List.nodup_nil
  · simp
  · simp
  · simp

theorem nodeCanonical_oob {cap : Nat} {layer : Layer} {i : Nat}
    (h : layer.length ≤ i) : NodeCanonical cap layer i := by
  refine nodeCanonical_of_nil ?_
  rw [List.getD_eq_getElem?_getD, List.getElem?_eq_none (by omega)]
  rfl

theorem set_getD_eq_self {g : Layer} {i : Nat} (h : i < g.length) :
    g.set i (g.getD i default) = g := by
  apply List.ext_getElem?
  intro j
  by_cases hij : i = j
  · subst hij
    rw [List.getElem?_set_self h, List.getD_eq_getElem g default h,
      List.getElem?_eq_getElem h]
  · rw [List.getElem?_set_ne hij]

/-- On a clean connection list (no self, in range, dimensions matching),
`pruneScore` pairs every connection with its squared distance, in order. -/
theorem pruneScore_of_clean {layer : Layer} {own : Vec} {i : Nat} :
    ∀ conns : List Nat,
      (∀ c ∈ conns, c ≠ i ∧ c < layer.length ∧
        ((layer.getD c default).vector).length = own.length) →
      pruneScore layer own i conns =
        .ok (conns.map (fun c =>
          (sqVal own ((layer.getD c default).vector), c))) := by
  intro conns
  induction conns with
  | nil => intro _; rfl
  | cons c rest ih =>
    intro hc
    obtain ⟨hne, hlt, hdim⟩ := hc c (by simp)
    simp only [pruneScore]
    rw [if_neg (by omega)]
    rw [show squaredEuclideanDistance own ((layer.getD c default).vector) =
      .ok (sqVal own ((layer.getD c default).vector)) from
      sqDist_ok_iff.mpr ⟨hdim.symm, rfl⟩]
    rw [ih (fun q hq => hc q (by simp [hq]))]
    simp

theorem rebuildConns_of_nodup :
    ∀ (l : List (ℚ × Nat)) (acc : List Nat),
      (l.map Prod.snd).Nodup → (∀ x ∈ acc, x ∉ l.map Prod.snd) →
      rebuildConns l acc = acc ++ l.map Prod.snd := by
  intro l
  induction l with
  | nil => intro acc _ _; simp [rebuildConns]
  | cons e rest ih =>
    intro acc hnd hdis
    simp only [List.map_cons] at hnd hdis ⊢
    rw [List.nodup_cons] at hnd
    simp only [rebuildConns]
    rw [if_neg (fun hmem => hdis e.2 hmem (by simp))]
    rw [ih (acc ++ [e.2]) hnd.2 ?_]
    · simp
    · intro x hx
      rcases List.mem_append.mp hx with hx | hx
      · intro hmem
        exact hdis x hx (List.mem_cons_of_mem e.2 hmem)
      · simp only [List.mem_singleton] at hx
        subst hx
        exact hnd.1

theorem rebuildConns_nodup : ∀ (l : List (ℚ × Nat)) (acc : List Nat),
    acc.Nodup → (rebuildConns l acc).Nodup := by
  intro l
  induction l with
  | nil => intro acc h; exact h
  | cons e rest ih =>
    intro acc h
    simp only [rebuildConns]
    by_cases he : e.2 ∈ acc
    · rw [if_pos he]
      exact ih acc h
    · rw [if_neg he]
      refine ih (acc ++ [e.2]) ?_
      rw [List.nodup_append]
      refine ⟨h, List.nodup_singleton e.2, ?_⟩
      intro a ha hb
      simp only [List.mem_singleton] at hb
      subst hb
      exact he ha

theorem rebuildConns_sublist : ∀ (l : List (ℚ × Nat)) (acc : List Nat),
    ∃ r, rebuildConns l acc = acc ++ r ∧ r.Sublist (l.map Prod.snd) := by
  intro l
  induction l with
  | nil => intro acc; exact ⟨[], by simp [rebuildConns], by simp⟩
  | cons e rest ih =>
    intro acc
    simp only [rebuildConns]
    by_cases he : e.2 ∈ acc
    · rw [if_pos he]
      obtain ⟨r, h1, h2⟩ := ih acc
      refine ⟨r, h1, ?_⟩
      simp only [List.map_cons]
      exact h2.trans (List.sublist_cons_self e.2 (rest.map Prod.snd))
    · rw [if_neg he]
      obtain ⟨r, h1, h2⟩ := ih (acc ++ [e.2])
      refine ⟨e.2 :: r, ?_, ?_⟩
      · rw [h1, List.append_assoc]
        rfl
      · simp only [List.map_cons]
        exact h2.cons₂ e.2

/-- Pruning a canonical node is a no-op: the source's prune is idempotent
node by node. -/
theorem canon_prune_noop {cap : Nat} {layer : Layer} {i : Nat}
    (h : NodeCanonical cap layer i) :
    pruneNodeConnections cap layer i = .ok layer := by
  obtain ⟨hnd, hlen, hmem, hsort⟩ := h
  unfold pruneNodeConnections
  by_cases h1 : i ≥ layer.length
  · rw [if_pos h1]
  · rw [if_neg h1]
    by_cases h2 : (layer.getD i default).connections.isEmpty
    · rw [if_pos h2]
    · rw [if_neg h2]
      have hscore := pruneScore_of_clean (layer.getD i default).connections
        (fun c hc =>
          ⟨(hmem c hc).1, (hmem c hc).2.1, ((hmem c hc).2.2).symm⟩)
      rw [hscore]
      dsimp only
      have hconsne : (layer.getD i default).connections ≠ [] := by
        intro hnil
        rw [hnil] at h2
        simp at h2
      have hsnd : ((layer.getD i default).connections.map
          (fun c => (sqVal ((layer.getD i default).vector)
            ((layer.getD c default).vector), c))).map Prod.snd =
          (layer.getD i default).connections := by
        rw [List.map_map]
        have hid : ∀ c ∈ (layer.getD i default).connections,
            (Prod.snd ∘ (fun c => (sqVal ((layer.getD i default).vector)
              ((layer.getD c default).vector), c))) c = id c :=
          fun c _ => rfl
        rw [List.map_congr_left hid, List.map_id]
      rw [if_neg (by
        rw [List.isEmpty_iff]
        intro hnil
        exact hconsne (List.map_eq_nil_iff.mp hnil))]
      have hsorted : SortedD ((layer.getD i default).connections.map
          (fun c => (sqVal ((layer.getD i default).vector)
            ((layer.getD c default).vector), c))) := by
        unfold SortedD
        rw [List.pairwise_map]
        rw [List.pairwise_map] at hsort
        exact hsort
      rw [sortPairs_eq_self hsorted]
      rw [List.take_of_length_le (by rw [List.length_map]; exact hlen)]
      rw [rebuildConns_of_nodup _ [] (by rw [hsnd]; exact hnd) (by simp)]
      rw [List.nil_append, hsnd]
      rw [show ({ layer.getD i default with
          connections := (layer.getD i default).connections } : LayerNode) =
        layer.getD i default from rfl]
      rw [set_getD_eq_self (by omega)]

/-- The pruned node of a successful prune is canonical. -/
theorem pruneNodeConnections_canon {cap : Nat} {layer layer' : Layer}
    {i : Nat} (h : pruneNodeConnections cap layer i = .ok layer') :
    NodeCanonical cap layer' i := by
  unfold pruneNodeConnections at h
  by_cases h1 : i ≥ layer.length
  · rw [if_pos h1] at h
    injection h with h
    subst h
    exact nodeCanonical_oob (by omega)
  · rw [if_neg h1] at h
    have hilt : i < layer.length := by omega
    by_cases h2 : (layer.getD i default).connections.isEmpty
    · rw [if_pos h2] at h
      injection h with h
      subst h
      exact nodeCanonical_of_nil (List.isEmpty_iff.mp h2)
    · rw [if_neg h2] at h
      cases hsc : pruneScore layer (layer.getD i default).vector i
          (layer.getD i default).connections with
      | error e => rw [hsc] at h; exact absurd h (by simp)
      | ok scored =>
        rw [hsc] at h
        dsimp only at h
        by_cases h3 : scored.isEmpty
        · rw [if_pos h3] at h
          injection h with h
          subst h
          refine nodeCanonical_of_nil ?_
          rw [getDN_set_self hilt]
        · rw [if_neg h3] at h
          injection h with h
          subst h
          obtain ⟨r, hr1, hr2⟩ :=
            rebuildConns_sublist ((sortPairs scored).take cap) []
          rw [List.nil_append] at hr1
          rw [hr1]
          have hmemr : ∀ c ∈ r, c ≠ i ∧ c < layer.length ∧
              ((layer.getD i default).vector).length =
                ((layer.getD c default).vector).length := by
            intro c hc
            have hc2 : c ∈ ((sortPairs scored).take cap).map Prod.snd :=
              hr2.subset hc
            obtain ⟨e, he, rfl⟩ := List.mem_map.mp hc2
            have he2 : e ∈ scored := mem_sortPairs.mp
              ((List.take_sublist cap (sortPairs scored)).subset he)
            obtain ⟨_, hb2, hb3, hb4, _⟩ := mem_pruneScore hsc e he2
            exact ⟨hb2, hb3, hb4⟩
          have hval : ∀ e ∈ (sortPairs scored).take cap,
              e.1 = sqVal ((layer.getD i default).vector)
                ((layer.getD e.2 default).vector) := by
            intro e he
            exact (mem_pruneScore hsc e (mem_sortPairs.mp
              ((List.take_sublist cap (sortPairs scored)).subset he))).2.2.2.2
          have hsorted : ((((sortPairs scored).take cap).map Prod.snd).map
              (fun c => sqVal ((layer.getD i default).vector)
                ((layer.getD c default).vector))).Pairwise
              (fun a b => a ≤ b) := by
            rw [List.map_map]
            have heq : ∀ e ∈ (sortPairs scored).take cap,
                ((fun c => sqVal ((layer.getD i default).vector)
                  ((layer.getD c default).vector)) ∘ Prod.snd) e =
                Prod.fst e := fun e he => (hval e he).symm
            rw [List.map_congr_left heq]
            refine List.pairwise_map.mpr ?_
            exact List.Pairwise.sublist (List.take_sublist cap _)
              (sortPairs_sorted scored)
          refine ⟨?_, ?_, ?_, ?_⟩
          · rw [getDN_set_self hilt]
            dsimp only
            rw [← hr1]
            exact rebuildConns_nodup _ [] List.nodup_nil
          · rw [getDN_set_self hilt]
            dsimp only
            rw [← hr1]
            have ha := rebuildConns_length ((sortPairs scored).take cap) []
            rw [List.length_nil] at ha
            have hb : ((sortPairs scored).take cap).length ≤ cap := by
              rw [List.length_take]
              omega
            omega
          · rw [getDN_set_self hilt]
            dsimp only
            intro c hc
            obtain ⟨hc1, hc2, hc3⟩ := hmemr c hc
            refine ⟨hc1, by rw [List.length_set]; exact hc2, ?_⟩
            rw [getDN_set_ne (fun hh => hc1 hh.symm)]
            exact hc3
          · rw [getDN_set_self hilt]
            dsimp only
            have hcongr : ∀ c ∈ r,
                sqVal (({ layer.getD i default with connections := r } :
                    LayerNode).vector)
                  (((layer.set i { layer.getD i default with
                    connections := r }).getD c default).vector) =
                sqVal ((layer.getD i default).vector)
                  ((layer.getD c default).vector) := by
              intro c hc
              rw [getDN_set_ne (fun hh => (hmemr c hc).1 hh.symm)]
            rw [List.map_congr_left hcongr]
            exact List.Pairwise.sublist (hr2.map _) hsorted

/-- Canonicity transports along any layer change that keeps the node
itself, keeps every old vector, and can only grow the layer. -/
theorem nodeCanonical_mono {cap : Nat} {layer layer' : Layer} {i : Nat}
    (hlen : layer.length ≤ layer'.length)
    (hi : layer'.getD i default = layer.getD i default)
    (hvec : ∀ c, c < layer.length →
      ((layer'.getD c default).vector) = ((layer.getD c default).vector))
    (h : NodeCanonical cap layer i) : NodeCanonical cap layer' i := by
  obtain ⟨h1, h2, h3, h4⟩ := h
  refine ⟨?_, ?_, ?_, ?_⟩
  · rw [hi]
    exact h1
  · rw [hi]
    exact h2
  · rw [hi]
    intro c hc
    obtain ⟨hc1, hc2, hc3⟩ := h3 c hc
    refine ⟨hc1, by omega, ?_⟩
    rw [hvec c hc2]
    exact hc3
  · rw [hi]
    have hcongr : ∀ c ∈ (layer.getD i default).connections,
        sqVal ((layer.getD i default).vector)
          ((layer'.getD c default).vector) =
        sqVal ((layer.getD i default).vector)
          ((layer.getD c default).vector) := by
      intro c hc
      rw [hvec c (h3 c hc).2.1]
    rw [List.map_congr_left hcongr]
    exact h4

/-- Canonicity transports along a `SameShape` change that keeps the node. -/
theorem nodeCanonical_shape {cap : Nat} {g g' : Layer} {j : Nat}
    (hs : SameShape g g') (hj : g'.getD j default = g.getD j default)
    (h : NodeCanonical cap g j) : NodeCanonical cap g' j :=
  nodeCanonical_mono (le_of_eq hs.1.symm) hj (fun c _ => (hs.2 c).1) h

/-- Replacing a canonical node's connections by a sublist keeps it
canonical. -/
theorem nodeCanonical_subconns {cap : Nat} {g : Layer} {i : Nat}
    {conns' : List Nat} (h : NodeCanonical cap g i)
    (hsub : conns'.Sublist (g.getD i default).connections)
    (hil : i < g.length) :
    NodeCanonical cap (g.set i
      { g.getD i default with connections := conns' }) i := by
  obtain ⟨h1, h2, h3, h4⟩ := h
  refine ⟨?_, ?_, ?_, ?_⟩
  · rw [getDN_set_self hil]
    exact h1.sublist hsub
  · rw [getDN_set_self hil]
    exact le_trans hsub.length_le h2
  · rw [getDN_set_self hil]
    dsimp only
    intro c hc
    obtain ⟨hc1, hc2, hc3⟩ := h3 c (hsub.subset hc)
    refine ⟨hc1, by rw [List.length_set]; exact hc2, ?_⟩
    rw [getDN_set_ne (fun hh => hc1 hh.symm)]
    exact hc3
  · rw [getDN_set_self hil]
    dsimp only
    have hcongr : ∀ c ∈ conns',
        sqVal (({ g.getD i default with connections := conns' } :
            LayerNode).vector)
          (((g.set i { g.getD i default with
            connections := conns' }).getD c default).vector) =
        sqVal ((g.getD i default).vector) ((g.getD c default).vector) := by
      intro c hc
      rw [getDN_set_ne (fun hh => (h3 c (hsub.subset hc)).1 hh.symm)]
    rw [List.map_congr_left hcongr]
    exact List.Pairwise.sublist (hsub.map _) h4

/-- Erasing one target from the new node's connections keeps it
canonical. -/
theorem nodeCanonical_erase {cap : Nat} {g : Layer} {i nbr : Nat}
    (h : CanonLayer cap g) : NodeCanonical cap (eraseConn g i nbr) i := by
  by_cases hil : i < g.length
  · unfold eraseConn
    exact nodeCanonical_subconns (h i) (List.filter_sublist _) hil
  · unfold eraseConn
    rw [List.set_eq_of_length_le (by omega)]
    exact h i

/-- Appending a node keeps the old nodes canonical. -/
theorem canonLayer_append {cap : Nat} {g : Layer} (hcan : CanonLayer cap g)
    (nd : LayerNode) : ∀ i, i < g.length →
      NodeCanonical cap (g ++ [nd]) i := by
  intro i hi
  refine nodeCanonical_mono (by simp) (getD_append_left hi) ?_ (hcan i)
  intro c hc
  rw [getD_append_left hc]

/-- The completed back-edge loop keeps every node canonical. -/
theorem backEdges_canon {cap newIndex : Nat} :
    ∀ (nbrs : List Nat) (g gF : Layer), CanonLayer cap g →
      backEdges cap newIndex nbrs g = (gF, none) → CanonLayer cap gF := by
  intro nbrs
  induction nbrs with
  | nil =>
    intro g gF hcan h
    simp only [backEdges] at h
    injection h with h1 h2
    rw [← h1]
    exact hcan
  | cons nbr rest ih =>
    intro g gF hcan h
    simp only [backEdges] at h
    by_cases hge : nbr ≥ g.length
    · rw [if_pos hge] at h
      exact ih g gF hcan h
    · rw [if_neg hge] at h
      cases hp : pruneNodeConnections cap (addBackEdge g nbr newIndex)
          nbr with
      | error e => rw [hp] at h; simp at h
      | ok g2 =>
        rw [hp] at h
        dsimp only at h
        have hcan2 : CanonLayer cap g2 := by
          intro j
          by_cases hjn : j = nbr
          · subst hjn
            exact pruneNodeConnections_canon hp
          · refine nodeCanonical_shape ?_ ?_ (hcan j)
            · exact (addBackEdge_sameShape g nbr newIndex).trans
                (pruneNodeConnections_sameShape hp)
            · rw [pruneNodeConnections_other hp hjn]
              unfold addBackEdge
              split
              · rfl
              · exact getDN_set_ne (fun hh => hjn hh.symm)
        refine ih (eraseConn g2 newIndex nbr) gF ?_ h
        intro j
        by_cases hjn : j = newIndex
        · subst hjn
          exact nodeCanonical_erase hcan2
        · refine nodeCanonical_shape (eraseConn_sameShape g2 newIndex nbr)
            ?_ (hcan2 j)
          unfold eraseConn
          exact getDN_set_ne (fun hh => hjn hh.symm)

/-- A completed linking phase keeps every node of the layer canonical. -/
theorem linkNewNode_canon {cap : Nat} {v : Vec} {lb : Option Nat}
    {nns : List (ℚ × Nat)} {g gF : Layer} (hcan : CanonLayer cap g)
    (h : linkNewNode cap v lb nns g = (gF, none)) : CanonLayer cap gF := by
  unfold linkNewNode at h
  cases hp1 : pruneNodeConnections cap
      (g ++ [(⟨v, (nns.map Prod.snd).take cap, lb⟩ : LayerNode)])
      g.length with
  | error e => rw [hp1] at h; simp at h
  | ok g2 =>
    rw [hp1] at h
    dsimp only at h
    have hg1len : (g ++ [(⟨v, (nns.map Prod.snd).take cap, lb⟩ :
        LayerNode)]).length = g.length + 1 := by simp
    have hcan2 : CanonLayer cap g2 := by
      intro j
      by_cases hjl : j = g.length
      · subst hjl
        exact pruneNodeConnections_canon hp1
      · by_cases hjg : j < g.length
        · refine nodeCanonical_shape (pruneNodeConnections_sameShape hp1)
            (pruneNodeConnections_other hp1 hjl)
            (canonLayer_append hcan _ j hjg)
        · refine nodeCanonical_oob ?_
          rw [pruneNodeConnections_length cap _ _ _ hp1, hg1len]
          omega
    cases hb : backEdges cap g.length ((nns.map Prod.snd).take cap) g2 with
    | mk g3 e3 =>
      rw [hb] at h
      cases e3 with
      | some e => dsimp only at h; simp at h
      | none =>
        dsimp only at h
        have hcan3 : CanonLayer cap g3 :=
          backEdges_canon ((nns.map Prod.snd).take cap) g2 g3 hcan2 hb
        cases hp2 : pruneNodeConnections cap g3 g.length with
        | error e => rw [hp2] at h; simp at h
        | ok g4 =>
          rw [hp2] at h
          dsimp only at h
          injection h with h1 h2
          rw [← h1]
          intro j
          by_cases hjl : j = g.length
          · subst hjl
            exact pruneNodeConnections_canon hp2
          · exact nodeCanonical_shape (pruneNodeConnections_sameShape hp2)
              (pruneNodeConnections_other hp2 hjl) (hcan3 j)

/-- A completed insert loop keeps every layer canonical. -/
theorem insertGo_canon (efc : Int) (cap : Nat) (v : Vec) (l L : Nat) :
    ∀ (fuel n : Nat) (idx : List Layer) (startV : Option Nat)
      (idxF : List Layer),
      (∀ g ∈ idx, CanonLayer cap g) →
      insertGo efc cap v l L fuel n idx startV = (idxF, none) →
      ∀ g ∈ idxF, CanonLayer cap g := by
  intro fuel
  induction fuel with
  | zero =>
    intro n idx startV idxF hcan h
    simp only [insertGo] at h
    injection h with h1 h2
    rw [← h1]
    exact hcan
  | succ fuel ih =>
    intro n idx startV idxF hcan h
    simp only [insertGo] at h
    by_cases hn : n < L
    · rw [if_pos hn] at h
      by_cases hemp : (idx.getD n []).isEmpty
      · rw [if_pos hemp] at h
        refine ih (n + 1) _ startV idxF ?_ h
        intro g hg
        rcases List.mem_or_eq_of_mem_set hg with hg1 | hg1
        · exact hcan g hg1
        · subst hg1
          rw [List.isEmpty_iff] at hemp
          rw [hemp, List.nil_append]
          intro i
          cases i with
          | zero =>
            refine nodeCanonical_of_nil ?_
            rw [List.getD_cons_zero]
          | succ m =>
            refine nodeCanonical_oob ?_
            simp
      · rw [if_neg hemp] at h
        by_cases hnl : n < l
        · rw [if_pos hnl] at h
          cases hs : _searchLayer (idx.getD n []) startV v 1 with
          | error e => rw [hs] at h; simp at h
          | ok res =>
            rw [hs] at h
            dsimp only at h
            exact ih (n + 1) idx _ idxF hcan h
        · rw [if_neg hnl] at h
          cases hs : _searchLayer (idx.getD n []) startV v efc with
          | error e => rw [hs] at h; simp at h
          | ok nns =>
            rw [hs] at h
            dsimp only at h
            cases hl : linkNewNode cap v (descendPtr L n idx) nns
                (idx.getD n []) with
            | mk g4 e4 =>
              rw [hl] at h
              cases e4 with
              | some e => dsimp only at h; simp at h
              | none =>
                dsimp only at h
                have hnidx : n < idx.length := by
                  by_contra hcon
                  have hnil : idx.getD n [] = [] := by
                    rw [List.getD_eq_getElem?_getD,
                      List.getElem?_eq_none (by omega)]
                    rfl
                  rw [hnil] at hemp
                  simp at hemp
                have hmem : idx.getD n [] ∈ idx := by
                  rw [List.getD_eq_getElem idx [] hnidx]
                  exact List.getElem_mem hnidx
                have hcan4 : CanonLayer cap g4 :=
                  linkNewNode_canon (hcan _ hmem) hl
                refine ih (n + 1) _ _ idxF ?_ h
                intro g hg
                rcases List.mem_or_eq_of_mem_set hg with hg1 | hg1
                · exact hcan g hg1
                · subst hg1
                  exact hcan4
    · rw [if_neg hn] at h
      injection h with h1 h2
      rw [← h1]
      exact hcan

/-- The insert loop never changes the number of layers. -/
theorem insertGo_length (efc : Int) (cap : Nat) (v : Vec) (l L : Nat) :
    ∀ (fuel n : Nat) (idx : List Layer) (startV : Option Nat),
      (insertGo efc cap v l L fuel n idx startV).1.length = idx.length := by
  intro fuel
  induction fuel with
  | zero => intro n idx startV; rfl
  | succ fuel ih =>
    intro n idx startV
    simp only [insertGo]
    by_cases hn : n < L
    · rw [if_pos hn]
      by_cases hemp : (idx.getD n []).isEmpty
      · rw [if_pos hemp]
        rw [ih]
        exact List.length_set idx n _
      · rw [if_neg hemp]
        by_cases hnl : n < l
        · rw [if_pos hnl]
          cases hs : _searchLayer (idx.getD n []) startV v 1 with
          | error e => rfl
          | ok res =>
            dsimp only
            exact ih (n + 1) idx _
        · rw [if_neg hnl]
          cases hs : _searchLayer (idx.getD n []) startV v efc with
          | error e => rfl
          | ok nns =>
            dsimp only
            cases hl : linkNewNode cap v (descendPtr L n idx) nns
                (idx.getD n []) with
            | mk g4 e4 =>
              cases e4 with
              | some e =>
                dsimp only
                exact List.length_set idx n _
              | none =>
                dsimp only
                rw [ih]
                exact List.length_set idx n _
    · rw [if_neg hn]

/-- A completed insert keeps every layer canonical. -/
theorem insert_canon {s : HIndex} {v : Vec} {draw : Nat}
    (hcan : ∀ g ∈ s.index, CanonLayer s.maxConnections g)
    (hc : (s.insert v draw).2 = none) :
    ∀ g ∈ (s.insert v draw).1.index, CanonLayer s.maxConnections g := by
  rw [insert_def] at hc ⊢
  dsimp only at hc ⊢
  cases hins : insertGo s.efc s.maxConnections v (min draw (s.L - 1)) s.L
      s.L 0 s.index (some 0) with
  | mk idxF e =>
    rw [hins] at hc
    dsimp only at hc
    subst hc
    intro g hg
    exact insertGo_canon s.efc s.maxConnections v (min draw (s.L - 1)) s.L
      s.L 0 s.index (some 0) idxF hcan hins g hg

/-- A completed per-layer pruning pass leaves every node canonical. -/
theorem pruneLayerFrom_canon (cap : Nat) :
    ∀ (fuel i : Nat) (layer layerF : Layer),
      layer.length ≤ i + fuel →
      (∀ j, j < i → NodeCanonical cap layer j) →
      pruneLayerFrom cap fuel layer i = (layerF, none) →
      layerF.length = layer.length ∧ CanonLayer cap layerF := by
  intro fuel
  induction fuel with
  | zero =>
    intro i layer layerF hfuel hinv h
    simp only [pruneLayerFrom] at h
    injection h with h1 h2
    rw [← h1]
    refine ⟨rfl, ?_⟩
    intro j
    by_cases hj : j < layer.length
    · exact hinv j (by omega)
    · exact nodeCanonical_oob (by omega)
  | succ fuel ih =>
    intro i layer layerF hfuel hinv h
    simp only [pruneLayerFrom] at h
    by_cases hi : i < layer.length
    · rw [if_pos hi] at h
      cases hp : pruneNodeConnections cap layer i with
      | error e => rw [hp] at h; simp at h
      | ok layer2 =>
        rw [hp] at h
        dsimp only at h
        have hlen2 : layer2.length = layer.length :=
          pruneNodeConnections_length cap layer i layer2 hp
        have hinv2 : ∀ j, j < i + 1 → NodeCanonical cap layer2 j := by
          intro j hj
          by_cases hji : j = i
          · subst hji
            exact pruneNodeConnections_canon hp
          · exact nodeCanonical_shape (pruneNodeConnections_sameShape hp)
              (pruneNodeConnections_other hp hji) (hinv j (by omega))
        obtain ⟨hl, ho⟩ := ih (i + 1) layer2 layerF (by omega) hinv2 h
        exact ⟨by rw [hl, hlen2], ho⟩
    · rw [if_neg hi] at h
      injection h with h1 h2
      rw [← h1]
      refine ⟨rfl, ?_⟩
      intro j
      by_cases hj : j < layer.length
      · exact hinv j (by omega)
      · exact nodeCanonical_oob (by omega)

/-- Every layer of a completed `setIndex` pruning pass is canonical. -/
theorem setIndexLayers_canon (cap : Nat) :
    ∀ (idx idxF : List Layer), setIndexLayers cap idx = (idxF, none) →
      ∀ g ∈ idxF, CanonLayer cap g := by
  intro idx
  induction idx with
  | nil =>
    intro idxF h g hg
    simp only [setIndexLayers] at h
    injection h with h1 h2
    rw [← h1] at hg
    simp at hg
  | cons layer rest ih =>
    intro idxF h g hg
    simp only [setIndexLayers] at h
    cases hp : pruneLayerFrom cap layer.length layer 0 with
    | mk l' e' =>
      rw [hp] at h
      cases e' with
      | some e => dsimp only at h; simp at h
      | none =>
        dsimp only at h
        cases hrec : setIndexLayers cap rest with
        | mk rest' e2 =>
          rw [hrec] at h
          dsimp only at h
          injection h with h1 h2
          subst h2
          rw [← h1] at hg
          rcases List.mem_cons.mp hg with rfl | hgr
          · exact (pruneLayerFrom_canon cap layer.length 0 layer g
              (by omega) (fun j hj => absurd hj (Nat.not_lt_zero j)) hp).2
          · exact ih rest' hrec g hgr

/-- Pruning a layer whose nodes are all canonical is a no-op. -/
theorem pruneLayerFrom_id (cap : Nat) :
    ∀ (fuel i : Nat) (layer : Layer), CanonLayer cap layer →
      pruneLayerFrom cap fuel layer i = (layer, none) := by
  intro fuel
  induction fuel with
  | zero => intro i layer _; rfl
  | succ fuel ih =>
    intro i layer hcan
    simp only [pruneLayerFrom]
    by_cases hi : i < layer.length
    · rw [if_pos hi, canon_prune_noop (hcan i)]
      dsimp only
      exact ih (i + 1) layer hcan
    · rw [if_neg hi]

/-- `setIndex`'s pruning pass is the identity on canonical layer lists. -/
theorem setIndexLayers_id (cap : Nat) :
    ∀ idx : List Layer, (∀ g ∈ idx, CanonLayer cap g) →
      setIndexLayers cap idx = (idx, none) := by
  intro idx
  induction idx with
  | nil => intro _; rfl
  | cons g rest ih =>
    intro hcan
    simp only [setIndexLayers]
    rw [pruneLayerFrom_id cap g.length 0 g (hcan g (by simp))]
    dsimp only
    rw [ih (fun g' hg' => hcan g' (by simp [hg']))]

/-- States reachable by construction, completed inserts, and successful
`fromJSON` loads. -/
inductive Reach : HIndex → Prop where
  | base {L : Int} {mL : ℚ} {efc mc : Int} {s : HIndex} :
      mkIndex L mL efc mc = .ok s → Reach s
  | ins {s : HIndex} (v : Vec) (draw : Nat) : Reach s →
      (s.insert v draw).2 = none → Reach (s.insert v draw).1
  | load {j : Json} {s : HIndex} : fromJSON j = .ok s → Reach s

/-- The invariant that makes `fromJSON ∘ toJSON` the identity: as many
layers as `L ≥ 1`, the clamped connection cap, and canonical (prune-stable)
connection lists everywhere. -/
def RoundTripReady (s : HIndex) : Prop :=
  s.index.length = s.L ∧ 1 ≤ s.L ∧ 1 ≤ s.maxConnections ∧
    ∀ g ∈ s.index, CanonLayer s.maxConnections g

theorem setIndex_ready {h0 : HIndex} {layers : List Layer} {s : HIndex}
    (hset : setIndex h0 layers = (s, none)) :
    s.L = h0.L ∧ s.mL = h0.mL ∧ s.efc = h0.efc ∧
    s.maxConnections = h0.maxConnections ∧
    s.index.length = layers.length ∧
    ∀ g ∈ s.index, CanonLayer s.maxConnections g := by
  unfold setIndex at hset
  cases hs : setIndexLayers h0.maxConnections layers with
  | mk idx' e =>
    rw [hs] at hset
    dsimp only at hset
    injection hset with h1 h2
    subst h2
    rw [← h1]
    refine ⟨rfl, rfl, rfl, rfl, ?_, ?_⟩
    · exact setIndexLayers_length h0.maxConnections layers idx' none hs
    · intro g hg
      exact setIndexLayers_canon h0.maxConnections layers idx' hs g hg

theorem mkIndex_ready {L : Int} {mL : ℚ} {efc mc : Int} {s : HIndex}
    (h : mkIndex L mL efc mc = .ok s) :
    RoundTripReady s ∧ s.L = L.toNat ∧
      s.maxConnections = (max 1 mc).toNat := by
  unfold mkIndex at h
  split at h
  · exact absurd h (by simp)
  · rename_i hL
    injection h with h
    subst h
    refine ⟨⟨by simp, by show 1 ≤ L.toNat; omega, ?_, ?_⟩, rfl, rfl⟩
    · show 1 ≤ (max 1 mc).toNat
      have := le_max_left 1 mc
      omega
    · intro g hg
      have hgnil : g = [] := List.eq_of_mem_replicate hg
      subst hgnil
      intro i
      exact nodeCanonical_oob (by simp)

theorem reach_ready {s : HIndex} (h : Reach s) : RoundTripReady s := by
  induction h with
  | base hmk => exact (mkIndex_ready hmk).1
  | ins v draw hr hc ih =>
    obtain ⟨h1, h2, h3, h4⟩ := ih
    refine ⟨?_, h2, h3, ?_⟩
    · rw [insert_def]
      dsimp only
      rw [insertGo_length]
      exact h1
    · exact insert_canon h4 hc
  | load hld =>
    obtain ⟨L, mL, efc, mc, h0, layers, hmk, hlay, hset⟩ := fromJSON_inv hld
    obtain ⟨⟨hi1, hi2, hi3, _⟩, hL0, hmc0⟩ := mkIndex_ready hmk
    obtain ⟨e1, e2, e3, e4, e5, e6⟩ := setIndex_ready hset
    refine ⟨?_, ?_, ?_, e6⟩
    · rw [e5, e1, hlay, hL0]
    · rw [e1]
      exact hi2
    · rw [e4]
      exact hi3

theorem asInt_natCast (k : Nat) :
    Json.asInt (.num (k : ℚ)) = some (k : Int) := by
  unfold Json.asInt
  dsimp only
  rw [if_pos (by simp)]
  simp

theorem asInt_intCast (k : Int) : Json.asInt (.num (k : ℚ)) = some k := by
  unfold Json.asInt
  dsimp only
  rw [if_pos (by simp)]
  simp

theorem asNat_num (c : Nat) : Json.asNat (Json.num (c : ℚ)) = some c := by
  unfold Json.asNat
  rw [asInt_natCast c]
  show (if ((c : Nat) : Int) < 0 then none
    else some (((c : Nat) : Int)).toNat) = some c
  rw [if_neg (by omega)]
  simp

theorem mapM_asRat_num : ∀ v : List ℚ,
    (v.map Json.num).mapM Json.asRat = some v := by
  intro v
  induction v with
  | nil => rfl
  | cons q rest ih =>
    rw [List.map_cons, List.mapM_cons,
      show Json.asRat (Json.num q) = some q from rfl]
    simp only [Option.bind_eq_bind, Option.some_bind]
    rw [ih]
    simp only [Option.some_bind]
    rfl

theorem mapM_asNat_num : ∀ l : List Nat,
    (l.map (fun (c : Nat) => Json.num (c : ℚ))).mapM Json.asNat = some l := by
  intro l
  induction l with
  | nil => rfl
  | cons c rest ih =>
    rw [List.map_cons, List.mapM_cons, asNat_num]
    simp only [Option.bind_eq_bind, Option.some_bind]
    rw [ih]
    simp only [Option.some_bind]
    rfl

/-- Parsing a serialized node restores it exactly. -/
theorem parseNode_nodeToJson (nd : LayerNode) :
    parseNode (nodeToJson nd) = some nd := by
  obtain ⟨v, conns, lb⟩ := nd
  have hv : (nodeToJson ⟨v, conns, lb⟩).getField "vector" =
      some (.arr (v.map Json.num)) := rfl
  have hc : (nodeToJson ⟨v, conns, lb⟩).getField "connections" =
      some (.arr (conns.map (fun (c : Nat) => Json.num (c : ℚ)))) := rfl
  unfold parseNode
  rw [hv]
  simp only [Option.bind_eq_bind, Option.some_bind]
  rw [mapM_asRat_num v]
  simp only [Option.some_bind]
  rw [hc]
  simp only [Option.some_bind]
  rw [mapM_asNat_num conns]
  simp only [Option.some_bind]
  cases lb with
  | none =>
    rw [show (nodeToJson ⟨v, conns, none⟩).getField "layerBelow" =
        some (.num (-1)) from rfl]
    dsimp only
    rw [show Json.asInt (.num (-1)) = some (-1) from by
      with_unfolding_all rfl]
    simp only [Option.some_bind]
    rw [if_pos (by norm_num)]
    rfl
  | some k =>
    rw [show (nodeToJson ⟨v, conns, some k⟩).getField "layerBelow" =
        some (.num ((k : Nat) : ℚ)) from rfl]
    dsimp only
    rw [asInt_natCast k]
    simp only [Option.some_bind]
    rw [if_neg (by omega)]
    simp

theorem mapM_parseNode : ∀ layer : Layer,
    (layer.map nodeToJson).mapM parseNode = some layer := by
  intro layer
  induction layer with
  | nil => rfl
  | cons nd rest ih =>
    rw [List.map_cons, List.mapM_cons, parseNode_nodeToJson]
    simp only [Option.bind_eq_bind, Option.some_bind]
    rw [ih]
    simp only [Option.some_bind]
    rfl

theorem mapM_parseLayer_round : ∀ idx : List Layer,
    ((idx.map (fun layer => Json.arr (layer.map nodeToJson))).mapM
      parseLayer) = some idx := by
  intro idx
  induction idx with
  | nil => rfl
  | cons g rest ih =>
    rw [List.map_cons, List.mapM_cons,
      show parseLayer (.arr (g.map nodeToJson)) = some g from
        mapM_parseNode g]
    simp only [Option.bind_eq_bind, Option.some_bind]
    rw [ih]
    simp only [Option.some_bind]
    rfl

/-- The JSON round trip restores a round-trip-ready state exactly:
`fromJSON` re-reads the serialized scalars and nodes and its `setIndex`
pruning pass is the identity on canonical connection lists. -/
theorem round_trip {s : HIndex} (hr : RoundTripReady s) :
    fromJSON (HIndex.toJSON s) = .ok s := by
  obtain ⟨hlen, hL, hmc, hcan⟩ := hr
  have hfL : (HIndex.toJSON s).getField "L" =
      some (.num ((s.L : Nat) : ℚ)) := rfl
  have hfmL : (HIndex.toJSON s).getField "mL" = some (.num s.mL) := rfl
  have hfefc : (HIndex.toJSON s).getField "efc" =
      some (.num ((s.efc : Int) : ℚ)) := rfl
  have hfmc : (HIndex.toJSON s).getField "maxConnections" =
      some (.num ((s.maxConnections : Nat) : ℚ)) := rfl
  have hfidx : (HIndex.toJSON s).getField "index" =
      some (.arr (s.index.map (fun layer => .arr (layer.map nodeToJson)))) :=
    rfl
  unfold fromJSON
  rw [hfL, hfmL, hfefc, hfmc, hfidx]
  rw [if_neg (by simp)]
  simp only [Option.some_bind]
  rw [asInt_natCast s.L, show Json.asRat (.num s.mL) = some s.mL from rfl]
  rw [asInt_intCast s.efc, asInt_natCast s.maxConnections]
  dsimp only
  rw [if_neg (by omega)]
  rw [if_neg (by simp only [List.length_map]; omega)]
  rw [mapM_parseLayer_round s.index]
  dsimp only
  rw [show mkIndex ((s.L : Nat) : Int) s.mL s.efc
      ((s.maxConnections : Nat) : Int) =
      .ok ⟨s.L, s.mL, s.efc, s.maxConnections,
        List.replicate s.L []⟩ from by
    unfold mkIndex
    rw [if_neg (by omega)]
    rw [show (((s.L : Nat) : Int)).toNat = s.L from by omega]
    rw [show (max 1 ((s.maxConnections : Nat) : Int)) =
        ((s.maxConnections : Nat) : Int) from
      max_eq_right (by exact_mod_cast hmc)]
    rw [show (((s.maxConnections : Nat) : Int)).toNat = s.maxConnections
      from by omega]]
  dsimp only
  rw [show setIndex ⟨s.L, s.mL, s.efc, s.maxConnections,
      List.replicate s.L []⟩ s.index =
      ({ L := s.L, mL := s.mL, efc := s.efc,
         maxConnections := s.maxConnections, index := s.index }, none)
    from by
      unfold setIndex
      rw [show (⟨s.L, s.mL, s.efc, s.maxConnections,
          List.replicate s.L []⟩ : HIndex).maxConnections =
        s.maxConnections from rfl]
      rw [setIndexLayers_id s.maxConnections s.index hcan]]

/-- C5 counterexample: `setIndex` replaces the layers wholesale without
checking their count against `L`, so even a completed public `setIndex`
call can leave a state whose own serialization `fromJSON` rejects — the
round trip fails to succeed on that program state. -/
theorem round_trip_fails_after_setIndex :
    mkIndex 1 1 10 1 = .ok exampleB0 ∧
    (setIndex exampleB0 [[], []]).2 = none ∧
    fromJSON (HIndex.toJSON (setIndex exampleB0 [[], []]).1) =
      .error .malformed :=
  ⟨by with_unfolding_all rfl, by with_unfolding_all rfl,
   by with_unfolding_all rfl⟩

/-- C5 (amended): for every state reachable by construction, completed
inserts, and successful `fromJSON` loads, `fromJSON (toJSON x)` succeeds
and returns exactly `x`; hence the reconstructed index has the same number
of nodes in every layer and `search` answers every query identically
(distances exactly equal, node ids identical).  (For arbitrary program
states the claim fails: a completed `setIndex` whose layer count differs
from `L` — or a failed, partially pruning `setIndex` — leaves a state
whose serialization `fromJSON` rejects; see
`round_trip_fails_after_setIndex`.) -/
theorem json_round_trip (s : HIndex) (hr : Reach s) :
    fromJSON (HIndex.toJSON s) = .ok s ∧
    ∀ s', fromJSON (HIndex.toJSON s) = .ok s' →
      (∀ m, (s'.index.getD m []).length = (s.index.getD m []).length) ∧
      ∀ (q : Vec) (ef : Int), s'.search q ef = s.search q ef := by
  have h1 : fromJSON (HIndex.toJSON s) = .ok s := round_trip (reach_ready hr)
  refine ⟨h1, ?_⟩
  intro s' hs'
  rw [h1] at hs'
  injection hs' with hs'
  subst hs'
  exact ⟨fun m => rfl, fun q ef => rfl⟩

/-- Witness for `json_round_trip` at the concrete two-insert reachable
state `exampleA`. -/
theorem json_round_trip_witness :
    fromJSON (HIndex.toJSON exampleA) = .ok exampleA :=
  (json_round_trip exampleA
    (.ins [10] 1
      (.ins [0] 0
        (.base (show mkIndex 2 1 10 16 = .ok exampleA0 by
          with_unfolding_all rfl))
        (by with_unfolding_all rfl))
      (by with_unfolding_all rfl))).1

end HNSW
